import Mathlib

/-!
Verification of the Xiangqi engine in `src/services/engine.ts` (the
`EngineWorld` implementation).  The engine state and its operations are
shallowly embedded: the `Int8Array(256)` board becomes a function
`Int → Nat` read through `rdSq` (which models the JavaScript typed-array
semantics of returning `undefined` on an out-of-range index), moves are
the JavaScript numbers `(from << 8) | to` modelled as `Int` (they can be
negative, exactly as in the source), and the incremental Zobrist hash is
a `Nat` parameterised by the key tables `Z` and `SK`.
-/

namespace XQ

/-- Piece colour bit for Red, `RED = 8` in the source. -/
def RED : Nat := 8

/-- Piece colour bit for Black, `BLACK = 16` in the source. -/
def BLACK : Nat := 16

/-- `P_KING = 1`. -/
def P_KING : Nat := 1

/-- `P_ROOK = 5`. -/
def P_ROOK : Nat := 5

/-- `P_CANNON = 6`. -/
def P_CANNON : Nat := 6

/-- `P_PAWN = 7`. -/
def P_PAWN : Nat := 7

/-- `P_HORSE = 4`. -/
def P_HORSE : Nat := 4

/-- Square index `(r << 4) + c` (also for out-of-range rows, where the
JavaScript shift on a negative row yields a negative index). -/
def sqI (r c : Int) : Int := r * 16 + c

/-- Board read, modelling `this.board[i]` on an `Int8Array(256)`:
`some` of the stored byte for `0 ≤ i < 256`, `none` (JS `undefined`)
otherwise. -/
def rdSq (b : Int → Nat) (i : Int) : Option Nat :=
  if 0 ≤ i ∧ i < 256 then some (b i) else none

/-- Board read coerced to a number the way every arithmetic use in the
source coerces it (`undefined` behaves as `0` under `& mask`, as a falsy
test, and when stored back into the typed array). -/
def readP (b : Int → Nat) (i : Int) : Nat := (rdSq b i).getD 0

/-- Board write, modelling `this.board[i] = v`: out-of-range writes on a
typed array are silently dropped. -/
def wrSq (b : Int → Nat) (i : Int) (v : Nat) : Int → Nat :=
  fun j => if (0 ≤ i ∧ i < 256) ∧ j = i then v else b j

/-- Move decoding `move >> 8` (arithmetic shift = floor division). -/
def mvFrom (m : Int) : Int := Int.fdiv m 256

/-- Move decoding `move & 0xFF` (low byte of the two's complement). -/
def mvTo (m : Int) : Int := Int.emod m 256

/-- Move encoding `(from << 8) | to`.  All `from` squares are
non-negative and all destination values lie in `(-256, 256)`, so the
JavaScript two's-complement `or` equals `from * 256 + to` for a
non-negative `to` (disjoint bits) and swallows `from` entirely for a
negative `to` (whose high bits are all set); `mkMv_eq_lor` below proves
this definition equal to the literal bitwise form. -/
def mkMv (f t : Int) : Int := if 0 ≤ t then f * 256 + t else t

/-- `side === RED ? BLACK : RED`. -/
def oppOf (side : Nat) : Nat := if side = RED then BLACK else RED

/-- Engine position state: board, side to move, tracked king squares and
the incremental Zobrist hash (`currentHash`). -/
structure Pos where
  board : Int → Nat
  turn : Nat
  redKingPos : Int
  blackKingPos : Int
  currentHash : Nat

/-- `switchSide()`: flip the turn and XOR the side key into the hash. -/
def switchSide (SK : Nat) (s : Pos) : Pos :=
  { s with turn := oppOf s.turn, currentHash := s.currentHash ^^^ SK }

/-- `makeMove(move)` of `EngineWorld` (engine.ts lines 911-938): returns
the new position and the captured piece code. -/
def makeMove (Z : Nat → Nat → Nat) (SK : Nat) (m : Int) (s : Pos) : Pos × Nat :=
  let f := mvFrom m
  let t := mvTo m
  let captured := readP s.board t
  let piece := readP s.board f
  let h1 := if piece ≠ 0 then s.currentHash ^^^ Z f.toNat piece else s.currentHash
  let h2 := if captured ≠ 0 then h1 ^^^ Z t.toNat captured else h1
  let b2 := wrSq (wrSq s.board t piece) f 0
  let h3 := if piece ≠ 0 then h2 ^^^ Z t.toNat piece else h2
  let rk := if piece &&& 7 = P_KING ∧ piece &&& 24 = RED then t else s.redKingPos
  let bk := if piece &&& 7 = P_KING ∧ ¬piece &&& 24 = RED then t else s.blackKingPos
  (switchSide SK { board := b2, turn := s.turn, redKingPos := rk, blackKingPos := bk,
                   currentHash := h3 }, captured)

/-- `undoMove(move, captured)` of `EngineWorld` (engine.ts lines 940-962). -/
def undoMove (Z : Nat → Nat → Nat) (SK : Nat) (m : Int) (captured : Nat) (s : Pos) : Pos :=
  let f := mvFrom m
  let t := mvTo m
  let piece := readP s.board t
  let s1 := switchSide SK s
  let h1 := if piece ≠ 0 then s1.currentHash ^^^ Z t.toNat piece else s1.currentHash
  let h2 := if captured ≠ 0 then h1 ^^^ Z t.toNat captured else h1
  let h3 := if piece ≠ 0 then h2 ^^^ Z f.toNat piece else h2
  let b2 := wrSq (wrSq s1.board f piece) t captured
  let rk := if piece &&& 7 = P_KING ∧ piece &&& 24 = RED then f else s.redKingPos
  let bk := if piece &&& 7 = P_KING ∧ ¬piece &&& 24 = RED then f else s.blackKingPos
  { board := b2, turn := s1.turn, redKingPos := rk, blackKingPos := bk, currentHash := h3 }

/-- `addMove(moves, from, to, captureOnly)` (engine.ts lines 902-909),
returning the list of moves it pushes.  The `none` branch records the
JavaScript behaviour on an out-of-range destination: `undefined === 0`
is false and `(undefined & COLOR_MASK) !== turn` is `0 !== turn`. -/
def addMove (b : Int → Nat) (turn : Nat) (f t : Int) (co : Bool) : List Int :=
  match rdSq b t with
  | some target =>
      if target = 0 then (if co then [] else [mkMv f t])
      else if target &&& 24 ≠ turn then [mkMv f t] else []
  | none => if (0 : Nat) ≠ turn then [mkMv f t] else []

/-- King and rook/cannon direction table `[[0,1],[0,-1],[1,0],[-1,0]]`. -/
def orthDirs : List (Int × Int) := [(0, 1), (0, -1), (1, 0), (-1, 0)]

/-- Advisor direction table `[[1,1],[1,-1],[-1,1],[-1,-1]]`. -/
def advDirs : List (Int × Int) := [(1, 1), (1, -1), (-1, 1), (-1, -1)]

/-- Elephant direction table `[[2,2],[2,-2],[-2,2],[-2,-2]]`. -/
def eleDirs : List (Int × Int) := [(2, 2), (2, -2), (-2, 2), (-2, -2)]

/-- Horse direction table. -/
def horseDirs : List (Int × Int) :=
  [(-2, -1), (-2, 1), (2, -1), (2, 1), (-1, -2), (-1, 2), (1, -2), (1, 2)]

/-- King branch of `generateMoves`: note the palace test
`(side===RED && nr>=7) || (side===BLACK && nr<=2)` has no second row
bound, so `nr = 10` (Red) and `nr = -1` (Black) pass it. -/
def kingMoves (b : Int → Nat) (turn : Nat) (co : Bool) (r c : Int) : List Int :=
  orthDirs.flatMap (fun d =>
    let nr := r + d.1
    let nc := c + d.2
    if 3 ≤ nc ∧ nc ≤ 5 ∧ ((turn = RED ∧ 7 ≤ nr) ∨ (turn = BLACK ∧ nr ≤ 2)) then
      addMove b turn (sqI r c) (sqI nr nc) co
    else [])

/-- Advisor branch of `generateMoves` (same palace test as the king). -/
def advisorMoves (b : Int → Nat) (turn : Nat) (co : Bool) (r c : Int) : List Int :=
  advDirs.flatMap (fun d =>
    let nr := r + d.1
    let nc := c + d.2
    if 3 ≤ nc ∧ nc ≤ 5 ∧ ((turn = RED ∧ 7 ≤ nr) ∨ (turn = BLACK ∧ nr ≤ 2)) then
      addMove b turn (sqI r c) (sqI nr nc) co
    else [])

/-- Elephant branch of `generateMoves`. -/
def elephantMoves (b : Int → Nat) (turn : Nat) (co : Bool) (r c : Int) : List Int :=
  eleDirs.flatMap (fun d =>
    let nr := r + d.1
    let nc := c + d.2
    if 0 ≤ nr ∧ nr ≤ 9 ∧ 0 ≤ nc ∧ nc ≤ 8 then
      if turn = RED ∧ nr < 5 then []
      else if turn = BLACK ∧ 4 < nr then []
      else if readP b (sqI (r + d.1 / 2) (c + d.2 / 2)) = 0 then
        addMove b turn (sqI r c) (sqI nr nc) co
      else []
    else [])

/-- Horse branch of `generateMoves` (leg blocking). -/
def horseMoves (b : Int → Nat) (turn : Nat) (co : Bool) (r c : Int) : List Int :=
  horseDirs.flatMap (fun d =>
    let nr := r + d.1
    let nc := c + d.2
    if 0 ≤ nr ∧ nr ≤ 9 ∧ 0 ≤ nc ∧ nc ≤ 8 then
      let legR := r + (if d.1.natAbs = 2 then d.1 / 2 else 0)
      let legC := c + (if d.2.natAbs = 2 then d.2 / 2 else 0)
      if readP b (sqI legR legC) = 0 then addMove b turn (sqI r c) (sqI nr nc) co
      else []
    else [])

/-- Rook sliding loop `for (dist = 1; dist < 10; dist++)` in one
direction; `fuel` counts the remaining iterations (9 at the start). -/
def rookGo (b : Int → Nat) (enemy : Nat) (co : Bool) (f r c dr dc : Int) :
    Nat → Int → List Int
  | 0, _ => []
  | fuel + 1, dist =>
      let nr := r + dr * dist
      let nc := c + dc * dist
      if nr < 0 ∨ 9 < nr ∨ nc < 0 ∨ 8 < nc then []
      else
        let toSq := sqI nr nc
        let target := readP b toSq
        if target = 0 then
          (if co then [] else [mkMv f toSq]) ++ rookGo b enemy co f r c dr dc fuel (dist + 1)
        else if target &&& 24 = enemy then [mkMv f toSq]
        else []

/-- Cannon sliding loop with the screen flag `jump`. -/
def cannonGo (b : Int → Nat) (enemy : Nat) (co : Bool) (f r c dr dc : Int) :
    Nat → Int → Bool → List Int
  | 0, _, _ => []
  | fuel + 1, dist, jump =>
      let nr := r + dr * dist
      let nc := c + dc * dist
      if nr < 0 ∨ 9 < nr ∨ nc < 0 ∨ 8 < nc then []
      else
        let toSq := sqI nr nc
        let target := readP b toSq
        if jump = false then
          if target = 0 then
            (if co then [] else [mkMv f toSq]) ++ cannonGo b enemy co f r c dr dc fuel (dist + 1) false
          else cannonGo b enemy co f r c dr dc fuel (dist + 1) true
        else
          if target ≠ 0 then (if target &&& 24 = enemy then [mkMv f toSq] else [])
          else cannonGo b enemy co f r c dr dc fuel (dist + 1) true

/-- Pawn branch of `generateMoves`. -/
def pawnMoves (b : Int → Nat) (turn : Nat) (co : Bool) (r c : Int) : List Int :=
  let forward : Int := if turn = RED then -1 else 1
  let crossed : Bool := if turn = RED then decide (r ≤ 4) else decide (5 ≤ r)
  let fr := r + forward
  (if 0 ≤ fr ∧ fr ≤ 9 then addMove b turn (sqI r c) (sqI fr c) co else []) ++
  (if crossed then
      (if 0 < c then addMove b turn (sqI r c) (sqI r (c - 1)) co else []) ++
      (if c < 8 then addMove b turn (sqI r c) (sqI r (c + 1)) co else [])
    else [])

/-- Moves produced for the piece on square `(r, c)`: the `switch` body of
`generateMoves` (engine.ts lines 765-900). -/
def pieceMovesAt (b : Int → Nat) (turn enemy : Nat) (co : Bool) (r c : Int) : List Int :=
  let p := readP b (sqI r c)
  if p &&& 24 ≠ turn then []
  else
    let pt := p &&& 7
    if pt = 1 then kingMoves b turn co r c
    else if pt = 2 then advisorMoves b turn co r c
    else if pt = 3 then elephantMoves b turn co r c
    else if pt = 4 then horseMoves b turn co r c
    else if pt = 5 then orthDirs.flatMap (fun d => rookGo b enemy co (sqI r c) r c d.1 d.2 9 1)
    else if pt = 6 then
      orthDirs.flatMap (fun d => cannonGo b enemy co (sqI r c) r c d.1 d.2 9 1 false)
    else if pt = 7 then pawnMoves b turn co r c
    else []

/-- `generateMoves(captureOnly)` of `EngineWorld` (engine.ts lines
765-900): scan of the 10 × 9 grid in row-major order. -/
def generateMoves (co : Bool) (s : Pos) : List Int :=
  (List.range 10).flatMap (fun r =>
    (List.range 9).flatMap (fun c =>
      pieceMovesAt s.board s.turn (oppOf s.turn) co (Int.ofNat r) (Int.ofNat c)))

/-- List of the integers `a, a+1, …, b-1` (used for the flying-general
blocking scan `for (r = minR + 1; r < maxR; r++)`). -/
def intsRange (a b : Int) : List Int := (List.range (b - a).toNat).map (fun k => a + k)

/-- Flying-general test of `isKingInCheck` (engine.ts lines 971-983):
true when the two tracked kings share a file with nothing between. -/
def flyingFacing (s : Pos) (side : Nat) : Bool :=
  let kingPos := if side = RED then s.redKingPos else s.blackKingPos
  let kingC := Int.emod kingPos 16
  let other := if side = RED then s.blackKingPos else s.redKingPos
  if Int.emod other 16 = kingC then
    let minR := min (Int.fdiv kingPos 16) (Int.fdiv other 16)
    let maxR := max (Int.fdiv kingPos 16) (Int.fdiv other 16)
    (intsRange (minR + 1) maxR).all (fun r => readP s.board (sqI r kingC) = 0)
  else false

/-- Pawn test inside the sliding-attack scan of `isKingInCheck`
(engine.ts lines 1004-1015). -/
def pawnHit (enemy : Nat) (r c kingR kingC : Int) : Bool :=
  let pDr := r - kingR
  if pDr.natAbs + (c - kingC).natAbs = 1 then
    let crossed : Bool := if enemy = RED then decide (r ≤ 4) else decide (5 ≤ r)
    if crossed = false then
      if enemy = RED ∧ pDr = 1 then true
      else if enemy = BLACK ∧ pDr = -1 then true
      else false
    else
      if enemy = RED ∧ 0 ≤ pDr then true
      else if enemy = BLACK ∧ pDr ≤ 0 then true
      else false
  else false

/-- One sliding direction of the attack scan in `isKingInCheck`
(engine.ts lines 992-1027); `jump` counts whether a screen was met. -/
def rayGo (b : Int → Nat) (enemy : Nat) (kingR kingC dr dc : Int) :
    Nat → Int → Bool → Bool
  | 0, _, _ => false
  | fuel + 1, dist, jump =>
      let r := kingR + dr * dist
      let c := kingC + dc * dist
      if r < 0 ∨ 9 < r ∨ c < 0 ∨ 8 < c then false
      else
        let p := readP b (sqI r c)
        if p = 0 then rayGo b enemy kingR kingC dr dc fuel (dist + 1) jump
        else
          let hit : Bool :=
            if p &&& 24 = enemy then
              if jump = false ∧ (p &&& 7 = P_ROOK ∨ p &&& 7 = P_KING ∨ p &&& 7 = P_PAWN) then
                if p &&& 7 = P_PAWN then pawnHit enemy r c kingR kingC
                else if p &&& 7 = P_ROOK then true
                else false
              else if jump = true ∧ p &&& 7 = P_CANNON then true
              else false
            else false
          if hit then true
          else if jump = false then rayGo b enemy kingR kingC dr dc fuel (dist + 1) true
          else false

/-- Horse-attack test of `isKingInCheck` for one offset (engine.ts lines
1040-1053). -/
def horseHit (b : Int → Nat) (enemy : Nat) (kingR kingC dr dc : Int) : Bool :=
  let r := kingR + dr
  let c := kingC + dc
  if 0 ≤ r ∧ r ≤ 9 ∧ 0 ≤ c ∧ c ≤ 8 then
    let p := readP b (sqI r c)
    if p ≠ 0 ∧ p &&& 24 = enemy ∧ p &&& 7 = P_HORSE then
      let legR := if (-dr).natAbs = 2 then Int.fdiv (r + kingR) 2 else r
      let legC := if (-dc).natAbs = 2 then Int.fdiv (c + kingC) 2 else c
      readP b (sqI legR legC) = 0
    else false
  else false

/-- `isKingInCheck(side)` of `EngineWorld` (engine.ts lines 964-1056):
flying general, then the four sliding directions (rook / pawn / adjacent
king / cannon behind one screen), then the eight horse offsets. -/
def isKingInCheck (s : Pos) (side : Nat) : Bool :=
  let kingPos := if side = RED then s.redKingPos else s.blackKingPos
  let kingR := Int.fdiv kingPos 16
  let kingC := Int.emod kingPos 16
  let enemy := oppOf side
  flyingFacing s side ||
    orthDirs.any (fun d => rayGo s.board enemy kingR kingC d.1 d.2 9 1 false) ||
    horseDirs.any (fun d => horseHit s.board enemy kingR kingC d.1 d.2)

/-- Transposition-table entry: `{depth, score, type, move}`. -/
structure TTE where
  depth : Int
  score : Int
  ttype : Nat
  move : Int

/-- Search bookkeeping state shared across the whole query: the TT (an
association list, lookup finds the most recent binding exactly like a
`Map` after `set`), the 65536-entry history table, the killer table, the
node counter and the abort flag. -/
structure Stat where
  tt : List (Nat × TTE)
  hist : Int → Int
  killers : Nat → Int × Int
  nodes : Nat
  abort : Bool

/-- `this.tt.get(hash)`. -/
def ttGet (tt : List (Nat × TTE)) (h : Nat) : Option TTE := tt.lookup h

/-- `this.tt.set(hash, e)`. -/
def ttSet (tt : List (Nat × TTE)) (h : Nat) (e : TTE) : List (Nat × TTE) := (h, e) :: tt

/-- The node-count / deadline poll at the top of `search` and
`quiescence`: `nodes++; if ((nodes & 2047) === 0) if (Date.now() >
stopTime) abort = true`.  `clock n` models the value of `Date.now()` at
the poll reached with counter value `n`. -/
def tick (clock : Nat → Int) (stopTime : Int) (st : Stat) : Stat :=
  let n := st.nodes + 1
  { st with nodes := n,
            abort := if n % 2048 = 0 ∧ stopTime < clock n then true else st.abort }

/-- `PIECE_VALUE` table of the `EngineWorld` file. -/
def PIECE_VALUE : List Int := [0, 10000, 220, 220, 420, 950, 450, 100]

/-- `crossedRiver(r, isRed)`. -/
def crossedRiver (r : Int) (isRed : Bool) : Bool :=
  if isRed then decide (r ≤ 4) else decide (5 ≤ r)

/-- `evaluate()` of `EngineWorld` (engine.ts lines 1120-1169). -/
def evaluate (s : Pos) : Int :=
  let score := (List.range 256).foldl (fun score i =>
    if i % 16 < 9 ∧ i / 16 < 10 then
      let p := s.board (Int.ofNat i)
      if p ≠ 0 then
        let pt := p &&& 7
        let isRed := p &&& 24 = RED
        let r : Int := Int.ofNat (i / 16)
        let c : Int := Int.ofNat (i % 16)
        let v0 := PIECE_VALUE.getD pt 0
        let v :=
          if pt = 7 then
            let crossed := crossedRiver r isRed
            let advance : Int := if isRed then 9 - r else r
            let v1 := v0 + advance * 2
            if crossed then v1 + 30 + (if 3 ≤ c ∧ c ≤ 5 then 20 else 0) else v1
          else if pt = 4 then
            v0 + (if c = 4 then 15 else 0) + (if crossedRiver r isRed then 30 else 0)
          else if pt = 6 then
            v0 + (if c = 4 then 25 else 0) + (if crossedRiver r isRed then 15 else 0)
          else if pt = 5 then
            v0 + (if crossedRiver r isRed then 20 else 0) + (if 3 ≤ c ∧ c ≤ 5 then 10 else 0)
          else if pt = 1 then
            if (isRed ∧ 8 ≤ r) ∨ (¬isRed ∧ r ≤ 1) then v0 + 10 else v0 - 20
          else v0
        score + (if isRed then v else -v)
      else score
    else score) 0
  let score := score + Int.ofNat (s.currentHash &&& 31) - 16
  if s.turn = RED then score else -score

/-- `mvvLva(victim, attacker)`: `(PIECE_VALUE[v] << 4) - PIECE_VALUE[a]`. -/
def mvvLva (victim attacker : Nat) : Int :=
  PIECE_VALUE.getD (victim &&& 7) 0 * 16 - PIECE_VALUE.getD (attacker &&& 7) 0

/-- Score given to one move by `orderMoves` (engine.ts lines 1072-1098).
A quiet move with an out-of-range 16-bit index reads `undefined` from
the history `Int32Array`; the resulting `NaN` collapses to `0` when the
score is stored into the `Int32Array` of scores, which the final branch
models. -/
def moveScoreW (pos : Pos) (st : Stat) (tte : Option TTE) (plyIdx : Nat) (m : Int) : Int :=
  let ttB : Int := match tte with
    | some e => if e.move = m then 1000000 else 0
    | none => 0
  let captured := readP pos.board (mvTo m)
  if captured ≠ 0 then ttB + 500000 + mvvLva captured (readP pos.board (mvFrom m))
  else
    let ks := st.killers plyIdx
    let kB : Int := if ks.1 = m then 400000 else if ks.2 = m then 300000 else 0
    if 0 ≤ m ∧ m < 65536 then ttB + kB + st.hist m else 0

/-- List indexing used by the in-place selection sort. -/
def lGet (l : List Int) (i : Nat) : Int := l.getD i 0

/-- Swap of two positions, modelling the in-place exchange. -/
def lSwap (l : List Int) (i j : Nat) : List Int := (l.set i (lGet l j)).set j (lGet l i)

/-- Inner scan of the selection sort: find the index of the strictly
largest score at or after `best`, scanning from `j`; the fuel argument
(always at least the remaining scan length) only makes the recursion
structural. -/
def findBestIdx (scores : List Int) : Nat → Nat → Nat → Nat
  | 0, best, _ => best
  | fu + 1, best, j =>
      if j < scores.length then
        findBestIdx scores fu (if lGet scores best < lGet scores j then j else best) (j + 1)
      else best

/-- Outer loop of the selection sort of `orderMoves` (engine.ts lines
1101-1117), swapping both the score and the move arrays; the fuel
argument (always at least the remaining iteration count) only makes the
recursion structural. -/
def selSortGo : Nat → List Int → List Int → Nat → List Int
  | 0, _, moves, _ => moves
  | fu + 1, scores, moves, i =>
      if i + 1 < moves.length then
        let best := findBestIdx scores scores.length i (i + 1)
        if best ≠ i then selSortGo fu (lSwap scores i best) (lSwap moves i best) (i + 1)
        else selSortGo fu scores moves (i + 1)
      else moves

/-- `orderMoves(moves, ttEntry, ply)` (engine.ts lines 1064-1118). -/
def orderMoves (pos : Pos) (st : Stat) (tte : Option TTE) (ply : Nat) (moves : List Int) :
    List Int :=
  let plyIdx := if ply < 64 then ply else 63
  selSortGo moves.length (moves.map (moveScoreW pos st tte plyIdx)) moves 0

/-- Comparator key of the quiescence sort:
`(board[to] & TYPE_MASK) - (board[from] & TYPE_MASK)`. -/
def qKey (pos : Pos) (m : Int) : Int :=
  Int.ofNat (readP pos.board (mvTo m) &&& 7) - Int.ofNat (readP pos.board (mvFrom m) &&& 7)

/-- Stable descending insertion used to model the (stable) JavaScript
`Array.prototype.sort` with comparator `vB - vA`. -/
def qInsert (key : Int → Int) (m : Int) : List Int → List Int
  | [] => [m]
  | x :: xs => if key x < key m then m :: x :: xs else x :: qInsert key m xs

/-- The quiescence move sort. -/
def qSortMoves (key : Int → Int) (l : List Int) : List Int := l.foldr (qInsert key) []

/-- The capture loop of `quiescence`; `Q` performs the recursive
`quiescence` call on the position after `makeMove`. -/
def qloop (Z : Nat → Nat → Nat) (SK : Nat) (Q : Pos → Stat → Int → Int → Int × Stat)
    (pos : Pos) (beta : Int) :
    List Int → Int → Stat → Int × Stat
  | [], alpha, st => (alpha, st)
  | m :: rest, alpha, st =>
      let mk := makeMove Z SK m pos
      if isKingInCheck mk.1 (if mk.1.turn = RED then BLACK else RED) then
        qloop Z SK Q pos beta rest alpha st
      else
        let res := Q mk.1 st (-beta) (-alpha)
        let score := -res.1
        if res.2.abort then (alpha, res.2)
        else if beta ≤ score then (beta, res.2)
        else qloop Z SK Q pos beta rest (if alpha < score then score else alpha) res.2

/-- `quiescence(alpha, beta)` of `EngineWorld` (engine.ts lines
1292-1327).  The position is passed by value (the source mutates and
then undoes; `undoMove` is proved to be an exact inverse of `makeMove`,
so discarding the child position is the same as undoing).  `fuel` bounds
the recursion depth of the embedding. -/
def quiescence (Z : Nat → Nat → Nat) (SK : Nat) (clock : Nat → Int) (stopTime : Int) :
    Nat → Pos → Stat → Int → Int → Int × Stat
  | 0, _, st, alpha, _ => (alpha, st)
  | fuel + 1, pos, st0, alpha, beta =>
      let st := tick clock stopTime st0
      if st.abort then (alpha, st)
      else
        let standPat := evaluate pos
        if beta ≤ standPat then (beta, st)
        else
          let alpha := if alpha < standPat then standPat else alpha
          qloop Z SK (quiescence Z SK clock stopTime fuel) pos beta
            (qSortMoves (qKey pos) (generateMoves true pos)) alpha st

/-- Killer/history update performed on a beta cutoff by a quiet move
(engine.ts lines 1267-1275); an out-of-range move index leaves the
history `Int32Array` untouched. -/
def killHistUpdate (st : Stat) (ply : Nat) (m : Int) (depth1 : Int) : Stat :=
  let plyIdx := if ply < 64 then ply else 63
  let ks := st.killers plyIdx
  let killers' := if ks.1 ≠ m then (fun j => if j = plyIdx then (m, ks.1) else st.killers j)
                  else st.killers
  let hist' := if 0 ≤ m ∧ m < 65536 then
                 (fun x => if x = m then st.hist x + depth1 * depth1 else st.hist x)
               else st.hist
  { st with killers := killers', hist := hist' }

/-- Result of the move loop of `search`: either an in-loop `return`
(abort) or normal loop exit carrying the loop variables. -/
inductive SRes where
  | early (v : Int) (st : Stat)
  | done (alpha bestScore bestMove : Int) (tty legal : Nat) (st : Stat)

/-- The per-move PVS child computation of the `search` move loop
(engine.ts lines 1228-1250): full window for the first move, otherwise a
late-move-reduced null-window probe with up to two re-searches.  Returns
the score of the move together with the state left by the last child
call. -/
def pvsChild (S : Pos → Stat → Int → Int → Int → Int × Stat × Bool)
    (pos' : Pos) (captured : Nat) (depth1 beta : Int) (inCheck : Bool)
    (i legal' : Nat) (alpha : Int) (st : Stat) : Int × Stat :=
  if i = 0 then
    let r := S pos' st (depth1 - 1) (-beta) (-alpha)
    (-r.1, r.2.1)
  else
    let reduction : Int :=
      if 3 ≤ depth1 ∧ 4 < legal' ∧ captured = 0 ∧ inCheck = false then 1 else 0
    let r1 := S pos' st (depth1 - 1 - reduction) (-alpha - 1) (-alpha)
    let s1 := -r1.1
    let s2 :=
      if alpha < s1 ∧ 0 < reduction then
        let r2 := S pos' r1.2.1 (depth1 - 1) (-alpha - 1) (-alpha)
        (-r2.1, r2.2.1)
      else (s1, r1.2.1)
    if alpha < s2.1 ∧ s2.1 < beta then
      let r3 := S pos' s2.2 (depth1 - 1) (-beta) (-alpha)
      (-r3.1, r3.2.1)
    else s2

/-- The PVS move loop of `search` (engine.ts lines 1216-1278); `i` is
the loop index and `S` performs the recursive `search` call on the
position after `makeMove`: `S pos' st depth alpha beta` with the new
window (the `ply + 1` and `isNull = false` arguments are fixed by the
caller). -/
def sloop (Z : Nat → Nat → Nat) (SK : Nat)
    (S : Pos → Stat → Int → Int → Int → Int × Stat × Bool)
    (pos : Pos) (depth1 beta : Int) (ply : Nat) (inCheck : Bool) (i : Nat) :
    List Int → Int → Int → Int → Nat → Nat → Stat → SRes
  | [], alpha, bestScore, bestMove, tty, legal, st => .done alpha bestScore bestMove tty legal st
  | m :: rest, alpha, bestScore, bestMove, tty, legal, st =>
      let mk := makeMove Z SK m pos
      let pos' := mk.1
      let captured := mk.2
      if isKingInCheck pos' (if pos'.turn = RED then BLACK else RED) then
        sloop Z SK S pos depth1 beta ply inCheck (i + 1) rest alpha bestScore bestMove tty
          legal st
      else
        let legal' := legal + 1
        let cs : Int × Stat := pvsChild S pos' captured depth1 beta inCheck i legal' alpha st
        let score := cs.1
        let st' := cs.2
        if st'.abort then .early alpha st'
        else
          let bs' := if bestScore < score then score else bestScore
          let bm' := if bestScore < score then m else bestMove
          let alpha' := if alpha < score then score else alpha
          let tty' := if alpha < score then 0 else tty
          if beta ≤ alpha' then
            let st2 := if captured = 0 then killHistUpdate st' ply m depth1 else st'
            .done alpha' bs' bm' 1 legal' st2
          else
            sloop Z SK S pos depth1 beta ply inCheck (i + 1) rest alpha' bs' bm' tty' legal' st'

/-- The transposition-table probe at the top of `search` (engine.ts
lines 1188-1196): a hit usable at this depth and node type short-circuits
the frame with `some score`. -/
def ttProbe (tte : Option TTE) (depth alpha beta : Int) (inCheck : Bool) : Option Int :=
  match tte with
  | some e =>
      if depth ≤ e.depth ∧ inCheck = false then
        if e.ttype = 0 then some e.score
        else if e.ttype = 1 ∧ beta ≤ e.score then some e.score
        else if e.ttype = 2 ∧ e.score ≤ alpha then some e.score
        else none
      else none
  | none => none

/-- Post-processing of the null-move search result (engine.ts lines
1205-1213): an aborted child returns through the frame, a fail-high
returns `beta`, otherwise the move loop continues with the child's
state. -/
def nullRes (ns : Int × Stat × Bool) (alpha beta : Int) : (Int × Stat × Bool) ⊕ Stat :=
  let val := -ns.1
  if ns.2.1.abort then Sum.inl (alpha, ns.2.1, false)
  else if beta ≤ val then Sum.inl (beta, ns.2.1, false)
  else Sum.inr ns.2.1

/-- `search(depth, alpha, beta, ply, isNull)` of `EngineWorld`
(engine.ts lines 1171-1290).  Returns the score, the updated search
state, and a ghost flag recording whether THIS frame executed its final
`tt.set` (a pure observation used to state the abort/TT contract).
`fuel` bounds the recursion depth of the embedding (the source bounds it
only through the check-extension/time interaction). -/
def search (Z : Nat → Nat → Nat) (SK : Nat) (clock : Nat → Int) (stopTime : Int) :
    Nat → Pos → Stat → Int → Int → Int → Nat → Bool → Int × Stat × Bool
  | 0, _, st, _, alpha, _, _, _ => (alpha, st, false)
  | fuel + 1, pos, st0, depth, alpha, beta, ply, isNull =>
      let st := tick clock stopTime st0
      if st.abort then (alpha, st, false)
      else
        let inCheck := isKingInCheck pos pos.turn
        let hash := pos.currentHash
        let tte := ttGet st.tt hash
        match ttProbe tte depth alpha beta inCheck with
        | some v => (v, st, false)
        | none =>
          if depth ≤ 0 ∧ inCheck = false then
            let q := quiescence Z SK clock stopTime fuel pos st alpha beta
            (q.1, q.2, false)
          else
            let depth1 := if depth ≤ 0 then 1 else depth
            let nm : (Int × Stat × Bool) ⊕ Stat :=
              if isNull = false ∧ inCheck = false ∧ 3 ≤ depth1 then
                nullRes (search Z SK clock stopTime fuel (switchSide SK pos) st
                  (depth1 - 1 - 2) (-beta) (-beta + 1) (ply + 1) true) alpha beta
              else Sum.inr st
            match nm with
            | Sum.inl r => r
            | Sum.inr st1 =>
              let moves := orderMoves pos st1 tte ply (generateMoves false pos)
              match sloop Z SK
                  (fun p q d a b => search Z SK clock stopTime fuel p q d a b (ply + 1) false)
                  pos depth1 beta ply inCheck 0 moves alpha (-1000000000) 0 2 0 st1 with
              | .early v st2 => (v, st2, false)
              | .done _ bs bm tty legal st2 =>
                  if legal = 0 then ((if inCheck then -20000 + (ply : Int) else 0), st2, false)
                  else if bm ≠ 0 then
                    let stype := if bs ≤ alpha then 2 else tty
                    (bs, { st2 with
                           tt := ttSet st2.tt hash
                             { depth := depth1, score := bs, ttype := stype, move := bm } },
                      true)
                  else (bs, st2, false)

/-- The `Difficulty` enum of `types.ts`. -/
inductive Difficulty where
  | BEGINNER
  | INTERMEDIATE
  | EXPERT
  | MASTER
  | GRANDMASTER

/-- The `(maxDepth, timeLimit)` pair selected by the `switch` at the top
of `getBestMoveWorld` (engine.ts lines 1348-1372). -/
def difficultyParams : Difficulty → Nat × Nat
  | .BEGINNER => (3, 800)
  | .INTERMEDIATE => (5, 1500)
  | .EXPERT => (7, 2500)
  | .MASTER => (10, 4000)
  | .GRANDMASTER => (24, 6000)

/-- `worldEngine.stopTime = Date.now() + timeLimit` (engine.ts line 1374). -/
def gbmStopTime (now : Int) (d : Difficulty) : Int := now + Int.ofNat (difficultyParams d).2

/-- The depths iterated by `for (let d = 1; d <= maxDepth; d++)`. -/
def idDepths (d : Difficulty) : List Nat := (List.range (difficultyParams d).1).map (· + 1)

/-- One iteration of the aspiration-window logic of `getBestMoveWorld`
(engine.ts lines 1385-1395): `s1` is the result of the first
`search(d, alpha, beta, 0, false)` call and `s2` the result of the
full-window re-search executed when the window was missed.  Returns the
iteration's final score together with the `(alpha, beta)` window that is
left for the next iteration. -/
def aspirationStep (s1 s2 alpha beta : Int) : Int × Int × Int :=
  if s1 ≤ alpha ∨ beta ≤ s1 then (s2, -30000, 30000)
  else (s1, s1 - 50, s1 + 50)

/-- The root fallback of `getBestMoveWorld` (engine.ts lines 1410-1415):
when no best move was recorded, pick `moves[floor(random * length)]`
from the freshly generated pseudo-legal moves (no legality filter), or
return `null` when that list is empty.  `k` models the random index. -/
def fallbackChoice (s : Pos) (bestMoveVal : Int) (k : Nat) : Option Int :=
  if bestMoveVal = 0 then
    let moves := generateMoves false s
    if 0 < moves.length then some (moves.getD k 0) else none
  else some bestMoveVal

/-- Number of occupied slots of the 256-byte board array. -/
def pieceCount (b : Int → Nat) : Nat :=
  ((List.range 256).filter (fun i => b (Int.ofNat i) ≠ 0)).length

/-- Termination measure for `quiescence`: twice the piece count plus one
when Black is to move (Black's off-board king/advisor moves keep the
board but hand the turn to Red, every other generated capture removes a
piece). -/
def qMeasure (s : Pos) : Nat := 2 * pieceCount s.board + (if s.turn = BLACK then 1 else 0)

/-- The board produced by `loadBoard(createInitialBoard(), …)`: the
standard Xiangqi starting position in engine piece codes. -/
def startBoard : Int → Nat := fun i =>
  if i = 0 then 21 else if i = 1 then 20 else if i = 2 then 19 else if i = 3 then 18 else
  if i = 4 then 17 else if i = 5 then 18 else if i = 6 then 19 else if i = 7 then 20 else
  if i = 8 then 21 else
  if i = 33 then 22 else if i = 39 then 22 else
  if i = 48 then 23 else if i = 50 then 23 else if i = 52 then 23 else if i = 54 then 23 else
  if i = 56 then 23 else
  if i = 96 then 15 else if i = 98 then 15 else if i = 100 then 15 else if i = 102 then 15 else
  if i = 104 then 15 else
  if i = 113 then 14 else if i = 119 then 14 else
  if i = 144 then 13 else if i = 145 then 12 else if i = 146 then 11 else if i = 147 then 10 else
  if i = 148 then 9 else if i = 149 then 10 else if i = 150 then 11 else if i = 151 then 12 else
  if i = 152 then 13 else 0

/-- Starting position with Black to move. -/
def startB : Pos :=
  { board := startBoard, turn := BLACK, redKingPos := 148, blackKingPos := 4, currentHash := 0 }

/-- Starting position with Red to move. -/
def startR : Pos :=
  { board := startBoard, turn := RED, redKingPos := 148, blackKingPos := 4, currentHash := 0 }

/-- Two bare kings facing each other on file 4 (Red king `(9,4)`, Black
king `(0,4)`, nothing between). -/
def faceBoard : Int → Nat := fun i => if i = 148 then 9 else if i = 4 then 17 else 0

/-- Facing-kings position, Red to move. -/
def faceR : Pos :=
  { board := faceBoard, turn := RED, redKingPos := 148, blackKingPos := 4, currentHash := 0 }

/-- Facing-kings position, Black to move. -/
def faceB : Pos :=
  { board := faceBoard, turn := BLACK, redKingPos := 148, blackKingPos := 4, currentHash := 0 }

/-- Stalemate position: Black king `(2,4)`, Red pawns `(1,3)`, `(3,3)`,
`(3,5)`, Red king `(9,3)`; Black to move.  Black is not in check, black
has three pseudo-legal king moves and each leaves the king attacked by
a pawn. -/
def staleBoard : Int → Nat := fun i =>
  if i = 36 then 17 else if i = 19 then 15 else if i = 51 then 15 else if i = 53 then 15 else
  if i = 147 then 9 else 0

/-- The stalemate position (Black to move). -/
def stalePos : Pos :=
  { board := staleBoard, turn := BLACK, redKingPos := 147, blackKingPos := 36, currentHash := 0 }

/-- Pin position: Black king `(0,4)`, Black rook `(1,4)` pinned by the
Red rook `(5,4)`, Red king `(9,3)`; Black to move.  Moving the rook off
the file is pseudo-legal but leaves the king in check. -/
def pinBoard : Int → Nat := fun i =>
  if i = 4 then 17 else if i = 20 then 21 else if i = 84 then 13 else if i = 147 then 9 else 0

/-- The pin position (Black to move). -/
def pinPos : Pos :=
  { board := pinBoard, turn := BLACK, redKingPos := 147, blackKingPos := 4, currentHash := 0 }

/-- All-zero Zobrist table (concrete instantiation for evaluation). -/
def Zz : Nat → Nat → Nat := fun _ _ => 0

/-- Bare-kings position Red king `(9,3)`, Black king `(0,4)`, Red to
move (used by the concrete search runs). -/
def kkBoard : Int → Nat := fun i => if i = 147 then 9 else if i = 4 then 17 else 0

/-- Bare-kings position, Red to move. -/
def kkPos : Pos :=
  { board := kkBoard, turn := RED, redKingPos := 147, blackKingPos := 4, currentHash := 0 }

/-- Search state with the node counter placed just below a polling
boundary, so that the deadline poll fires in the middle of the root
move loop. -/
def stNear : Stat :=
  { tt := [], hist := fun _ => 0, killers := fun _ => (0, 0), nodes := 2040, abort := false }

/-- Fresh search state. -/
def stFresh : Stat :=
  { tt := [], hist := fun _ => 0, killers := fun _ => (0, 0), nodes := 0, abort := false }

/-- Clock that is already past a `stopTime` of `0` ("deadline elapsed"). -/
def clockLate : Nat → Int := fun _ => 1

/-- Clock that never passes a `stopTime` of `0` ("no deadline"). -/
def clockNever : Nat → Int := fun _ => 0

set_option maxRecDepth 200000

/-- Fidelity of the move encoding: on the ranges the generators produce
(`0 ≤ from`, `-256 < to < 256`), `mkMv` coincides with the literal
JavaScript `(from << 8) | to` on two's-complement integers. -/
theorem mkMv_eq_lor (f t : Int) (hf : 0 ≤ f) (h1 : -256 ≤ t) (h2 : t < 256) :
    mkMv f t = Int.lor (f * 256) t := by
  obtain ⟨a, rfl⟩ := Int.eq_ofNat_of_zero_le hf
  cases t with
  | ofNat n =>
      have h2' : (n : Int) < 256 := h2
      have hn : n < 256 := by omega
      rw [mkMv, if_pos (by exact Int.ofNat_nonneg n)]
      show Int.ofNat (a * 256 + n) = Int.ofNat (a * 256 ||| n)
      congr 1
      calc a * 256 + n = 2 ^ 8 * a + n := by ring
        _ = 2 ^ 8 * a ||| n := @Nat.mul_add_lt_is_or 8 n (by omega) a
        _ = a * 256 ||| n := by rw [Nat.mul_comm]
  | negSucc n =>
      have he : Int.negSucc n = -((n : Int) + 1) := Int.negSucc_eq n
      have hn : n < 256 := by omega
      have hneg : ¬ (0 : Int) ≤ Int.negSucc n := by omega
      rw [mkMv, if_neg hneg]
      show Int.negSucc n = Int.negSucc (Nat.ldiff n (a * 256))
      congr 1
      refine (Nat.eq_of_testBit_eq fun i => ?_).symm
      rw [Nat.testBit_ldiff]
      rcases lt_or_ge i 8 with hi | hi
      · have hz : (a * 256).testBit i = false := by
          have h256 : a * 256 = a <<< 8 := by rw [Nat.shiftLeft_eq]
          have hd : decide (8 ≤ i) = false := by
            simp only [decide_eq_false_iff_not]
            omega
          rw [h256, Nat.testBit_shiftLeft, hd]
          exact Bool.false_and _
        simp [hz]
      · have hz : n.testBit i = false := by
          apply Nat.testBit_lt_two_pow
          calc n < 256 := hn
            _ = 2 ^ 8 := by norm_num
            _ ≤ 2 ^ i := Nat.pow_le_pow_right (by norm_num) hi
        simp [hz]

/-- C7: `getBestMoveWorld` maps each difficulty to exactly the claimed
`(maxDepth, timeLimit)` pair — Beginner `(3, 800)`, Intermediate
`(5, 1500)`, Expert `(7, 2500)`, Master `(10, 4000)`, Grandmaster
`(24, 6000)` — the wall-clock deadline is `now + timeLimit`, and the
iterative-deepening loop runs exactly `maxDepth` iterations. -/
theorem C7_difficulty_mapping :
    difficultyParams Difficulty.BEGINNER = (3, 800) ∧
    difficultyParams Difficulty.INTERMEDIATE = (5, 1500) ∧
    difficultyParams Difficulty.EXPERT = (7, 2500) ∧
    difficultyParams Difficulty.MASTER = (10, 4000) ∧
    difficultyParams Difficulty.GRANDMASTER = (24, 6000) ∧
    (∀ now : Int, ∀ d : Difficulty, gbmStopTime now d = now + Int.ofNat (difficultyParams d).2) ∧
    (∀ d : Difficulty, (idDepths d).length = (difficultyParams d).1) := by
  refine ⟨rfl, rfl, rfl, rfl, rfl, fun now d => rfl, fun d => ?_⟩
  cases d <;> rfl

/-- C9 (counterexample): an iteration whose first search misses the
aspiration window (here score 60 against window `(-50, 50)`, full-window
re-search score 0) leaves the full window `(-30000, 30000)` for the next
iteration, not `(s − 50, s + 50) = (−50, 50)` as the claim states. -/
theorem C9_window_counterexample :
    aspirationStep 60 0 (-50) 50 = (0, -30000, 30000) ∧
    ¬ ((-30000 : Int) = 0 - 50 ∧ (30000 : Int) = 0 + 50) := by decide

/-- C9 (amended): after an iteration whose first search lands strictly
inside the window, the next window is exactly `(s − 50, s + 50)`; after
a missed window the final score is the full-window re-search result and
the next iteration keeps the full window `(−30000, 30000)`. -/
theorem C9_aspiration_window (s1 s2 alpha beta : Int) :
    (alpha < s1 ∧ s1 < beta → aspirationStep s1 s2 alpha beta = (s1, s1 - 50, s1 + 50)) ∧
    ((s1 ≤ alpha ∨ beta ≤ s1) → aspirationStep s1 s2 alpha beta = (s2, -30000, 30000)) := by
  constructor
  · intro h
    rw [aspirationStep, if_neg (by omega)]
  · intro h
    rw [aspirationStep, if_pos h]

/-- Witness for `C9_aspiration_window` at concrete scores. -/
theorem C9_aspiration_window_witness :
    aspirationStep 0 7 (-50) 50 = (0, 0 - 50, 0 + 50) ∧
    aspirationStep 60 3 (-50) 50 = (3, -30000, 30000) :=
  ⟨(C9_aspiration_window 0 7 (-50) 50).1 (by decide),
   (C9_aspiration_window 60 3 (-50) 50).2 (by decide)⟩

/-- C10: in the standard starting position `generateMoves` emits the
move `-12` for Black (king step to row `-1`), violating `0 ≤ m`, and the
move `38052` for Red (king step to row `10`), whose decoded destination
row is `10 > 9`; the claimed in-bounds safety property is false on the
code. -/
theorem C10_move_bounds_bug :
    (-12 : Int) ∈ generateMoves false startB ∧ ¬ (0 : Int) ≤ (-12 : Int) ∧
    (38052 : Int) ∈ generateMoves false startR ∧
    Int.fdiv (mvTo 38052) 16 = 10 ∧ ¬ Int.fdiv (mvTo 38052) 16 ≤ 9 := by decide

/-- C5: in the standard starting position with Black to move,
`generateMoves(true)` contains the move `-12`, whose destination (the
out-of-board slot `244` read as empty) holds no piece at all — the
captures-only list is not capture-exact. -/
theorem C5_capture_filter_bug :
    (-12 : Int) ∈ generateMoves true startB ∧ readP startB.board (mvTo (-12)) = 0 := by decide

/-- C3: in the stalemate position `stalePos`, Black is not in check,
every pseudo-legal Black move leaves the Black king in check (so Black
has no legal move), yet the move list is non-empty, so the root fallback
of `getBestMoveWorld` returns `some` pseudo-legal (illegal) move instead
of the `null` the claim requires. -/
theorem C3_stalemate_fallback :
    isKingInCheck stalePos BLACK = false ∧
    generateMoves false stalePos ≠ [] ∧
    ((generateMoves false stalePos).all fun m =>
      isKingInCheck (makeMove Zz 0 m stalePos).1 BLACK) = true ∧
    fallbackChoice stalePos 0 0 = some 9253 := by decide

/-- C8: in the pin position `pinPos` Black has a legal move (rook
`(1,4) → (2,4)`, move `5156`), but the unfiltered fallback with random
index `10` returns the pseudo-legal move `5136` (rook `(1,4) → (1,0)`),
which leaves the Black king in check — the returned move is not legal. -/
theorem C8_fallback_legality_bug :
    fallbackChoice pinPos 0 10 = some 5136 ∧
    (5136 : Int) ∈ generateMoves false pinPos ∧
    isKingInCheck (makeMove Zz 0 5136 pinPos).1 BLACK = true ∧
    (5156 : Int) ∈ generateMoves false pinPos ∧
    isKingInCheck (makeMove Zz 0 5156 pinPos).1 BLACK = false := by decide

/-- C2 (counterexample): with the two bare kings facing each other on
file 4, `isKingInCheck(RED)` is true (flying general) but no Black
pseudo-legal move has the Red king square as destination — the claimed
equivalence fails. -/
theorem C2_flying_general_counterexample :
    isKingInCheck faceR RED = true ∧
    ((generateMoves false faceB).all fun m => mvTo m != faceR.redKingPos) = true := by decide

/-- C6 (counterexample): in the facing-kings position with Black to
move, `generateMoves(true)` contains the non-capturing off-board move
`-12`, and making it leaves the piece count unchanged — the claimed
strict piece-count decrease fails. -/
theorem C6_pass_move_counterexample :
    (-12 : Int) ∈ generateMoves true faceB ∧
    pieceCount (makeMove Zz 0 (-12) faceB).1.board = pieceCount faceB.board := by decide

/-- C4 (counterexample): a concrete depth-1 search (bare kings, node
counter near the polling boundary, deadline already elapsed) in which
the first legal root move completes and raises alpha before the poll
sets `abort`: the frame returns `-10026`, its current alpha, not its
alpha argument `-30000`, so "every search frame returns its alpha
argument" is false as stated (no TT store is performed). -/
theorem C4_abort_counterexample :
    (search Zz 0 clockLate 0 4 kkPos stNear 1 (-30000) 30000 0 false).2.1.abort = true ∧
    (search Zz 0 clockLate 0 4 kkPos stNear 1 (-30000) 30000 0 false).1 = -10026 ∧
    (search Zz 0 clockLate 0 4 kkPos stNear 1 (-30000) 30000 0 false).2.2 = false ∧
    ¬ (search Zz 0 clockLate 0 4 kkPos stNear 1 (-30000) 30000 0 false).1 = -30000 := by decide

theorem mvFrom_mkMv_pos (f t : Int) (h0 : 0 ≤ t) (h1 : t < 256) : mvFrom (mkMv f t) = f := by
  rw [mkMv, if_pos h0, mvFrom, Int.fdiv_eq_ediv _ (by norm_num)]
  omega

theorem mvTo_mkMv_pos (f t : Int) (h0 : 0 ≤ t) (h1 : t < 256) : mvTo (mkMv f t) = t := by
  rw [mkMv, if_pos h0, mvTo]
  show (f * 256 + t) % 256 = t
  omega

theorem mvFrom_mkMv_neg (f t : Int) (h0 : -256 ≤ t) (h1 : t < 0) : mvFrom (mkMv f t) = -1 := by
  rw [mkMv, if_neg (by omega), mvFrom, Int.fdiv_eq_ediv _ (by norm_num)]
  omega

theorem mvTo_mkMv_neg (f t : Int) (h0 : -256 ≤ t) (h1 : t < 0) : mvTo (mkMv f t) = t + 256 := by
  rw [mkMv, if_neg (by omega), mvTo]
  show t % 256 = t + 256
  omega

theorem mem_addMove_imp {b : Int → Nat} {turn : Nat} {f t : Int} {co : Bool} {m : Int}
    (h : m ∈ addMove b turn f t co) :
    m = mkMv f t ∧
      (∀ v, rdSq b t = some v → (v = 0 → co = false) ∧ (v ≠ 0 → v &&& 24 ≠ turn)) := by
  unfold addMove at h
  cases hr : rdSq b t with
  | none =>
      simp only [hr] at h
      split at h <;> simp_all
  | some v =>
      simp only [hr] at h
      by_cases hv : v = 0
      · subst hv
        simp only [if_pos rfl] at h
        cases co <;> simp_all
      · rw [if_neg hv] at h
        split at h <;> simp_all



theorem mem_rookGo_imp {b : Int → Nat} {enemy : Nat} {co : Bool} {f r c dr dc : Int}
    (fuel : Nat) :
    ∀ (dist : Int) (m : Int), m ∈ rookGo b enemy co f r c dr dc fuel dist →
    ∃ d : Int, dist ≤ d ∧
      0 ≤ r + dr * d ∧ r + dr * d ≤ 9 ∧ 0 ≤ c + dc * d ∧ c + dc * d ≤ 8 ∧
      m = mkMv f (sqI (r + dr * d) (c + dc * d)) ∧
      ((readP b (sqI (r + dr * d) (c + dc * d)) = 0 ∧ co = false) ∨
       (readP b (sqI (r + dr * d) (c + dc * d)) ≠ 0 ∧
        readP b (sqI (r + dr * d) (c + dc * d)) &&& 24 = enemy)) := by
  induction fuel with
  | zero => intro dist m h; simp [rookGo] at h
  | succ fu ih =>
      intro dist m h
      rw [rookGo] at h
      by_cases hb : (r + dr * dist < 0 ∨ 9 < r + dr * dist ∨ c + dc * dist < 0 ∨ 8 < c + dc * dist)
      · rw [if_pos hb] at h
        simp at h
      · rw [if_neg hb] at h
        push_neg at hb
        obtain ⟨hb1, hb2, hb3, hb4⟩ := hb
        by_cases ht : readP b (sqI (r + dr * dist) (c + dc * dist)) = 0
        · rw [if_pos ht] at h
          rcases List.mem_append.1 h with h1 | h2
          · refine ⟨dist, le_refl _, hb1, hb2, hb3, hb4, ?_, Or.inl ⟨ht, ?_⟩⟩ <;>
              (cases co <;> simp_all)
          · obtain ⟨d, hd, rest⟩ := ih (dist + 1) m h2
            exact ⟨d, by omega, rest⟩
        · rw [if_neg ht] at h
          by_cases he : readP b (sqI (r + dr * dist) (c + dc * dist)) &&& 24 = enemy
          · rw [if_pos he] at h
            simp at h
            exact ⟨dist, le_refl _, hb1, hb2, hb3, hb4, h, Or.inr ⟨ht, he⟩⟩
          · rw [if_neg he] at h
            simp at h



theorem mem_cannonGo_imp {b : Int → Nat} {enemy : Nat} {co : Bool} {f r c dr dc : Int}
    (fuel : Nat) :
    ∀ (dist : Int) (jump : Bool) (m : Int), m ∈ cannonGo b enemy co f r c dr dc fuel dist jump →
    ∃ d : Int, dist ≤ d ∧
      0 ≤ r + dr * d ∧ r + dr * d ≤ 9 ∧ 0 ≤ c + dc * d ∧ c + dc * d ≤ 8 ∧
      m = mkMv f (sqI (r + dr * d) (c + dc * d)) ∧
      ((readP b (sqI (r + dr * d) (c + dc * d)) = 0 ∧ co = false) ∨
       (readP b (sqI (r + dr * d) (c + dc * d)) ≠ 0 ∧
        readP b (sqI (r + dr * d) (c + dc * d)) &&& 24 = enemy)) := by
  induction fuel with
  | zero => intro dist jump m h; simp [cannonGo] at h
  | succ fu ih =>
      intro dist jump m h
      rw [cannonGo] at h
      by_cases hb : (r + dr * dist < 0 ∨ 9 < r + dr * dist ∨ c + dc * dist < 0 ∨ 8 < c + dc * dist)
      · rw [if_pos hb] at h
        simp at h
      · rw [if_neg hb] at h
        push_neg at hb
        obtain ⟨hb1, hb2, hb3, hb4⟩ := hb
        cases jump with
        | false =>
            rw [if_pos rfl] at h
            by_cases ht : readP b (sqI (r + dr * dist) (c + dc * dist)) = 0
            · rw [if_pos ht] at h
              rcases List.mem_append.1 h with h1 | h2
              · refine ⟨dist, le_refl _, hb1, hb2, hb3, hb4, ?_, Or.inl ⟨ht, ?_⟩⟩ <;>
                  (cases co <;> simp_all)
              · obtain ⟨d, hd, rest⟩ := ih (dist + 1) false m h2
                exact ⟨d, by omega, rest⟩
            · rw [if_neg ht] at h
              obtain ⟨d, hd, rest⟩ := ih (dist + 1) true m h
              exact ⟨d, by omega, rest⟩
        | true =>
            rw [if_neg (by simp)] at h
            by_cases ht : readP b (sqI (r + dr * dist) (c + dc * dist)) ≠ 0
            · rw [if_pos ht] at h
              by_cases he : readP b (sqI (r + dr * dist) (c + dc * dist)) &&& 24 = enemy
              · rw [if_pos he] at h
                simp at h
                exact ⟨dist, le_refl _, hb1, hb2, hb3, hb4, h, Or.inr ⟨ht, he⟩⟩
              · rw [if_neg he] at h
                simp at h
            · rw [if_neg ht] at h
              push_neg at ht
              obtain ⟨d, hd, rest⟩ := ih (dist + 1) true m h
              exact ⟨d, by omega, rest⟩



theorem oppOf_ne (turn : Nat) : oppOf turn ≠ turn := by
  rw [oppOf]
  split <;> simp_all [RED, BLACK] <;> omega

theorem rdSq_valid {b : Int → Nat} {i : Int} (h0 : 0 ≤ i) (h1 : i < 256) :
    rdSq b i = some (b i) := by
  rw [rdSq, if_pos ⟨h0, h1⟩]

theorem readP_valid {b : Int → Nat} {i : Int} (h0 : 0 ≤ i) (h1 : i < 256) :
    readP b i = b i := by
  rw [readP, rdSq_valid h0 h1]
  rfl

theorem kingish_shape {b : Int → Nat} {turn : Nat} {co : Bool} {r c : Int} {m : Int}
    (dirs : List (Int × Int))
    (hdirs : ∀ d ∈ dirs, -1 ≤ d.1 ∧ d.1 ≤ 1 ∧ -1 ≤ d.2 ∧ d.2 ≤ 1 ∧ d ≠ (0, 0))
    (hr0 : 0 ≤ r) (hr9 : r ≤ 9) (hc0 : 0 ≤ c) (hc8 : c ≤ 8)
    (h : m ∈ dirs.flatMap (fun d =>
      if 3 ≤ c + d.2 ∧ c + d.2 ≤ 5 ∧ ((turn = RED ∧ 7 ≤ r + d.1) ∨ (turn = BLACK ∧ r + d.1 ≤ 2))
      then addMove b turn (sqI r c) (sqI (r + d.1) (c + d.2)) co
      else [])) :
    ∃ t : Int, m = mkMv (sqI r c) t ∧ -16 ≤ t ∧ t ≤ 165 ∧ t ≠ sqI r c ∧
      (t < 0 → turn = BLACK) ∧
      (0 ≤ t → ∀ v, rdSq b t = some v → (v = 0 → co = false) ∧ (v ≠ 0 → v &&& 24 ≠ turn)) := by
  simp only [List.mem_flatMap] at h
  obtain ⟨d, hd, h⟩ := h
  obtain ⟨hd1, hd2, hd3, hd4, hd5⟩ := hdirs d hd
  by_cases hcond :
      3 ≤ c + d.2 ∧ c + d.2 ≤ 5 ∧ ((turn = RED ∧ 7 ≤ r + d.1) ∨ (turn = BLACK ∧ r + d.1 ≤ 2))
  · rw [if_pos hcond] at h
    obtain ⟨hmk, hprop⟩ := mem_addMove_imp h
    obtain ⟨hcnd1, hcnd2, hcnd3⟩ := hcond
    have hne : (d.1, d.2) ≠ ((0 : Int), (0 : Int)) := by
      intro hcon
      exact hd5 (Prod.ext (congrArg Prod.fst hcon) (congrArg Prod.snd hcon))
    have hdd : d.1 ≠ 0 ∨ d.2 ≠ 0 := by
      by_contra hcon
      push_neg at hcon
      exact hne (by rw [hcon.1, hcon.2])
    refine ⟨sqI (r + d.1) (c + d.2), hmk, ?_, ?_, ?_, ?_, ?_⟩
    · rw [sqI]; omega
    · rw [sqI]; omega
    · rw [sqI, sqI]; omega
    · intro ht
      rw [sqI] at ht
      rcases hcnd3 with ⟨_, hge⟩ | ⟨hb, _⟩
      · omega
      · exact hb
    · intro _ v hv
      exact hprop v hv
  · rw [if_neg hcond] at h
    simp at h



theorem elephant_shape {b : Int → Nat} {turn : Nat} {co : Bool} {r c : Int} {m : Int}
    (hr0 : 0 ≤ r) (hr9 : r ≤ 9) (hc0 : 0 ≤ c) (hc8 : c ≤ 8)
    (h : m ∈ elephantMoves b turn co r c) :
    ∃ t : Int, m = mkMv (sqI r c) t ∧ 0 ≤ t ∧ t ≤ 152 ∧ t ≠ sqI r c ∧
      (0 ≤ t → ∀ v, rdSq b t = some v → (v = 0 → co = false) ∧ (v ≠ 0 → v &&& 24 ≠ turn)) := by
  rw [elephantMoves] at h
  simp only [List.mem_flatMap] at h
  obtain ⟨d, hd, h⟩ := h
  have hdb : (d.1 = 2 ∨ d.1 = -2) ∧ (d.2 = 2 ∨ d.2 = -2) := by
    simp [eleDirs] at hd
    rcases hd with h | h | h | h <;> rw [h] <;> simp
  by_cases hb : 0 ≤ r + d.1 ∧ r + d.1 ≤ 9 ∧ 0 ≤ c + d.2 ∧ c + d.2 ≤ 8
  · rw [if_pos hb] at h
    by_cases h1 : turn = RED ∧ r + d.1 < 5
    · rw [if_pos h1] at h; simp at h
    · rw [if_neg h1] at h
      by_cases h2 : turn = BLACK ∧ 4 < r + d.1
      · rw [if_pos h2] at h; simp at h
      · rw [if_neg h2] at h
        by_cases h3 : readP b (sqI (r + d.1 / 2) (c + d.2 / 2)) = 0
        · rw [if_pos h3] at h
          obtain ⟨hmk, hprop⟩ := mem_addMove_imp h
          refine ⟨sqI (r + d.1) (c + d.2), hmk, ?_, ?_, ?_, fun _ v hv => hprop v hv⟩
          · rw [sqI]; omega
          · rw [sqI]; omega
          · rw [sqI, sqI]; omega
        · rw [if_neg h3] at h; simp at h
  · rw [if_neg hb] at h; simp at h

theorem horse_shape {b : Int → Nat} {turn : Nat} {co : Bool} {r c : Int} {m : Int}
    (hr0 : 0 ≤ r) (hr9 : r ≤ 9) (hc0 : 0 ≤ c) (hc8 : c ≤ 8)
    (h : m ∈ horseMoves b turn co r c) :
    ∃ t : Int, m = mkMv (sqI r c) t ∧ 0 ≤ t ∧ t ≤ 152 ∧ t ≠ sqI r c ∧
      (0 ≤ t → ∀ v, rdSq b t = some v → (v = 0 → co = false) ∧ (v ≠ 0 → v &&& 24 ≠ turn)) := by
  rw [horseMoves] at h
  simp only [List.mem_flatMap] at h
  obtain ⟨d, hd, h⟩ := h
  have hdb : (d.1.natAbs = 2 ∧ d.2.natAbs = 1) ∨ (d.1.natAbs = 1 ∧ d.2.natAbs = 2) := by
    simp [horseDirs] at hd
    rcases hd with h | h | h | h | h | h | h | h <;> rw [h] <;> simp
  by_cases hb : 0 ≤ r + d.1 ∧ r + d.1 ≤ 9 ∧ 0 ≤ c + d.2 ∧ c + d.2 ≤ 8
  · rw [if_pos hb] at h
    by_cases h3 : readP b (sqI (r + (if d.1.natAbs = 2 then d.1 / 2 else 0))
        (c + (if d.2.natAbs = 2 then d.2 / 2 else 0))) = 0
    · rw [if_pos h3] at h
      obtain ⟨hmk, hprop⟩ := mem_addMove_imp h
      have hne : d.1 ≠ 0 := by
        rcases hdb with ⟨h1, _⟩ | ⟨h1, _⟩ <;> omega
      refine ⟨sqI (r + d.1) (c + d.2), hmk, ?_, ?_, ?_, fun _ v hv => hprop v hv⟩
      · rw [sqI]; omega
      · rw [sqI]; omega
      · rw [sqI, sqI]; omega
    · rw [if_neg h3] at h; simp at h
  · rw [if_neg hb] at h; simp at h

theorem pawn_shape {b : Int → Nat} {turn : Nat} {co : Bool} {r c : Int} {m : Int}
    (hr0 : 0 ≤ r) (hr9 : r ≤ 9) (hc0 : 0 ≤ c) (hc8 : c ≤ 8)
    (h : m ∈ pawnMoves b turn co r c) :
    ∃ t : Int, m = mkMv (sqI r c) t ∧ 0 ≤ t ∧ t ≤ 152 ∧ t ≠ sqI r c ∧
      (0 ≤ t → ∀ v, rdSq b t = some v → (v = 0 → co = false) ∧ (v ≠ 0 → v &&& 24 ≠ turn)) := by
  rw [pawnMoves] at h
  rcases List.mem_append.1 h with h1 | h2
  · by_cases hf : 0 ≤ r + (if turn = RED then (-1 : Int) else 1) ∧
        r + (if turn = RED then (-1 : Int) else 1) ≤ 9
    · rw [if_pos hf] at h1
      obtain ⟨hmk, hprop⟩ := mem_addMove_imp h1
      have hne : (if turn = RED then (-1 : Int) else 1) ≠ 0 := by split <;> omega
      refine ⟨sqI (r + (if turn = RED then (-1 : Int) else 1)) c, hmk, ?_, ?_, ?_,
        fun _ v hv => hprop v hv⟩
      · rw [sqI]; omega
      · rw [sqI]; omega
      · rw [sqI, sqI]; omega
    · rw [if_neg hf] at h1; simp at h1
  · by_cases hcr : (if turn = RED then decide (r ≤ 4) else decide (5 ≤ r)) = true
    · rw [if_pos hcr] at h2
      rcases List.mem_append.1 h2 with h3 | h4
      · by_cases hc : (0 : Int) < c
        · rw [if_pos hc] at h3
          obtain ⟨hmk, hprop⟩ := mem_addMove_imp h3
          refine ⟨sqI r (c - 1), hmk, ?_, ?_, ?_, fun _ v hv => hprop v hv⟩
          · rw [sqI]; omega
          · rw [sqI]; omega
          · rw [sqI, sqI]; omega
        · rw [if_neg hc] at h3; simp at h3
      · by_cases hc : c < (8 : Int)
        · rw [if_pos hc] at h4
          obtain ⟨hmk, hprop⟩ := mem_addMove_imp h4
          refine ⟨sqI r (c + 1), hmk, ?_, ?_, ?_, fun _ v hv => hprop v hv⟩
          · rw [sqI]; omega
          · rw [sqI]; omega
          · rw [sqI, sqI]; omega
        · rw [if_neg hc] at h4; simp at h4
    · rw [if_neg hcr] at h2; simp at h2



theorem slide_shape_aux {r c d1 d2 dd : Int}
    (hd : (d1, d2) ∈ orthDirs) (hdd : 1 ≤ dd)
    (hr0 : 0 ≤ r) (hr9 : r ≤ 9) (hc0 : 0 ≤ c) (hc8 : c ≤ 8)
    (hb1 : 0 ≤ r + d1 * dd) (hb2 : r + d1 * dd ≤ 9)
    (hb3 : 0 ≤ c + d2 * dd) (hb4 : c + d2 * dd ≤ 8) :
    0 ≤ sqI (r + d1 * dd) (c + d2 * dd) ∧ sqI (r + d1 * dd) (c + d2 * dd) ≤ 152 ∧
      sqI (r + d1 * dd) (c + d2 * dd) ≠ sqI r c := by
  have : (d1 = 0 ∧ d2 = 1) ∨ (d1 = 0 ∧ d2 = -1) ∨ (d1 = 1 ∧ d2 = 0) ∨ (d1 = -1 ∧ d2 = 0) := by
    simp [orthDirs] at hd
    tauto
  rcases this with ⟨e1, e2⟩ | ⟨e1, e2⟩ | ⟨e1, e2⟩ | ⟨e1, e2⟩ <;> subst e1 <;> subst e2 <;>
    rw [sqI, sqI] <;> omega

theorem rook_branch_shape {b : Int → Nat} {turn enemy : Nat} {co : Bool} {r c : Int} {m : Int}
    (henemy : enemy ≠ turn)
    (hr0 : 0 ≤ r) (hr9 : r ≤ 9) (hc0 : 0 ≤ c) (hc8 : c ≤ 8)
    (h : m ∈ orthDirs.flatMap (fun d => rookGo b enemy co (sqI r c) r c d.1 d.2 9 1)) :
    ∃ t : Int, m = mkMv (sqI r c) t ∧ 0 ≤ t ∧ t ≤ 152 ∧ t ≠ sqI r c ∧
      (0 ≤ t → ∀ v, rdSq b t = some v → (v = 0 → co = false) ∧ (v ≠ 0 → v &&& 24 ≠ turn)) := by
  simp only [List.mem_flatMap] at h
  obtain ⟨d, hd, h⟩ := h
  obtain ⟨dd, hdd, hb1, hb2, hb3, hb4, hmk, hcap⟩ := mem_rookGo_imp 9 1 m h
  obtain ⟨hq0, hq1, hq2⟩ :=
    @slide_shape_aux r c d.1 d.2 dd (by cases d; exact hd) hdd hr0 hr9 hc0 hc8 hb1 hb2 hb3 hb4
  have hv : readP b (sqI (r + d.1 * dd) (c + d.2 * dd)) = b (sqI (r + d.1 * dd) (c + d.2 * dd)) :=
    readP_valid hq0 (by omega)
  refine ⟨sqI (r + d.1 * dd) (c + d.2 * dd), hmk, hq0, hq1, hq2, ?_⟩
  intro _ v hvv
  rw [rdSq_valid hq0 (by omega)] at hvv
  injection hvv with hvv
  subst hvv
  rcases hcap with ⟨hz, hco⟩ | ⟨hnz, he⟩
  · rw [hv] at hz
    exact ⟨fun _ => hco, fun hne => absurd hz hne⟩
  · rw [hv] at hnz he
    exact ⟨fun hz => absurd hz hnz, fun _ => by rw [he]; exact henemy⟩

theorem cannon_branch_shape {b : Int → Nat} {turn enemy : Nat} {co : Bool} {r c : Int} {m : Int}
    (henemy : enemy ≠ turn)
    (hr0 : 0 ≤ r) (hr9 : r ≤ 9) (hc0 : 0 ≤ c) (hc8 : c ≤ 8)
    (h : m ∈ orthDirs.flatMap (fun d => cannonGo b enemy co (sqI r c) r c d.1 d.2 9 1 false)) :
    ∃ t : Int, m = mkMv (sqI r c) t ∧ 0 ≤ t ∧ t ≤ 152 ∧ t ≠ sqI r c ∧
      (0 ≤ t → ∀ v, rdSq b t = some v → (v = 0 → co = false) ∧ (v ≠ 0 → v &&& 24 ≠ turn)) := by
  simp only [List.mem_flatMap] at h
  obtain ⟨d, hd, h⟩ := h
  obtain ⟨dd, hdd, hb1, hb2, hb3, hb4, hmk, hcap⟩ := mem_cannonGo_imp 9 1 false m h
  obtain ⟨hq0, hq1, hq2⟩ :=
    @slide_shape_aux r c d.1 d.2 dd (by cases d; exact hd) hdd hr0 hr9 hc0 hc8 hb1 hb2 hb3 hb4
  have hv : readP b (sqI (r + d.1 * dd) (c + d.2 * dd)) = b (sqI (r + d.1 * dd) (c + d.2 * dd)) :=
    readP_valid hq0 (by omega)
  refine ⟨sqI (r + d.1 * dd) (c + d.2 * dd), hmk, hq0, hq1, hq2, ?_⟩
  intro _ v hvv
  rw [rdSq_valid hq0 (by omega)] at hvv
  injection hvv with hvv
  subst hvv
  rcases hcap with ⟨hz, hco⟩ | ⟨hnz, he⟩
  · rw [hv] at hz
    exact ⟨fun _ => hco, fun hne => absurd hz hne⟩
  · rw [hv] at hnz he
    exact ⟨fun hz => absurd hz hnz, fun _ => by rw [he]; exact henemy⟩



theorem and7_ne_zero {p k : Nat} (h : p &&& 7 = k) (hk : k ≠ 0) : p ≠ 0 := by
  intro hp
  subst hp
  simp at h
  exact hk h.symm

theorem mem_generateMoves_shape {co : Bool} {s : Pos} {m : Int} (hm : m ∈ generateMoves co s) :
    ∃ f t : Int, m = mkMv f t ∧ 0 ≤ f ∧ f ≤ 152 ∧ -16 ≤ t ∧ t ≤ 165 ∧ t ≠ f ∧
      s.board f ≠ 0 ∧ s.board f &&& 24 = s.turn ∧
      (t < 0 → s.turn = BLACK) ∧
      (0 ≤ t → ∀ v, rdSq s.board t = some v →
        (v = 0 → co = false) ∧ (v ≠ 0 → v &&& 24 ≠ s.turn)) := by
  rw [generateMoves] at hm
  simp only [List.mem_flatMap, List.mem_range] at hm
  obtain ⟨r, hr, c, hc, hm⟩ := hm
  have hr0 : (0 : Int) ≤ Int.ofNat r := by
    show (0 : Int) ≤ (r : Int)
    omega
  have hr9 : (Int.ofNat r) ≤ 9 := by
    show (r : Int) ≤ 9
    omega
  have hc0 : (0 : Int) ≤ Int.ofNat c := by
    show (0 : Int) ≤ (c : Int)
    omega
  have hc8 : (Int.ofNat c) ≤ 8 := by
    show (c : Int) ≤ 8
    omega
  have hf0 : (0 : Int) ≤ sqI (Int.ofNat r) (Int.ofNat c) := by rw [sqI]; omega
  have hf1 : sqI (Int.ofNat r) (Int.ofNat c) ≤ 152 := by rw [sqI]; omega
  have hrd : readP s.board (sqI (Int.ofNat r) (Int.ofNat c)) =
      s.board (sqI (Int.ofNat r) (Int.ofNat c)) := readP_valid hf0 (by omega)
  simp only [pieceMovesAt, hrd] at hm
  by_cases hg : s.board (sqI (Int.ofNat r) (Int.ofNat c)) &&& 24 ≠ s.turn
  · rw [if_pos hg] at hm
    simp at hm
  · rw [if_neg hg] at hm
    push_neg at hg
    set p := s.board (sqI (Int.ofNat r) (Int.ofNat c)) with hp
    by_cases h1 : p &&& 7 = 1
    · rw [if_pos h1] at hm
      obtain ⟨t, hmk, ht1, ht2, ht3, ht4, ht5⟩ :=
        kingish_shape orthDirs (by decide) hr0 hr9 hc0 hc8 hm
      exact ⟨_, t, hmk, hf0, hf1, ht1, ht2, ht3, and7_ne_zero h1 (by norm_num), hg, ht4, ht5⟩
    · rw [if_neg h1] at hm
      by_cases h2 : p &&& 7 = 2
      · rw [if_pos h2] at hm
        obtain ⟨t, hmk, ht1, ht2, ht3, ht4, ht5⟩ :=
          kingish_shape advDirs (by decide) hr0 hr9 hc0 hc8 hm
        exact ⟨_, t, hmk, hf0, hf1, ht1, ht2, ht3, and7_ne_zero h2 (by norm_num), hg, ht4, ht5⟩
      · rw [if_neg h2] at hm
        by_cases h3 : p &&& 7 = 3
        · rw [if_pos h3] at hm
          obtain ⟨t, hmk, ht1, ht2, ht3, ht5⟩ := elephant_shape hr0 hr9 hc0 hc8 hm
          exact ⟨_, t, hmk, hf0, hf1, by omega, by omega, ht3,
            and7_ne_zero h3 (by norm_num), hg, fun hlt => absurd hlt (by omega), ht5⟩
        · rw [if_neg h3] at hm
          by_cases h4 : p &&& 7 = 4
          · rw [if_pos h4] at hm
            obtain ⟨t, hmk, ht1, ht2, ht3, ht5⟩ := horse_shape hr0 hr9 hc0 hc8 hm
            exact ⟨_, t, hmk, hf0, hf1, by omega, by omega, ht3,
              and7_ne_zero h4 (by norm_num), hg, fun hlt => absurd hlt (by omega), ht5⟩
          · rw [if_neg h4] at hm
            by_cases h5 : p &&& 7 = 5
            · rw [if_pos h5] at hm
              obtain ⟨t, hmk, ht1, ht2, ht3, ht5⟩ :=
                rook_branch_shape (oppOf_ne s.turn) hr0 hr9 hc0 hc8 hm
              exact ⟨_, t, hmk, hf0, hf1, by omega, by omega, ht3,
                and7_ne_zero h5 (by norm_num), hg, fun hlt => absurd hlt (by omega), ht5⟩
            · rw [if_neg h5] at hm
              by_cases h6 : p &&& 7 = 6
              · rw [if_pos h6] at hm
                obtain ⟨t, hmk, ht1, ht2, ht3, ht5⟩ :=
                  cannon_branch_shape (oppOf_ne s.turn) hr0 hr9 hc0 hc8 hm
                exact ⟨_, t, hmk, hf0, hf1, by omega, by omega, ht3,
                  and7_ne_zero h6 (by norm_num), hg, fun hlt => absurd hlt (by omega), ht5⟩
              · rw [if_neg h6] at hm
                by_cases h7 : p &&& 7 = 7
                · rw [if_pos h7] at hm
                  obtain ⟨t, hmk, ht1, ht2, ht3, ht5⟩ := pawn_shape hr0 hr9 hc0 hc8 hm
                  exact ⟨_, t, hmk, hf0, hf1, by omega, by omega, ht3,
                    and7_ne_zero h7 (by norm_num), hg, fun hlt => absurd hlt (by omega), ht5⟩
                · rw [if_neg h7] at hm
                  simp at hm

theorem readP_invalid {b : Int → Nat} {i : Int} (h : ¬(0 ≤ i ∧ i < 256)) : readP b i = 0 := by
  rw [readP, rdSq, if_neg h]
  rfl

theorem wrSq_invalid {b : Int → Nat} {i : Int} (v : Nat) (h : ¬(0 ≤ i ∧ i < 256)) :
    wrSq b i v = b := by
  funext j
  rw [wrSq]
  split
  · next hc => exact absurd hc.1 h
  · rfl

theorem wrSq_at {b : Int → Nat} {i : Int} (v : Nat) (h0 : 0 ≤ i) (h1 : i < 256) :
    wrSq b i v i = v := by
  rw [wrSq, if_pos ⟨⟨h0, h1⟩, rfl⟩]

theorem wrSq_ne {b : Int → Nat} {i j : Int} (v : Nat) (h : j ≠ i) : wrSq b i v j = b j := by
  rw [wrSq]
  split
  · next hc => exact absurd hc.2 h
  · rfl

theorem oppOf_oppOf {tn : Nat} (h : tn = RED ∨ tn = BLACK) : oppOf (oppOf tn) = tn := by
  rcases h with h | h <;> subst h <;> rfl

theorem xor_unwind (h x : Nat) : h ^^^ x ^^^ x = h := by
  rw [Nat.xor_assoc, Nat.xor_self, Nat.xor_zero]

/-- C1: for a well-formed position (side to move is `RED` or `BLACK`,
each tracked king square points at the square a moving king actually
stands on) and any generated pseudo-legal move (a superset of the legal
moves), `undoMove` with the captured piece returned by `makeMove`
restores the board, both king squares, the side to move and the
incremental Zobrist hash exactly. -/
theorem C1_make_undo_roundtrip (Z : Nat → Nat → Nat) (SK : Nat) (s : Pos) (m : Int)
    (hturn : s.turn = RED ∨ s.turn = BLACK)
    (hm : m ∈ generateMoves false s)
    (hkr : readP s.board (mvFrom m) &&& 7 = P_KING → readP s.board (mvFrom m) &&& 24 = RED →
      s.redKingPos = mvFrom m)
    (hkb : readP s.board (mvFrom m) &&& 7 = P_KING → ¬readP s.board (mvFrom m) &&& 24 = RED →
      s.blackKingPos = mvFrom m) :
    undoMove Z SK m (makeMove Z SK m s).2 (makeMove Z SK m s).1 = s := by
  obtain ⟨f, t, hmk, hf0, hf1, ht0, ht1, hne, hbf, hbturn, hblack, hcap⟩ :=
    mem_generateMoves_shape hm
  subst hmk
  by_cases hts : 0 ≤ t
  · have hF : mvFrom (mkMv f t) = f := mvFrom_mkMv_pos f t hts (by omega)
    have hT : mvTo (mkMv f t) = t := mvTo_mkMv_pos f t hts (by omega)
    have hrpf : readP s.board f = s.board f := readP_valid hf0 (by omega)
    have hrpt : readP s.board t = s.board t := readP_valid hts (by omega)
    obtain ⟨bd, tn, rk, bk, hh⟩ := s
    simp only [makeMove, undoMove, switchSide, hF, hT, hrpf, hrpt] at *
    have hpb : readP (wrSq (wrSq bd t (bd f)) f 0) t = bd f := by
      rw [readP_valid hts (by omega), wrSq_ne _ hne, wrSq_at _ hts (by omega)]
    simp only [hpb, Pos.mk.injEq]
    refine ⟨?_, ?_, ?_, ?_, ?_⟩
    · funext j
      by_cases hjt : j = t
      · subst hjt
        rw [wrSq_at _ hts (by omega)]
      · rw [wrSq_ne _ hjt]
        by_cases hjf : j = f
        · subst hjf
          rw [wrSq_at _ hf0 (by omega)]
        · rw [wrSq_ne _ hjf, wrSq_ne _ hjf, wrSq_ne _ hjt]
    · exact oppOf_oppOf hturn
    · by_cases hk : bd f &&& 7 = P_KING ∧ bd f &&& 24 = RED
      · rw [if_pos hk]
        exact (hkr hk.1 hk.2).symm
      · rw [if_neg hk, if_neg hk]
    · by_cases hk : bd f &&& 7 = P_KING ∧ ¬bd f &&& 24 = RED
      · rw [if_pos hk]
        exact (hkb hk.1 hk.2).symm
      · rw [if_neg hk, if_neg hk]
    · simp only [if_pos hbf]
      by_cases hcapz : bd t ≠ 0
      · simp only [if_pos hcapz]
        rw [xor_unwind, xor_unwind, xor_unwind, xor_unwind]
      · simp only [if_neg hcapz]
        rw [xor_unwind, xor_unwind, xor_unwind]
  · push_neg at hts
    have hF : mvFrom (mkMv f t) = -1 := mvFrom_mkMv_neg f t (by omega) hts
    have hT : mvTo (mkMv f t) = t + 256 := mvTo_mkMv_neg f t (by omega) hts
    have hrpf : readP s.board (-1 : Int) = 0 := readP_invalid (by omega)
    have ht'0 : (0 : Int) ≤ t + 256 := by omega
    have ht'1 : t + 256 < 256 := by omega
    have hrpt : readP s.board (t + 256) = s.board (t + 256) := readP_valid ht'0 ht'1
    obtain ⟨bd, tn, rk, bk, hh⟩ := s
    simp only [makeMove, undoMove, switchSide, hF, hT, hrpf, hrpt] at *
    have hpb : readP (wrSq (wrSq bd (t + 256) 0) (-1) 0) (t + 256) = 0 := by
      rw [readP_valid ht'0 ht'1, wrSq_invalid _ (by omega), wrSq_at _ ht'0 ht'1]
    have hpb2 : readP (wrSq bd (t + 256) 0) (t + 256) = 0 := by
      rw [readP_valid ht'0 ht'1, wrSq_at _ ht'0 ht'1]
    simp only [hpb, hpb2, wrSq_invalid _ (show ¬((0 : Int) ≤ -1 ∧ (-1 : Int) < 256) by omega),
      Pos.mk.injEq]
    refine ⟨?_, ?_, ?_, ?_, ?_⟩
    · funext j
      by_cases hjt : j = t + 256
      · subst hjt
        rw [wrSq_at _ ht'0 ht'1]
      · rw [wrSq_ne _ hjt, wrSq_ne _ hjt]
    · exact oppOf_oppOf hturn
    · simp [P_KING]
    · simp [P_KING]
    · simp only [ne_eq, not_true_eq_false, if_false]
      by_cases hcapz : bd (t + 256) ≠ 0
      · simp only [if_pos hcapz]
        rw [xor_unwind, xor_unwind]
      · simp only [if_neg hcapz]
        rw [xor_unwind]

/-- Witness for `C1_make_undo_roundtrip`: the Black king move `9253`
in the stalemate position. -/
theorem C1_make_undo_roundtrip_witness :
    undoMove Zz 0 9253 (makeMove Zz 0 9253 stalePos).2 (makeMove Zz 0 9253 stalePos).1 =
      stalePos :=
  C1_make_undo_roundtrip Zz 0 stalePos 9253 (Or.inr rfl) (by decide) (by decide) (by decide)

end XQ

namespace XQ

theorem makeMove_board (Z : Nat → Nat → Nat) (SK : Nat) (m : Int) (s : Pos) :
    (makeMove Z SK m s).1.board =
      wrSq (wrSq s.board (mvTo m) (readP s.board (mvFrom m))) (mvFrom m) 0 := rfl

theorem makeMove_turn (Z : Nat → Nat → Nat) (SK : Nat) (m : Int) (s : Pos) :
    (makeMove Z SK m s).1.turn = oppOf s.turn := rfl

theorem filter_len_free (p q : Nat → Bool) (k : Nat) :
    ∀ l : List Nat, l.Nodup → k ∈ l → (∀ j ∈ l, j ≠ k → q j = p j) →
      p k = true → q k = false → (l.filter q).length + 1 = (l.filter p).length := by
  intro l
  induction l with
  | nil => intro _ hk; simp at hk
  | cons a l ih =>
      intro hnd hk hagree hp hq
      rcases List.mem_cons.mp hk with rfl | hkl
      · have hknotin : k ∉ l := (List.nodup_cons.mp hnd).1
        have heq : l.filter q = l.filter p :=
          List.filter_congr fun j hj =>
            hagree j (List.mem_cons_of_mem _ hj) (fun he => hknotin (he ▸ hj))
        rw [List.filter_cons, List.filter_cons, hp, hq]
        simp [heq]
      · have hak : a ≠ k := by
          rintro rfl
          exact (List.nodup_cons.mp hnd).1 hkl
        have hpa : q a = p a := hagree a (List.mem_cons_self a l) hak
        have hrec := ih (List.nodup_cons.mp hnd).2 hkl
          (fun j hj hjk => hagree j (List.mem_cons_of_mem _ hj) hjk) hp hq
        rw [List.filter_cons, List.filter_cons, hpa]
        by_cases hb : p a = true
        · rw [hb]
          simp [hrec]
        · rw [Bool.not_eq_true] at hb
          rw [hb]
          simpa using hrec

theorem pieceCount_wrSq_keep {b : Int → Nat} {i : Int} {v : Nat}
    (h : (b i ≠ 0) ↔ (v ≠ 0)) : pieceCount (wrSq b i v) = pieceCount b := by
  by_cases hi : 0 ≤ i ∧ i < 256
  · unfold pieceCount
    congr 1
    apply List.filter_congr
    intro j hj
    by_cases hji : Int.ofNat j = i
    · rw [hji, wrSq_at _ hi.1 hi.2]
      exact decide_eq_decide.mpr h.symm
    · rw [wrSq_ne _ hji]
  · rw [wrSq_invalid _ hi]

theorem pieceCount_wrSq_zero {b : Int → Nat} {i : Int}
    (h0 : 0 ≤ i) (h1 : i < 256) (hb : b i ≠ 0) :
    pieceCount (wrSq b i 0) + 1 = pieceCount b := by
  have hik : Int.ofNat i.toNat = i := Int.toNat_of_nonneg h0
  unfold pieceCount
  apply filter_len_free _ _ i.toNat _ (List.nodup_range 256) _ _ _ _
  · exact List.mem_range.mpr (by omega)
  · intro j _ hjk
    have hji : Int.ofNat j ≠ i := by
      intro he
      have he2 : (j : Int) = i := he
      apply hjk
      omega
    rw [wrSq_ne _ hji]
  · rw [hik]
    exact decide_eq_true hb
  · rw [hik, wrSq_at _ h0 h1]
    simp

theorem pieceCount_wrSq_zero_le {b : Int → Nat} {i : Int} :
    pieceCount (wrSq b i 0) ≤ pieceCount b := by
  by_cases hi : 0 ≤ i ∧ i < 256
  · by_cases hb : b i = 0
    · rw [pieceCount_wrSq_keep (by simp [hb])]
    · have := pieceCount_wrSq_zero hi.1 hi.2 hb
      omega
  · rw [wrSq_invalid _ hi]

/-- C6 (amended): every move generated in captures-only mode strictly
decreases `qMeasure` (twice the piece count plus the Black-to-move bit)
once made, so `quiescence` terminates: real captures remove a piece and
the off-board Black king/advisor pass moves hand the turn to Red without
adding material. -/
theorem C6_quiescence_measure (Z : Nat → Nat → Nat) (SK : Nat) (s : Pos) (m : Int)
    (hm : m ∈ generateMoves true s) :
    qMeasure (makeMove Z SK m s).1 < qMeasure s := by
  obtain ⟨f, t, hmk, hf0, hf1, ht0, ht1, htf, hbf, hcol, hneg, hcap⟩ :=
    mem_generateMoves_shape hm
  subst hmk
  rw [qMeasure, qMeasure, makeMove_board, makeMove_turn]
  by_cases hts : 0 ≤ t
  · have hF : mvFrom (mkMv f t) = f := mvFrom_mkMv_pos f t hts (by omega)
    have hT : mvTo (mkMv f t) = t := mvTo_mkMv_pos f t hts (by omega)
    have hrpf : readP s.board f = s.board f := readP_valid hf0 (by omega)
    have hst : s.board t ≠ 0 := by
      intro hz
      have := (hcap hts (s.board t) (rdSq_valid hts (by omega))).1 hz
      simp at this
    rw [hF, hT, hrpf]
    have hc1 : pieceCount (wrSq s.board t (s.board f)) = pieceCount s.board :=
      pieceCount_wrSq_keep (iff_of_true hst hbf)
    have hb1f : wrSq s.board t (s.board f) f = s.board f := wrSq_ne _ (Ne.symm htf)
    have hc2 : pieceCount (wrSq (wrSq s.board t (s.board f)) f 0) + 1 =
        pieceCount (wrSq s.board t (s.board f)) :=
      pieceCount_wrSq_zero hf0 (by omega) (by rw [hb1f]; exact hbf)
    have hbit1 : (if oppOf s.turn = BLACK then (1 : Nat) else 0) ≤ 1 := by
      split <;> omega
    omega
  · push_neg at hts
    have hturn : s.turn = BLACK := hneg hts
    have hF : mvFrom (mkMv f t) = -1 := mvFrom_mkMv_neg f t (by omega) hts
    have hT : mvTo (mkMv f t) = t + 256 := mvTo_mkMv_neg f t (by omega) hts
    have hrpf : readP s.board (-1 : Int) = 0 := readP_invalid (by omega)
    rw [hF, hT, hrpf, wrSq_invalid 0 (by omega : ¬((0:Int) ≤ -1 ∧ (-1:Int) < 256))]
    have hcle : pieceCount (wrSq s.board (t + 256) 0) ≤ pieceCount s.board :=
      pieceCount_wrSq_zero_le
    have hopp : oppOf s.turn = RED := by rw [hturn]; decide
    rw [hopp, hturn]
    rw [if_neg (by decide : ¬(RED = BLACK)), if_pos rfl]
    omega

theorem C6_quiescence_measure_witness :
    8593 ∈ generateMoves true startB ∧
      qMeasure (makeMove Zz 0 8593 startB).1 < qMeasure startB :=
  ⟨by decide, C6_quiescence_measure Zz 0 startB 8593 (by decide)⟩

end XQ

namespace XQ

theorem tick_abort_true {clock : Nat → Int} {stopTime : Int} {st : Stat}
    (h : st.abort = true) : (tick clock stopTime st).abort = true := by
  simp only [tick]
  split
  · rfl
  · exact h

theorem tick_tt (clock : Nat → Int) (stopTime : Int) (st : Stat) :
    (tick clock stopTime st).tt = st.tt := rfl

theorem killHistUpdate_abort (st : Stat) (ply : Nat) (m : Int) (d : Int) :
    (killHistUpdate st ply m d).abort = st.abort := rfl

theorem sloop_done_abort (Z : Nat → Nat → Nat) (SK : Nat)
    (S : Pos → Stat → Int → Int → Int → Int × Stat × Bool)
    (pos : Pos) (depth1 beta : Int) (ply : Nat) (inCheck : Bool) :
    ∀ (l : List Int) (i : Nat) (alpha bs bm : Int) (tty legal : Nat) (st : Stat)
      (a b c : Int) (d e : Nat) (st2 : Stat),
      st.abort = false →
      sloop Z SK S pos depth1 beta ply inCheck i l alpha bs bm tty legal st =
        .done a b c d e st2 →
      st2.abort = false := by
  intro l
  induction l with
  | nil =>
      intro i alpha bs bm tty legal st a b c d e st2 hab heq
      simp only [sloop] at heq
      cases heq
      exact hab
  | cons m rest ih =>
      intro i alpha bs bm tty legal st a b c d e st2 hab heq
      simp only [sloop] at heq
      set mk1 := (makeMove Z SK m pos).1 with hmk1
      set cap := (makeMove Z SK m pos).2 with hcap2
      set cs := pvsChild S mk1 cap depth1 beta inCheck i (legal + 1) alpha st with hcs
      by_cases hk : isKingInCheck mk1 (if mk1.turn = RED then BLACK else RED) = true
      · rw [if_pos hk] at heq
        exact ih _ _ _ _ _ _ _ _ _ _ _ _ _ hab heq
      · rw [if_neg hk] at heq
        by_cases hcsab : cs.2.abort = true
        · rw [if_pos hcsab] at heq
          exact SRes.noConfusion heq
        · rw [if_neg hcsab] at heq
          rw [Bool.not_eq_true] at hcsab
          by_cases hcut : beta ≤ if alpha < cs.1 then cs.1 else alpha
          · rw [if_pos hcut] at heq
            cases heq
            by_cases hc0 : cap = 0
            · rw [if_pos hc0, killHistUpdate_abort]
              exact hcsab
            · rw [if_neg hc0]
              exact hcsab
          · rw [if_neg hcut] at heq
            exact ih _ _ _ _ _ _ _ _ _ _ _ _ _ hcsab heq

theorem search_entry_abort (Z : Nat → Nat → Nat) (SK : Nat) (clock : Nat → Int)
    (stopTime : Int) (fu : Nat) (pos : Pos) (st : Stat) (depth alpha beta : Int)
    (ply : Nat) (isNull : Bool) (h : st.abort = true) :
    search Z SK clock stopTime (fu + 1) pos st depth alpha beta ply isNull =
      (alpha, tick clock stopTime st, false) := by
  simp only [search]
  rw [if_pos (tick_abort_true h)]

theorem quiescence_entry_abort (Z : Nat → Nat → Nat) (SK : Nat) (clock : Nat → Int)
    (stopTime : Int) (fu : Nat) (pos : Pos) (st : Stat) (alpha beta : Int)
    (h : st.abort = true) :
    quiescence Z SK clock stopTime (fu + 1) pos st alpha beta =
      (alpha, tick clock stopTime st) := by
  simp only [quiescence]
  rw [if_pos (tick_abort_true h)]

theorem nullRes_inl (ns : Int × Stat × Bool) (alpha beta : Int) (r : Int × Stat × Bool)
    (h : nullRes ns alpha beta = Sum.inl r) : r.2.2 = false := by
  simp only [nullRes] at h
  split at h
  · cases h
    rfl
  · split at h
    · cases h
      rfl
    · exact Sum.noConfusion h

theorem nullRes_inr (ns : Int × Stat × Bool) (alpha beta : Int) (st1 : Stat)
    (h : nullRes ns alpha beta = Sum.inr st1) : st1.abort = false := by
  simp only [nullRes] at h
  split at h
  · exact Sum.noConfusion h
  · split at h
    · exact Sum.noConfusion h
    · rename_i hab hns
      cases h
      rw [Bool.not_eq_true] at hab
      exact hab

theorem search_stored_abort (Z : Nat → Nat → Nat) (SK : Nat) (clock : Nat → Int)
    (stopTime : Int) (fu : Nat) (pos : Pos) (st0 : Stat) (depth alpha beta : Int)
    (ply : Nat) (isNull : Bool) (v : Int) (st2 : Stat)
    (heq : search Z SK clock stopTime fu pos st0 depth alpha beta ply isNull =
      (v, st2, true)) :
    st2.abort = false := by
  cases fu with
  | zero =>
      simp only [search] at heq
      simp at heq
  | succ fuel =>
      simp only [search] at heq
      by_cases h1 : (tick clock stopTime st0).abort = true
      · rw [if_pos h1] at heq
        simp at heq
      · rw [if_neg h1] at heq
        rw [Bool.not_eq_true] at h1
        split at heq
        · simp at heq
        · by_cases h2 : depth ≤ 0 ∧ isKingInCheck pos pos.turn = false
          · rw [if_pos h2] at heq
            simp at heq
          · rw [if_neg h2] at heq
            split at heq
            · rename_i r heq2
              by_cases h3 : isNull = false ∧ isKingInCheck pos pos.turn = false ∧
                  3 ≤ (if depth ≤ 0 then (1 : Int) else depth)
              · rw [if_pos h3] at heq2
                have hr := nullRes_inl _ _ _ _ heq2
                rw [heq] at hr
                simp at hr
              · rw [if_neg h3] at heq2
                exact Sum.noConfusion heq2
            · rename_i st1 heq2
              have hst1 : st1.abort = false := by
                by_cases h3 : isNull = false ∧ isKingInCheck pos pos.turn = false ∧
                    3 ≤ (if depth ≤ 0 then (1 : Int) else depth)
                · rw [if_pos h3] at heq2
                  exact nullRes_inr _ _ _ _ heq2
                · rw [if_neg h3] at heq2
                  cases heq2
                  exact h1
              split at heq
              · simp at heq
              · rename_i a1 bs bm tty legal st2' hsl
                split at heq
                · simp at heq
                · split at heq
                  · rw [Prod.mk.injEq, Prod.mk.injEq] at heq
                    obtain ⟨-, hst, -⟩ := heq
                    subst hst
                    show st2'.abort = false
                    exact sloop_done_abort _ _ _ _ _ _ _ _ _ _ _ _ _ _ _ _ _ _ _ _ _ _
                      hst1 hsl
                  · simp at heq


/-- C4 (amended): the node poll (`tick`) can only set, never clear, the
abort flag and leaves the transposition table untouched, so a `search`
frame entered with abort already set returns its `alpha` argument
immediately with no TT store and abort still set, and likewise for
`quiescence`; conversely every frame that does execute its final
`tt.set` (ghost flag `true`) finishes with abort clear, so no TT entry
is stored by a frame that observed the abort.  (A frame that observes
the abort only inside its move loop may however return a raised alpha,
not its `alpha` argument: see the counterexample.) -/
theorem C4_abort_tt_contract (Z : Nat → Nat → Nat) (SK : Nat) (clock : Nat → Int)
    (stopTime : Int) :
    (∀ (fu : Nat) (pos : Pos) (st : Stat) (depth alpha beta : Int) (ply : Nat)
        (isNull : Bool), st.abort = true →
        search Z SK clock stopTime (fu + 1) pos st depth alpha beta ply isNull =
          (alpha, tick clock stopTime st, false) ∧
        (tick clock stopTime st).abort = true ∧
        (tick clock stopTime st).tt = st.tt) ∧
    (∀ (fu : Nat) (pos : Pos) (st : Stat) (alpha beta : Int), st.abort = true →
        quiescence Z SK clock stopTime (fu + 1) pos st alpha beta =
          (alpha, tick clock stopTime st)) ∧
    (∀ (fu : Nat) (pos : Pos) (st : Stat) (depth alpha beta : Int) (ply : Nat)
        (isNull : Bool) (v : Int) (st2 : Stat),
        search Z SK clock stopTime fu pos st depth alpha beta ply isNull = (v, st2, true) →
        st2.abort = false) :=
  ⟨fun fu pos st depth alpha beta ply isNull h =>
      ⟨search_entry_abort Z SK clock stopTime fu pos st depth alpha beta ply isNull h,
       tick_abort_true h, tick_tt clock stopTime st⟩,
   fun fu pos st alpha beta h =>
      quiescence_entry_abort Z SK clock stopTime fu pos st alpha beta h,
   fun fu pos st depth alpha beta ply isNull v st2 heq =>
      search_stored_abort Z SK clock stopTime fu pos st depth alpha beta ply isNull v st2 heq⟩

set_option maxRecDepth 1000000 in
theorem C4_abort_tt_contract_witness :
    (search Zz 0 clockLate 0 1 kkPos { stFresh with abort := true } 2 (-30000) 30000 0 false =
      (-30000, tick clockLate 0 { stFresh with abort := true }, false)) ∧
    (quiescence Zz 0 clockLate 0 1 kkPos { stFresh with abort := true } (-30000) 30000 =
      (-30000, tick clockLate 0 { stFresh with abort := true })) ∧
    (search Zz 0 clockNever 0 3 kkPos stFresh 1 (-30000) 30000 0 false).2.1.abort = false := by
  have hstored : search Zz 0 clockNever 0 3 kkPos stFresh 1 (-30000) 30000 0 false =
      ((search Zz 0 clockNever 0 3 kkPos stFresh 1 (-30000) 30000 0 false).1,
       (search Zz 0 clockNever 0 3 kkPos stFresh 1 (-30000) 30000 0 false).2.1, true) := by
    have h22 : (search Zz 0 clockNever 0 3 kkPos stFresh 1 (-30000) 30000 0 false).2.2 =
        true := by decide
    rw [← h22]
  exact ⟨((C4_abort_tt_contract Zz 0 clockLate 0).1 0 kkPos _ 2 (-30000) 30000 0 false rfl).1,
         (C4_abort_tt_contract Zz 0 clockLate 0).2.1 0 kkPos _ (-30000) 30000 rfl,
         (C4_abort_tt_contract Zz 0 clockNever 0).2.2 3 kkPos stFresh 1 (-30000) 30000 0 false
           _ _ hstored⟩

end XQ

namespace XQ

theorem sqI_inj {r1 c1 r2 c2 : Int} (h1 : 0 ≤ c1) (h2 : c1 ≤ 15) (h3 : 0 ≤ c2)
    (h4 : c2 ≤ 15) (h : sqI r1 c1 = sqI r2 c2) : r1 = r2 ∧ c1 = c2 := by
  rw [sqI, sqI] at h
  omega

theorem mem_of_addMove_cap {b : Int → Nat} {turn : Nat} {f t : Int} {co : Bool}
    (h0 : 0 ≤ t) (h1 : t < 256) (hnz : b t ≠ 0) (hne : b t &&& 24 ≠ turn) :
    mkMv f t ∈ addMove b turn f t co := by
  rw [addMove, rdSq_valid h0 h1]
  simp only [if_neg hnz, if_pos hne]
  exact List.mem_singleton.mpr rfl

theorem rookGo_of_capture (b : Int → Nat) (en : Nat) (co : Bool) (f r c dr dc : Int) :
    ∀ (fuel : Nat) (dist k : Int), dist ≤ k → k < dist + (fuel : Int) →
      (∀ j : Int, dist ≤ j → j < k →
        (0 ≤ r + dr * j ∧ r + dr * j ≤ 9 ∧ 0 ≤ c + dc * j ∧ c + dc * j ≤ 8) ∧
        readP b (sqI (r + dr * j) (c + dc * j)) = 0) →
      (0 ≤ r + dr * k ∧ r + dr * k ≤ 9 ∧ 0 ≤ c + dc * k ∧ c + dc * k ≤ 8) →
      readP b (sqI (r + dr * k) (c + dc * k)) ≠ 0 →
      readP b (sqI (r + dr * k) (c + dc * k)) &&& 24 = en →
      mkMv f (sqI (r + dr * k) (c + dc * k)) ∈ rookGo b en co f r c dr dc fuel dist := by
  intro fuel
  induction fuel with
  | zero =>
      intro dist k h1 h2
      exact absurd h2 (by omega)
  | succ fu ih =>
      intro dist k h1 h2 hemp hbnd hnz hen
      simp only [rookGo]
      rcases eq_or_lt_of_le h1 with heq | hlt
      · subst heq
        rw [if_neg (by omega)]
        rw [if_neg hnz, if_pos hen]
        exact List.mem_singleton.mpr rfl
      · obtain ⟨hb, he⟩ := hemp dist (le_refl _) hlt
        rw [if_neg (by omega)]
        rw [if_pos he]
        apply List.mem_append_right
        exact ih (dist + 1) k (by omega) (by push_cast at h2 ⊢; omega)
          (fun j hj1 hj2 => hemp j (by omega) hj2) hbnd hnz hen

theorem rookGo_mem_cases (b : Int → Nat) (en : Nat) (co : Bool) (f r c dr dc : Int) :
    ∀ (fuel : Nat) (dist : Int) (m : Int), m ∈ rookGo b en co f r c dr dc fuel dist →
      ∃ k : Int, dist ≤ k ∧ k < dist + (fuel : Int) ∧
        (∀ j : Int, dist ≤ j → j < k →
          (0 ≤ r + dr * j ∧ r + dr * j ≤ 9 ∧ 0 ≤ c + dc * j ∧ c + dc * j ≤ 8) ∧
          readP b (sqI (r + dr * j) (c + dc * j)) = 0) ∧
        (0 ≤ r + dr * k ∧ r + dr * k ≤ 9 ∧ 0 ≤ c + dc * k ∧ c + dc * k ≤ 8) ∧
        m = mkMv f (sqI (r + dr * k) (c + dc * k)) ∧
        ((readP b (sqI (r + dr * k) (c + dc * k)) = 0 ∧ co = false) ∨
         (readP b (sqI (r + dr * k) (c + dc * k)) ≠ 0 ∧
          readP b (sqI (r + dr * k) (c + dc * k)) &&& 24 = en)) := by
  intro fuel
  induction fuel with
  | zero =>
      intro dist m hm
      simp [rookGo] at hm
  | succ fu ih =>
      intro dist m hm
      simp only [rookGo] at hm
      by_cases hb : r + dr * dist < 0 ∨ 9 < r + dr * dist ∨ c + dc * dist < 0 ∨ 8 < c + dc * dist
      · rw [if_pos hb] at hm
        simp at hm
      · rw [if_neg hb] at hm
        by_cases hz : readP b (sqI (r + dr * dist) (c + dc * dist)) = 0
        · rw [if_pos hz] at hm
          rcases List.mem_append.mp hm with hml | hmr
          · refine ⟨dist, le_refl _, by push_cast; omega, fun j hj1 hj2 => absurd hj1 (by omega),
              by omega, ?_, Or.inl ⟨hz, ?_⟩⟩
            · cases co with
              | false => simpa using hml
              | true => simp at hml
            · cases co with
              | false => rfl
              | true => simp at hml
          · obtain ⟨k, hk1, hk2, hke, hkb, hkm, hkc⟩ := ih (dist + 1) m hmr
            refine ⟨k, by omega, by push_cast at hk2 ⊢; omega, ?_, hkb, hkm, hkc⟩
            intro j hj1 hj2
            rcases eq_or_lt_of_le hj1 with rfl | hj
            · exact ⟨by omega, hz⟩
            · exact hke j (by omega) hj2
        · rw [if_neg hz] at hm
          by_cases hen : readP b (sqI (r + dr * dist) (c + dc * dist)) &&& 24 = en
          · rw [if_pos hen] at hm
            rw [List.mem_singleton] at hm
            exact ⟨dist, le_refl _, by push_cast; omega,
              fun j hj1 hj2 => absurd hj1 (by omega), by omega, hm, Or.inr ⟨hz, hen⟩⟩
          · rw [if_neg hen] at hm
            simp at hm

theorem cannonGo_true_of_capture (b : Int → Nat) (en : Nat) (co : Bool) (f r c dr dc : Int) :
    ∀ (fuel : Nat) (dist k : Int), dist ≤ k → k < dist + (fuel : Int) →
      (∀ j : Int, dist ≤ j → j < k →
        (0 ≤ r + dr * j ∧ r + dr * j ≤ 9 ∧ 0 ≤ c + dc * j ∧ c + dc * j ≤ 8) ∧
        readP b (sqI (r + dr * j) (c + dc * j)) = 0) →
      (0 ≤ r + dr * k ∧ r + dr * k ≤ 9 ∧ 0 ≤ c + dc * k ∧ c + dc * k ≤ 8) →
      readP b (sqI (r + dr * k) (c + dc * k)) ≠ 0 →
      readP b (sqI (r + dr * k) (c + dc * k)) &&& 24 = en →
      mkMv f (sqI (r + dr * k) (c + dc * k)) ∈ cannonGo b en co f r c dr dc fuel dist true := by
  intro fuel
  induction fuel with
  | zero =>
      intro dist k h1 h2
      exact absurd h2 (by omega)
  | succ fu ih =>
      intro dist k h1 h2 hemp hbnd hnz hen
      simp only [cannonGo]
      rcases eq_or_lt_of_le h1 with heq | hlt
      · subst heq
        rw [if_neg (by omega), if_neg (by simp : ¬(true = false)), if_pos hnz, if_pos hen]
        exact List.mem_singleton.mpr rfl
      · obtain ⟨hb, he⟩ := hemp dist (le_refl _) hlt
        rw [if_neg (by omega), if_neg (by simp : ¬(true = false)), if_neg (not_not_intro he)]
        exact ih (dist + 1) k (by omega) (by push_cast at h2 ⊢; omega)
          (fun j hj1 hj2 => hemp j (by omega) hj2) hbnd hnz hen

theorem cannonGo_false_of_capture (b : Int → Nat) (en : Nat) (co : Bool) (f r c dr dc : Int) :
    ∀ (fuel : Nat) (dist ds k : Int), dist ≤ ds → ds < k → k < dist + (fuel : Int) →
      (∀ j : Int, dist ≤ j → j < ds →
        (0 ≤ r + dr * j ∧ r + dr * j ≤ 9 ∧ 0 ≤ c + dc * j ∧ c + dc * j ≤ 8) ∧
        readP b (sqI (r + dr * j) (c + dc * j)) = 0) →
      (0 ≤ r + dr * ds ∧ r + dr * ds ≤ 9 ∧ 0 ≤ c + dc * ds ∧ c + dc * ds ≤ 8) →
      readP b (sqI (r + dr * ds) (c + dc * ds)) ≠ 0 →
      (∀ j : Int, ds < j → j < k →
        (0 ≤ r + dr * j ∧ r + dr * j ≤ 9 ∧ 0 ≤ c + dc * j ∧ c + dc * j ≤ 8) ∧
        readP b (sqI (r + dr * j) (c + dc * j)) = 0) →
      (0 ≤ r + dr * k ∧ r + dr * k ≤ 9 ∧ 0 ≤ c + dc * k ∧ c + dc * k ≤ 8) →
      readP b (sqI (r + dr * k) (c + dc * k)) ≠ 0 →
      readP b (sqI (r + dr * k) (c + dc * k)) &&& 24 = en →
      mkMv f (sqI (r + dr * k) (c + dc * k)) ∈ cannonGo b en co f r c dr dc fuel dist false := by
  intro fuel
  induction fuel with
  | zero =>
      intro dist ds k h1 h2 h3
      exact absurd h3 (by omega)
  | succ fu ih =>
      intro dist ds k h1 h2 h3 hemp1 hbs hs hemp2 hbnd hnz hen
      simp only [cannonGo]
      rcases eq_or_lt_of_le h1 with heq | hlt
      · subst heq
        rw [if_neg (by omega), if_pos trivial, if_neg hs]
        exact cannonGo_true_of_capture b en co f r c dr dc fu (dist + 1) k (by omega)
          (by push_cast at h3 ⊢; omega) (fun j hj1 hj2 => hemp2 j (by omega) hj2) hbnd hnz hen
      · obtain ⟨hb, he⟩ := hemp1 dist (le_refl _) hlt
        rw [if_neg (by omega), if_pos trivial, if_pos he]
        apply List.mem_append_right
        exact ih (dist + 1) ds k (by omega) h2 (by push_cast at h3 ⊢; omega)
          (fun j hj1 hj2 => hemp1 j (by omega) hj2) hbs hs hemp2 hbnd hnz hen

theorem cannonGo_true_cases (b : Int → Nat) (en : Nat) (co : Bool) (f r c dr dc : Int) :
    ∀ (fuel : Nat) (dist : Int) (m : Int), m ∈ cannonGo b en co f r c dr dc fuel dist true →
      ∃ k : Int, dist ≤ k ∧ k < dist + (fuel : Int) ∧
        (∀ j : Int, dist ≤ j → j < k →
          (0 ≤ r + dr * j ∧ r + dr * j ≤ 9 ∧ 0 ≤ c + dc * j ∧ c + dc * j ≤ 8) ∧
          readP b (sqI (r + dr * j) (c + dc * j)) = 0) ∧
        (0 ≤ r + dr * k ∧ r + dr * k ≤ 9 ∧ 0 ≤ c + dc * k ∧ c + dc * k ≤ 8) ∧
        m = mkMv f (sqI (r + dr * k) (c + dc * k)) ∧
        readP b (sqI (r + dr * k) (c + dc * k)) ≠ 0 ∧
        readP b (sqI (r + dr * k) (c + dc * k)) &&& 24 = en := by
  intro fuel
  induction fuel with
  | zero =>
      intro dist m hm
      simp [cannonGo] at hm
  | succ fu ih =>
      intro dist m hm
      simp only [cannonGo] at hm
      by_cases hb : r + dr * dist < 0 ∨ 9 < r + dr * dist ∨ c + dc * dist < 0 ∨ 8 < c + dc * dist
      · rw [if_pos hb] at hm
        simp at hm
      · rw [if_neg hb, if_neg (by simp : ¬(true = false))] at hm
        by_cases hz : readP b (sqI (r + dr * dist) (c + dc * dist)) = 0
        · rw [if_neg (not_not_intro hz)] at hm
          obtain ⟨k, hk1, hk2, hke, hkb, hkm, hknz, hken⟩ := ih (dist + 1) m hm
          refine ⟨k, by omega, by push_cast at hk2 ⊢; omega, ?_, hkb, hkm, hknz, hken⟩
          intro j hj1 hj2
          rcases eq_or_lt_of_le hj1 with rfl | hj
          · exact ⟨by omega, hz⟩
          · exact hke j (by omega) hj2
        · rw [if_pos hz] at hm
          by_cases hen : readP b (sqI (r + dr * dist) (c + dc * dist)) &&& 24 = en
          · rw [if_pos hen] at hm
            rw [List.mem_singleton] at hm
            exact ⟨dist, le_refl _, by push_cast; omega,
              fun j hj1 hj2 => absurd hj1 (by omega), by omega, hm, hz, hen⟩
          · rw [if_neg hen] at hm
            simp at hm

theorem cannonGo_false_cases (b : Int → Nat) (en : Nat) (co : Bool) (f r c dr dc : Int) :
    ∀ (fuel : Nat) (dist : Int) (m : Int), m ∈ cannonGo b en co f r c dr dc fuel dist false →
      (∃ k : Int, dist ≤ k ∧ k < dist + (fuel : Int) ∧
        (0 ≤ r + dr * k ∧ r + dr * k ≤ 9 ∧ 0 ≤ c + dc * k ∧ c + dc * k ≤ 8) ∧
        m = mkMv f (sqI (r + dr * k) (c + dc * k)) ∧
        readP b (sqI (r + dr * k) (c + dc * k)) = 0 ∧ co = false) ∨
      (∃ ds k : Int, dist ≤ ds ∧ ds < k ∧ k < dist + (fuel : Int) ∧
        (∀ j : Int, dist ≤ j → j < ds →
          (0 ≤ r + dr * j ∧ r + dr * j ≤ 9 ∧ 0 ≤ c + dc * j ∧ c + dc * j ≤ 8) ∧
          readP b (sqI (r + dr * j) (c + dc * j)) = 0) ∧
        (0 ≤ r + dr * ds ∧ r + dr * ds ≤ 9 ∧ 0 ≤ c + dc * ds ∧ c + dc * ds ≤ 8) ∧
        readP b (sqI (r + dr * ds) (c + dc * ds)) ≠ 0 ∧
        (∀ j : Int, ds < j → j < k →
          (0 ≤ r + dr * j ∧ r + dr * j ≤ 9 ∧ 0 ≤ c + dc * j ∧ c + dc * j ≤ 8) ∧
          readP b (sqI (r + dr * j) (c + dc * j)) = 0) ∧
        (0 ≤ r + dr * k ∧ r + dr * k ≤ 9 ∧ 0 ≤ c + dc * k ∧ c + dc * k ≤ 8) ∧
        m = mkMv f (sqI (r + dr * k) (c + dc * k)) ∧
        readP b (sqI (r + dr * k) (c + dc * k)) ≠ 0 ∧
        readP b (sqI (r + dr * k) (c + dc * k)) &&& 24 = en) := by
  intro fuel
  induction fuel with
  | zero =>
      intro dist m hm
      simp [cannonGo] at hm
  | succ fu ih =>
      intro dist m hm
      simp only [cannonGo] at hm
      by_cases hb : r + dr * dist < 0 ∨ 9 < r + dr * dist ∨ c + dc * dist < 0 ∨ 8 < c + dc * dist
      · rw [if_pos hb] at hm
        simp at hm
      · rw [if_neg hb, if_pos trivial] at hm
        by_cases hz : readP b (sqI (r + dr * dist) (c + dc * dist)) = 0
        · rw [if_pos hz] at hm
          rcases List.mem_append.mp hm with hml | hmr
          · refine Or.inl ⟨dist, le_refl _, by push_cast; omega, by omega, ?_, hz, ?_⟩
            · cases co with
              | false => simpa using hml
              | true => simp at hml
            · cases co with
              | false => rfl
              | true => simp at hml
          · rcases ih (dist + 1) m hmr with ⟨k, hk1, hk2, hkb, hkm, hkz, hco⟩ |
              ⟨ds, k, hd1, hd2, hk2, hde, hdb, hdnz, hke, hkb, hkm, hknz, hken⟩
            · exact Or.inl ⟨k, by omega, by push_cast at hk2 ⊢; omega, hkb, hkm, hkz, hco⟩
            · refine Or.inr ⟨ds, k, by omega, hd2, by push_cast at hk2 ⊢; omega, ?_, hdb,
                hdnz, hke, hkb, hkm, hknz, hken⟩
              intro j hj1 hj2
              rcases eq_or_lt_of_le hj1 with rfl | hj
              · exact ⟨by omega, hz⟩
              · exact hde j (by omega) hj2
        · rw [if_neg hz] at hm
          obtain ⟨k, hk1, hk2, hke, hkb, hkm, hknz, hken⟩ :=
            cannonGo_true_cases b en co f r c dr dc fu (dist + 1) m hm
          exact Or.inr ⟨dist, k, le_refl _, by omega, by push_cast at hk2 ⊢; omega,
            fun j hj1 hj2 => absurd hj1 (by omega), by omega,
            hz, fun j hj1 hj2 => hke j (by omega) hj2, hkb, hkm, hknz, hken⟩

end XQ

namespace XQ

theorem rayGo_true_sound (b : Int → Nat) (en : Nat) (kR kC dr dc : Int) :
    ∀ (fuel : Nat) (dist : Int), rayGo b en kR kC dr dc fuel dist true = true →
      ∃ k : Int, dist ≤ k ∧ k < dist + (fuel : Int) ∧
        (∀ j : Int, dist ≤ j → j < k →
          (0 ≤ kR + dr * j ∧ kR + dr * j ≤ 9 ∧ 0 ≤ kC + dc * j ∧ kC + dc * j ≤ 8) ∧
          readP b (sqI (kR + dr * j) (kC + dc * j)) = 0) ∧
        (0 ≤ kR + dr * k ∧ kR + dr * k ≤ 9 ∧ 0 ≤ kC + dc * k ∧ kC + dc * k ≤ 8) ∧
        readP b (sqI (kR + dr * k) (kC + dc * k)) ≠ 0 ∧
        readP b (sqI (kR + dr * k) (kC + dc * k)) &&& 24 = en ∧
        readP b (sqI (kR + dr * k) (kC + dc * k)) &&& 7 = P_CANNON := by
  intro fuel
  induction fuel with
  | zero =>
      intro dist h
      simp [rayGo] at h
  | succ fu ih =>
      intro dist h
      simp only [rayGo] at h
      by_cases hb : kR + dr * dist < 0 ∨ 9 < kR + dr * dist ∨ kC + dc * dist < 0 ∨
          8 < kC + dc * dist
      · rw [if_pos hb] at h
        exact absurd h (by simp)
      · rw [if_neg hb] at h
        push_neg at hb
        by_cases hz : readP b (sqI (kR + dr * dist) (kC + dc * dist)) = 0
        · rw [if_pos hz] at h
          obtain ⟨k, hk1, hk2, hke, hkb, hknz, hken, hkc⟩ := ih (dist + 1) h
          refine ⟨k, by omega, by push_cast at hk2 ⊢; omega, ?_, hkb, hknz, hken, hkc⟩
          intro j hj1 hj2
          rcases eq_or_lt_of_le hj1 with rfl | hj
          · exact ⟨by omega, hz⟩
          · exact hke j (by omega) hj2
        · rw [if_neg hz] at h
          by_cases hen : readP b (sqI (kR + dr * dist) (kC + dc * dist)) &&& 24 = en
          · rw [if_pos hen] at h
            rw [if_neg (by simp : ¬(true = false ∧
              (readP b (sqI (kR + dr * dist) (kC + dc * dist)) &&& 7 = P_ROOK ∨
               readP b (sqI (kR + dr * dist) (kC + dc * dist)) &&& 7 = P_KING ∨
               readP b (sqI (kR + dr * dist) (kC + dc * dist)) &&& 7 = P_PAWN)))] at h
            by_cases hp6 : readP b (sqI (kR + dr * dist) (kC + dc * dist)) &&& 7 = P_CANNON
            · exact ⟨dist, le_refl _, by push_cast; omega,
                fun j hj1 hj2 => absurd hj1 (by omega), by omega, hz, hen, hp6⟩
            · rw [if_neg (show ¬(True ∧
                  readP b (sqI (kR + dr * dist) (kC + dc * dist)) &&& 7 = P_CANNON)
                  from fun hc => hp6 hc.2)] at h
              rw [if_neg (show ¬((false : Bool) = true) by simp)] at h
              rw [if_neg (show ¬((true : Bool) = false) by simp)] at h
              exact absurd h (by simp)
          · rw [if_neg hen] at h
            rw [if_neg (show ¬((false : Bool) = true) by simp)] at h
            rw [if_neg (show ¬((true : Bool) = false) by simp)] at h
            exact absurd h (by simp)

theorem rayGo_false_sound (b : Int → Nat) (en : Nat) (kR kC dr dc : Int) :
    ∀ (fuel : Nat) (dist : Int), rayGo b en kR kC dr dc fuel dist false = true →
      ∃ k : Int, dist ≤ k ∧ k < dist + (fuel : Int) ∧
        (∀ j : Int, dist ≤ j → j < k →
          (0 ≤ kR + dr * j ∧ kR + dr * j ≤ 9 ∧ 0 ≤ kC + dc * j ∧ kC + dc * j ≤ 8) ∧
          readP b (sqI (kR + dr * j) (kC + dc * j)) = 0) ∧
        (0 ≤ kR + dr * k ∧ kR + dr * k ≤ 9 ∧ 0 ≤ kC + dc * k ∧ kC + dc * k ≤ 8) ∧
        readP b (sqI (kR + dr * k) (kC + dc * k)) ≠ 0 ∧
        ((readP b (sqI (kR + dr * k) (kC + dc * k)) &&& 24 = en ∧
          (readP b (sqI (kR + dr * k) (kC + dc * k)) &&& 7 = P_ROOK ∨
           (readP b (sqI (kR + dr * k) (kC + dc * k)) &&& 7 = P_PAWN ∧
            pawnHit en (kR + dr * k) (kC + dc * k) kR kC = true))) ∨
         (∃ k2 : Int, k < k2 ∧ k2 < dist + (fuel : Int) ∧
           (∀ j : Int, k < j → j < k2 →
             (0 ≤ kR + dr * j ∧ kR + dr * j ≤ 9 ∧ 0 ≤ kC + dc * j ∧ kC + dc * j ≤ 8) ∧
             readP b (sqI (kR + dr * j) (kC + dc * j)) = 0) ∧
           (0 ≤ kR + dr * k2 ∧ kR + dr * k2 ≤ 9 ∧ 0 ≤ kC + dc * k2 ∧ kC + dc * k2 ≤ 8) ∧
           readP b (sqI (kR + dr * k2) (kC + dc * k2)) ≠ 0 ∧
           readP b (sqI (kR + dr * k2) (kC + dc * k2)) &&& 24 = en ∧
           readP b (sqI (kR + dr * k2) (kC + dc * k2)) &&& 7 = P_CANNON)) := by
  intro fuel
  induction fuel with
  | zero =>
      intro dist h
      simp [rayGo] at h
  | succ fu ih =>
      intro dist h
      simp only [rayGo] at h
      by_cases hb : kR + dr * dist < 0 ∨ 9 < kR + dr * dist ∨ kC + dc * dist < 0 ∨
          8 < kC + dc * dist
      · rw [if_pos hb] at h
        exact absurd h (by simp)
      · rw [if_neg hb] at h
        push_neg at hb
        by_cases hz : readP b (sqI (kR + dr * dist) (kC + dc * dist)) = 0
        · rw [if_pos hz] at h
          obtain ⟨k, hk1, hk2, hke, hkb, hknz, hrest⟩ := ih (dist + 1) h
          refine ⟨k, by omega, by push_cast at hk2 ⊢; omega, ?_, hkb, hknz, ?_⟩
          · intro j hj1 hj2
            rcases eq_or_lt_of_le hj1 with rfl | hj
            · exact ⟨by omega, hz⟩
            · exact hke j (by omega) hj2
          · rcases hrest with hfirst | ⟨k2, hq1, hq2, hqe, hqb, hqnz, hqen, hqc⟩
            · exact Or.inl hfirst
            · exact Or.inr ⟨k2, hq1, by push_cast at hq2 ⊢; omega, hqe, hqb, hqnz, hqen, hqc⟩
        · rw [if_neg hz] at h
          have hcont : rayGo b en kR kC dr dc fu (dist + 1) true = true →
              ∃ k : Int, dist ≤ k ∧ k < dist + (((fu + 1) : Nat) : Int) ∧
                (∀ j : Int, dist ≤ j → j < k →
                  (0 ≤ kR + dr * j ∧ kR + dr * j ≤ 9 ∧ 0 ≤ kC + dc * j ∧ kC + dc * j ≤ 8) ∧
                  readP b (sqI (kR + dr * j) (kC + dc * j)) = 0) ∧
                (0 ≤ kR + dr * k ∧ kR + dr * k ≤ 9 ∧ 0 ≤ kC + dc * k ∧ kC + dc * k ≤ 8) ∧
                readP b (sqI (kR + dr * k) (kC + dc * k)) ≠ 0 ∧
                ((readP b (sqI (kR + dr * k) (kC + dc * k)) &&& 24 = en ∧
                  (readP b (sqI (kR + dr * k) (kC + dc * k)) &&& 7 = P_ROOK ∨
                   (readP b (sqI (kR + dr * k) (kC + dc * k)) &&& 7 = P_PAWN ∧
                    pawnHit en (kR + dr * k) (kC + dc * k) kR kC = true))) ∨
                 (∃ k2 : Int, k < k2 ∧ k2 < dist + (((fu + 1) : Nat) : Int) ∧
                   (∀ j : Int, k < j → j < k2 →
                     (0 ≤ kR + dr * j ∧ kR + dr * j ≤ 9 ∧ 0 ≤ kC + dc * j ∧
                      kC + dc * j ≤ 8) ∧
                     readP b (sqI (kR + dr * j) (kC + dc * j)) = 0) ∧
                   (0 ≤ kR + dr * k2 ∧ kR + dr * k2 ≤ 9 ∧ 0 ≤ kC + dc * k2 ∧
                    kC + dc * k2 ≤ 8) ∧
                   readP b (sqI (kR + dr * k2) (kC + dc * k2)) ≠ 0 ∧
                   readP b (sqI (kR + dr * k2) (kC + dc * k2)) &&& 24 = en ∧
                   readP b (sqI (kR + dr * k2) (kC + dc * k2)) &&& 7 = P_CANNON)) := by
            intro hh
            obtain ⟨k2, hq1, hq2, hqe, hqb, hqnz, hqen, hqc⟩ :=
              rayGo_true_sound b en kR kC dr dc fu (dist + 1) hh
            exact ⟨dist, le_refl _, by push_cast; omega,
              fun j hj1 hj2 => absurd hj1 (by omega), by omega, hz,
              Or.inr ⟨k2, by omega, by push_cast at hq2 ⊢; omega,
                fun j hj1 hj2 => hqe j (by omega) hj2, hqb, hqnz, hqen, hqc⟩⟩
          by_cases hen : readP b (sqI (kR + dr * dist) (kC + dc * dist)) &&& 24 = en
          · rw [if_pos hen] at h
            by_cases hpk : readP b (sqI (kR + dr * dist) (kC + dc * dist)) &&& 7 = P_ROOK ∨
                readP b (sqI (kR + dr * dist) (kC + dc * dist)) &&& 7 = P_KING ∨
                readP b (sqI (kR + dr * dist) (kC + dc * dist)) &&& 7 = P_PAWN
            · rw [if_pos (show True ∧
                  (readP b (sqI (kR + dr * dist) (kC + dc * dist)) &&& 7 = P_ROOK ∨
                   readP b (sqI (kR + dr * dist) (kC + dc * dist)) &&& 7 = P_KING ∨
                   readP b (sqI (kR + dr * dist) (kC + dc * dist)) &&& 7 = P_PAWN)
                  from ⟨trivial, hpk⟩)] at h
              by_cases hp7 : readP b (sqI (kR + dr * dist) (kC + dc * dist)) &&& 7 = P_PAWN
              · rw [if_pos hp7] at h
                by_cases hph : pawnHit en (kR + dr * dist) (kC + dc * dist) kR kC = true
                · exact ⟨dist, le_refl _, by push_cast; omega,
                    fun j hj1 hj2 => absurd hj1 (by omega), by omega, hz,
                    Or.inl ⟨hen, Or.inr ⟨hp7, hph⟩⟩⟩
                · rw [if_neg hph, if_pos trivial] at h
                  exact hcont h
              · rw [if_neg hp7] at h
                by_cases hp5 : readP b (sqI (kR + dr * dist) (kC + dc * dist)) &&& 7 = P_ROOK
                · exact ⟨dist, le_refl _, by push_cast; omega,
                    fun j hj1 hj2 => absurd hj1 (by omega), by omega, hz,
                    Or.inl ⟨hen, Or.inl hp5⟩⟩
                · rw [if_neg hp5] at h
                  rw [if_neg (show ¬((false : Bool) = true) by simp), if_pos trivial] at h
                  exact hcont h
            · rw [if_neg (show ¬(True ∧
                  (readP b (sqI (kR + dr * dist) (kC + dc * dist)) &&& 7 = P_ROOK ∨
                   readP b (sqI (kR + dr * dist) (kC + dc * dist)) &&& 7 = P_KING ∨
                   readP b (sqI (kR + dr * dist) (kC + dc * dist)) &&& 7 = P_PAWN))
                  from fun hc => hpk hc.2)] at h
              rw [if_neg (show ¬((false : Bool) = true ∧
                  readP b (sqI (kR + dr * dist) (kC + dc * dist)) &&& 7 = P_CANNON)
                  from fun hc => by simpa using hc.1)] at h
              rw [if_neg (show ¬((false : Bool) = true) by simp), if_pos trivial] at h
              exact hcont h
          · rw [if_neg hen] at h
            rw [if_neg (show ¬((false : Bool) = true) by simp), if_pos trivial] at h
            exact hcont h

theorem ite_true_of_else {c : Prop} [Decidable c] {y : Bool} (h : y = true) :
    (if c then true else y) = true := by
  split
  · rfl
  · exact h

theorem rayGo_first_hit (b : Int → Nat) (en : Nat) (kR kC dr dc : Int) :
    ∀ (fuel : Nat) (dist k : Int), dist ≤ k → k < dist + (fuel : Int) →
      (∀ j : Int, dist ≤ j → j < k →
        (0 ≤ kR + dr * j ∧ kR + dr * j ≤ 9 ∧ 0 ≤ kC + dc * j ∧ kC + dc * j ≤ 8) ∧
        readP b (sqI (kR + dr * j) (kC + dc * j)) = 0) →
      (0 ≤ kR + dr * k ∧ kR + dr * k ≤ 9 ∧ 0 ≤ kC + dc * k ∧ kC + dc * k ≤ 8) →
      readP b (sqI (kR + dr * k) (kC + dc * k)) ≠ 0 →
      readP b (sqI (kR + dr * k) (kC + dc * k)) &&& 24 = en →
      (readP b (sqI (kR + dr * k) (kC + dc * k)) &&& 7 = P_ROOK ∨
       (readP b (sqI (kR + dr * k) (kC + dc * k)) &&& 7 = P_PAWN ∧
        pawnHit en (kR + dr * k) (kC + dc * k) kR kC = true)) →
      rayGo b en kR kC dr dc fuel dist false = true := by
  intro fuel
  induction fuel with
  | zero =>
      intro dist k h1 h2
      exact absurd h2 (by omega)
  | succ fu ih =>
      intro dist k h1 h2 hemp hbnd hnz hen hhit
      simp only [rayGo]
      rcases eq_or_lt_of_le h1 with heq | hlt
      · subst heq
        rw [if_neg (by omega), if_neg hnz, if_pos hen]
        rcases hhit with hp5 | ⟨hp7, hph⟩
        · rw [if_pos (show True ∧
              (readP b (sqI (kR + dr * dist) (kC + dc * dist)) &&& 7 = P_ROOK ∨
               readP b (sqI (kR + dr * dist) (kC + dc * dist)) &&& 7 = P_KING ∨
               readP b (sqI (kR + dr * dist) (kC + dc * dist)) &&& 7 = P_PAWN)
              from ⟨trivial, Or.inl hp5⟩)]
          rw [if_neg (show ¬(readP b (sqI (kR + dr * dist) (kC + dc * dist)) &&& 7 = P_PAWN)
              from by rw [hp5]; decide)]
          rw [if_pos hp5]
          rw [if_pos (show (true : Bool) = true from rfl)]
        · rw [if_pos (show True ∧
              (readP b (sqI (kR + dr * dist) (kC + dc * dist)) &&& 7 = P_ROOK ∨
               readP b (sqI (kR + dr * dist) (kC + dc * dist)) &&& 7 = P_KING ∨
               readP b (sqI (kR + dr * dist) (kC + dc * dist)) &&& 7 = P_PAWN)
              from ⟨trivial, Or.inr (Or.inr hp7)⟩)]
          rw [if_pos hp7, if_pos hph]
      · obtain ⟨hb, he⟩ := hemp dist (le_refl _) hlt
        rw [if_neg (by omega), if_pos he]
        exact ih (dist + 1) k (by omega) (by push_cast at h2 ⊢; omega)
          (fun j hj1 hj2 => hemp j (by omega) hj2) hbnd hnz hen hhit

theorem rayGo_true_hit (b : Int → Nat) (en : Nat) (kR kC dr dc : Int) :
    ∀ (fuel : Nat) (dist k : Int), dist ≤ k → k < dist + (fuel : Int) →
      (∀ j : Int, dist ≤ j → j < k →
        (0 ≤ kR + dr * j ∧ kR + dr * j ≤ 9 ∧ 0 ≤ kC + dc * j ∧ kC + dc * j ≤ 8) ∧
        readP b (sqI (kR + dr * j) (kC + dc * j)) = 0) →
      (0 ≤ kR + dr * k ∧ kR + dr * k ≤ 9 ∧ 0 ≤ kC + dc * k ∧ kC + dc * k ≤ 8) →
      readP b (sqI (kR + dr * k) (kC + dc * k)) ≠ 0 →
      readP b (sqI (kR + dr * k) (kC + dc * k)) &&& 24 = en →
      readP b (sqI (kR + dr * k) (kC + dc * k)) &&& 7 = P_CANNON →
      rayGo b en kR kC dr dc fuel dist true = true := by
  intro fuel
  induction fuel with
  | zero =>
      intro dist k h1 h2
      exact absurd h2 (by omega)
  | succ fu ih =>
      intro dist k h1 h2 hemp hbnd hnz hen hp6
      simp only [rayGo]
      rcases eq_or_lt_of_le h1 with heq | hlt
      · subst heq
        rw [if_neg (by omega), if_neg hnz, if_pos hen]
        rw [if_neg (show ¬((true : Bool) = false ∧
            (readP b (sqI (kR + dr * dist) (kC + dc * dist)) &&& 7 = P_ROOK ∨
             readP b (sqI (kR + dr * dist) (kC + dc * dist)) &&& 7 = P_KING ∨
             readP b (sqI (kR + dr * dist) (kC + dc * dist)) &&& 7 = P_PAWN))
            from fun hc => by simpa using hc.1)]
        rw [if_pos (show True ∧
            readP b (sqI (kR + dr * dist) (kC + dc * dist)) &&& 7 = P_CANNON
            from ⟨trivial, hp6⟩)]
        rw [if_pos (show (true : Bool) = true from rfl)]
      · obtain ⟨hb, he⟩ := hemp dist (le_refl _) hlt
        rw [if_neg (by omega), if_pos he]
        exact ih (dist + 1) k (by omega) (by push_cast at h2 ⊢; omega)
          (fun j hj1 hj2 => hemp j (by omega) hj2) hbnd hnz hen hp6

theorem rayGo_screen_hit (b : Int → Nat) (en : Nat) (kR kC dr dc : Int) :
    ∀ (fuel : Nat) (dist ds k : Int), dist ≤ ds → ds < k → k < dist + (fuel : Int) →
      (∀ j : Int, dist ≤ j → j < ds →
        (0 ≤ kR + dr * j ∧ kR + dr * j ≤ 9 ∧ 0 ≤ kC + dc * j ∧ kC + dc * j ≤ 8) ∧
        readP b (sqI (kR + dr * j) (kC + dc * j)) = 0) →
      (0 ≤ kR + dr * ds ∧ kR + dr * ds ≤ 9 ∧ 0 ≤ kC + dc * ds ∧ kC + dc * ds ≤ 8) →
      readP b (sqI (kR + dr * ds) (kC + dc * ds)) ≠ 0 →
      (∀ j : Int, ds < j → j < k →
        (0 ≤ kR + dr * j ∧ kR + dr * j ≤ 9 ∧ 0 ≤ kC + dc * j ∧ kC + dc * j ≤ 8) ∧
        readP b (sqI (kR + dr * j) (kC + dc * j)) = 0) →
      (0 ≤ kR + dr * k ∧ kR + dr * k ≤ 9 ∧ 0 ≤ kC + dc * k ∧ kC + dc * k ≤ 8) →
      readP b (sqI (kR + dr * k) (kC + dc * k)) ≠ 0 →
      readP b (sqI (kR + dr * k) (kC + dc * k)) &&& 24 = en →
      readP b (sqI (kR + dr * k) (kC + dc * k)) &&& 7 = P_CANNON →
      rayGo b en kR kC dr dc fuel dist false = true := by
  intro fuel
  induction fuel with
  | zero =>
      intro dist ds k h1 h2 h3
      exact absurd h3 (by omega)
  | succ fu ih =>
      intro dist ds k h1 h2 h3 hemp1 hbs hs hemp2 hbnd hnz hen hp6
      simp only [rayGo]
      rcases eq_or_lt_of_le h1 with heq | hlt
      · subst heq
        rw [if_neg (by omega), if_neg hs]
        apply ite_true_of_else
        rw [if_pos trivial]
        exact rayGo_true_hit b en kR kC dr dc fu (dist + 1) k (by omega)
          (by push_cast at h3 ⊢; omega) (fun j hj1 hj2 => hemp2 j (by omega) hj2)
          hbnd hnz hen hp6
      · obtain ⟨hb, he⟩ := hemp1 dist (le_refl _) hlt
        rw [if_neg (by omega), if_pos he]
        exact ih (dist + 1) ds k (by omega) h2 (by push_cast at h3 ⊢; omega)
          (fun j hj1 hj2 => hemp1 j (by omega) hj2) hbs hs hemp2 hbnd hnz hen hp6

theorem oppOf_red : oppOf RED = BLACK := by decide

theorem oppOf_black : oppOf BLACK = RED := by decide

theorem and24_ne_zero {p en : Nat} (h : p &&& 24 = en) (hen : en ≠ 0) : p ≠ 0 := by
  intro hp
  subst hp
  simp at h
  exact hen h.symm

theorem pieceMovesAt_eq_king {b : Int → Nat} {turn : Nat} (en : Nat) (co : Bool) {r c : Int}
    (ht : readP b (sqI r c) &&& 24 = turn) (hp : readP b (sqI r c) &&& 7 = 1) :
    pieceMovesAt b turn en co r c = kingMoves b turn co r c := by
  simp only [pieceMovesAt]
  rw [if_neg (not_not_intro ht), if_pos hp]

theorem pieceMovesAt_eq_advisor {b : Int → Nat} {turn : Nat} (en : Nat) (co : Bool) {r c : Int}
    (ht : readP b (sqI r c) &&& 24 = turn) (hp : readP b (sqI r c) &&& 7 = 2) :
    pieceMovesAt b turn en co r c = advisorMoves b turn co r c := by
  simp only [pieceMovesAt]
  rw [if_neg (not_not_intro ht),
    if_neg (show ¬(readP b (sqI r c) &&& 7 = 1) from by rw [hp]; decide), if_pos hp]

theorem pieceMovesAt_eq_elephant {b : Int → Nat} {turn : Nat} (en : Nat) (co : Bool) {r c : Int}
    (ht : readP b (sqI r c) &&& 24 = turn) (hp : readP b (sqI r c) &&& 7 = 3) :
    pieceMovesAt b turn en co r c = elephantMoves b turn co r c := by
  simp only [pieceMovesAt]
  rw [if_neg (not_not_intro ht),
    if_neg (show ¬(readP b (sqI r c) &&& 7 = 1) from by rw [hp]; decide),
    if_neg (show ¬(readP b (sqI r c) &&& 7 = 2) from by rw [hp]; decide), if_pos hp]

theorem pieceMovesAt_eq_horse {b : Int → Nat} {turn : Nat} (en : Nat) (co : Bool) {r c : Int}
    (ht : readP b (sqI r c) &&& 24 = turn) (hp : readP b (sqI r c) &&& 7 = 4) :
    pieceMovesAt b turn en co r c = horseMoves b turn co r c := by
  simp only [pieceMovesAt]
  rw [if_neg (not_not_intro ht),
    if_neg (show ¬(readP b (sqI r c) &&& 7 = 1) from by rw [hp]; decide),
    if_neg (show ¬(readP b (sqI r c) &&& 7 = 2) from by rw [hp]; decide),
    if_neg (show ¬(readP b (sqI r c) &&& 7 = 3) from by rw [hp]; decide), if_pos hp]

theorem pieceMovesAt_eq_rook {b : Int → Nat} {turn en : Nat} {co : Bool} {r c : Int}
    (ht : readP b (sqI r c) &&& 24 = turn) (hp : readP b (sqI r c) &&& 7 = 5) :
    pieceMovesAt b turn en co r c =
      orthDirs.flatMap (fun d => rookGo b en co (sqI r c) r c d.1 d.2 9 1) := by
  simp only [pieceMovesAt]
  rw [if_neg (not_not_intro ht),
    if_neg (show ¬(readP b (sqI r c) &&& 7 = 1) from by rw [hp]; decide),
    if_neg (show ¬(readP b (sqI r c) &&& 7 = 2) from by rw [hp]; decide),
    if_neg (show ¬(readP b (sqI r c) &&& 7 = 3) from by rw [hp]; decide),
    if_neg (show ¬(readP b (sqI r c) &&& 7 = 4) from by rw [hp]; decide), if_pos hp]

theorem pieceMovesAt_eq_cannon {b : Int → Nat} {turn en : Nat} {co : Bool} {r c : Int}
    (ht : readP b (sqI r c) &&& 24 = turn) (hp : readP b (sqI r c) &&& 7 = 6) :
    pieceMovesAt b turn en co r c =
      orthDirs.flatMap (fun d => cannonGo b en co (sqI r c) r c d.1 d.2 9 1 false) := by
  simp only [pieceMovesAt]
  rw [if_neg (not_not_intro ht),
    if_neg (show ¬(readP b (sqI r c) &&& 7 = 1) from by rw [hp]; decide),
    if_neg (show ¬(readP b (sqI r c) &&& 7 = 2) from by rw [hp]; decide),
    if_neg (show ¬(readP b (sqI r c) &&& 7 = 3) from by rw [hp]; decide),
    if_neg (show ¬(readP b (sqI r c) &&& 7 = 4) from by rw [hp]; decide),
    if_neg (show ¬(readP b (sqI r c) &&& 7 = 5) from by rw [hp]; decide), if_pos hp]

theorem pieceMovesAt_eq_pawn {b : Int → Nat} {turn : Nat} (en : Nat) (co : Bool) {r c : Int}
    (ht : readP b (sqI r c) &&& 24 = turn) (hp : readP b (sqI r c) &&& 7 = 7) :
    pieceMovesAt b turn en co r c = pawnMoves b turn co r c := by
  simp only [pieceMovesAt]
  rw [if_neg (not_not_intro ht),
    if_neg (show ¬(readP b (sqI r c) &&& 7 = 1) from by rw [hp]; decide),
    if_neg (show ¬(readP b (sqI r c) &&& 7 = 2) from by rw [hp]; decide),
    if_neg (show ¬(readP b (sqI r c) &&& 7 = 3) from by rw [hp]; decide),
    if_neg (show ¬(readP b (sqI r c) &&& 7 = 4) from by rw [hp]; decide),
    if_neg (show ¬(readP b (sqI r c) &&& 7 = 5) from by rw [hp]; decide),
    if_neg (show ¬(readP b (sqI r c) &&& 7 = 6) from by rw [hp]; decide), if_pos hp]

theorem pieceMovesAt_cases {b : Int → Nat} {turn en : Nat} {co : Bool} {r c m : Int}
    (hm : m ∈ pieceMovesAt b turn en co r c) :
    readP b (sqI r c) &&& 24 = turn ∧
    ((readP b (sqI r c) &&& 7 = 1 ∧ m ∈ kingMoves b turn co r c) ∨
     (readP b (sqI r c) &&& 7 = 2 ∧ m ∈ advisorMoves b turn co r c) ∨
     (readP b (sqI r c) &&& 7 = 3 ∧ m ∈ elephantMoves b turn co r c) ∨
     (readP b (sqI r c) &&& 7 = 4 ∧ m ∈ horseMoves b turn co r c) ∨
     (readP b (sqI r c) &&& 7 = 5 ∧
      m ∈ orthDirs.flatMap (fun d => rookGo b en co (sqI r c) r c d.1 d.2 9 1)) ∨
     (readP b (sqI r c) &&& 7 = 6 ∧
      m ∈ orthDirs.flatMap (fun d => cannonGo b en co (sqI r c) r c d.1 d.2 9 1 false)) ∨
     (readP b (sqI r c) &&& 7 = 7 ∧ m ∈ pawnMoves b turn co r c)) := by
  by_cases ht : readP b (sqI r c) &&& 24 = turn
  · refine ⟨ht, ?_⟩
    by_cases h1 : readP b (sqI r c) &&& 7 = 1
    · exact Or.inl ⟨h1, by rwa [pieceMovesAt_eq_king en co ht h1] at hm⟩
    · by_cases h2 : readP b (sqI r c) &&& 7 = 2
      · refine Or.inr (Or.inl ⟨h2, by rwa [pieceMovesAt_eq_advisor en co ht h2] at hm⟩)
      · by_cases h3 : readP b (sqI r c) &&& 7 = 3
        · exact Or.inr (Or.inr (Or.inl ⟨h3,
            by rwa [pieceMovesAt_eq_elephant en co ht h3] at hm⟩))
        · by_cases h4 : readP b (sqI r c) &&& 7 = 4
          · exact Or.inr (Or.inr (Or.inr (Or.inl ⟨h4,
              by rwa [pieceMovesAt_eq_horse en co ht h4] at hm⟩)))
          · by_cases h5 : readP b (sqI r c) &&& 7 = 5
            · exact Or.inr (Or.inr (Or.inr (Or.inr (Or.inl ⟨h5,
                by rwa [pieceMovesAt_eq_rook ht h5] at hm⟩))))
            · by_cases h6 : readP b (sqI r c) &&& 7 = 6
              · exact Or.inr (Or.inr (Or.inr (Or.inr (Or.inr (Or.inl ⟨h6,
                  by rwa [pieceMovesAt_eq_cannon ht h6] at hm⟩)))))
              · by_cases h7 : readP b (sqI r c) &&& 7 = 7
                · exact Or.inr (Or.inr (Or.inr (Or.inr (Or.inr (Or.inr ⟨h7,
                    by rwa [pieceMovesAt_eq_pawn en co ht h7] at hm⟩)))))
                · exfalso
                  simp only [pieceMovesAt] at hm
                  rw [if_neg (not_not_intro ht), if_neg h1, if_neg h2, if_neg h3, if_neg h4,
                    if_neg h5, if_neg h6, if_neg h7] at hm
                  simp at hm
  · exfalso
    simp only [pieceMovesAt] at hm
    rw [if_pos ht] at hm
    simp at hm

theorem generateMoves_mem_of {co : Bool} {s : Pos} {r c m : Int}
    (hr : 0 ≤ r) (hr9 : r ≤ 9) (hc : 0 ≤ c) (hc8 : c ≤ 8)
    (hm : m ∈ pieceMovesAt s.board s.turn (oppOf s.turn) co r c) :
    m ∈ generateMoves co s := by
  rw [generateMoves, List.mem_flatMap]
  refine ⟨r.toNat, List.mem_range.mpr (by omega), ?_⟩
  rw [List.mem_flatMap]
  refine ⟨c.toNat, List.mem_range.mpr (by omega), ?_⟩
  rw [show Int.ofNat r.toNat = r from by show (r.toNat : Int) = r; omega,
    show Int.ofNat c.toNat = c from by show (c.toNat : Int) = c; omega]
  exact hm

theorem generateMoves_cases {co : Bool} {s : Pos} {m : Int}
    (hm : m ∈ generateMoves co s) :
    ∃ r c : Int, 0 ≤ r ∧ r ≤ 9 ∧ 0 ≤ c ∧ c ≤ 8 ∧
      m ∈ pieceMovesAt s.board s.turn (oppOf s.turn) co r c := by
  rw [generateMoves] at hm
  simp only [List.mem_flatMap, List.mem_range] at hm
  obtain ⟨r, hr, c, hc, hm⟩ := hm
  refine ⟨Int.ofNat r, Int.ofNat c, ?_, ?_, ?_, ?_, hm⟩
  · show (0 : Int) ≤ (r : Int)
    omega
  · show (r : Int) ≤ 9
    omega
  · show (0 : Int) ≤ (c : Int)
    omega
  · show (c : Int) ≤ 8
    omega

theorem addMove_cases {b : Int → Nat} {turn : Nat} {f t m : Int} {co : Bool}
    (hm : m ∈ addMove b turn f t co) :
    m = mkMv f t ∧
    ((∃ v, rdSq b t = some v ∧ ((v = 0 ∧ co = false) ∨ (v ≠ 0 ∧ v &&& 24 ≠ turn))) ∨
     (rdSq b t = none ∧ (0 : Nat) ≠ turn)) := by
  rw [addMove] at hm
  cases hv : rdSq b t with
  | some v =>
      rw [hv] at hm
      simp only [] at hm
      by_cases hz : v = 0
      · rw [if_pos hz] at hm
        cases co with
        | false =>
            simp at hm
            exact ⟨hm, Or.inl ⟨v, rfl, Or.inl ⟨hz, rfl⟩⟩⟩
        | true => simp at hm
      · rw [if_neg hz] at hm
        by_cases he : v &&& 24 ≠ turn
        · rw [if_pos he] at hm
          rw [List.mem_singleton] at hm
          exact ⟨hm, Or.inl ⟨v, rfl, Or.inr ⟨hz, he⟩⟩⟩
        · rw [if_neg he] at hm
          simp at hm
  | none =>
      rw [hv] at hm
      simp only [] at hm
      by_cases he : (0 : Nat) ≠ turn
      · rw [if_pos he] at hm
        rw [List.mem_singleton] at hm
        exact ⟨hm, Or.inr ⟨rfl, he⟩⟩
      · rw [if_neg he] at hm
        simp at hm

theorem kingMoves_cases {b : Int → Nat} {turn : Nat} {co : Bool} {r c m : Int}
    (hm : m ∈ kingMoves b turn co r c) :
    ∃ d, d ∈ orthDirs ∧
      (3 ≤ c + d.2 ∧ c + d.2 ≤ 5 ∧
        ((turn = RED ∧ 7 ≤ r + d.1) ∨ (turn = BLACK ∧ r + d.1 ≤ 2))) ∧
      m ∈ addMove b turn (sqI r c) (sqI (r + d.1) (c + d.2)) co := by
  rw [kingMoves, List.mem_flatMap] at hm
  obtain ⟨d, hd, hm⟩ := hm
  by_cases hcnd : 3 ≤ c + d.2 ∧ c + d.2 ≤ 5 ∧
      ((turn = RED ∧ 7 ≤ r + d.1) ∨ (turn = BLACK ∧ r + d.1 ≤ 2))
  · rw [if_pos hcnd] at hm
    exact ⟨d, hd, hcnd, hm⟩
  · rw [if_neg hcnd] at hm
    simp at hm

theorem advisorMoves_cases {b : Int → Nat} {turn : Nat} {co : Bool} {r c m : Int}
    (hm : m ∈ advisorMoves b turn co r c) :
    ∃ d, d ∈ advDirs ∧
      (3 ≤ c + d.2 ∧ c + d.2 ≤ 5 ∧
        ((turn = RED ∧ 7 ≤ r + d.1) ∨ (turn = BLACK ∧ r + d.1 ≤ 2))) ∧
      m ∈ addMove b turn (sqI r c) (sqI (r + d.1) (c + d.2)) co := by
  rw [advisorMoves, List.mem_flatMap] at hm
  obtain ⟨d, hd, hm⟩ := hm
  by_cases hcnd : 3 ≤ c + d.2 ∧ c + d.2 ≤ 5 ∧
      ((turn = RED ∧ 7 ≤ r + d.1) ∨ (turn = BLACK ∧ r + d.1 ≤ 2))
  · rw [if_pos hcnd] at hm
    exact ⟨d, hd, hcnd, hm⟩
  · rw [if_neg hcnd] at hm
    simp at hm

theorem elephantMoves_cases {b : Int → Nat} {turn : Nat} {co : Bool} {r c m : Int}
    (hm : m ∈ elephantMoves b turn co r c) :
    ∃ d, d ∈ eleDirs ∧
      (0 ≤ r + d.1 ∧ r + d.1 ≤ 9 ∧ 0 ≤ c + d.2 ∧ c + d.2 ≤ 8) ∧
      ¬(turn = RED ∧ r + d.1 < 5) ∧ ¬(turn = BLACK ∧ 4 < r + d.1) ∧
      m ∈ addMove b turn (sqI r c) (sqI (r + d.1) (c + d.2)) co := by
  rw [elephantMoves, List.mem_flatMap] at hm
  obtain ⟨d, hd, hm⟩ := hm
  by_cases hb : 0 ≤ r + d.1 ∧ r + d.1 ≤ 9 ∧ 0 ≤ c + d.2 ∧ c + d.2 ≤ 8
  · rw [if_pos hb] at hm
    by_cases h1 : turn = RED ∧ r + d.1 < 5
    · rw [if_pos h1] at hm
      simp at hm
    · rw [if_neg h1] at hm
      by_cases h2 : turn = BLACK ∧ 4 < r + d.1
      · rw [if_pos h2] at hm
        simp at hm
      · rw [if_neg h2] at hm
        by_cases h3 : readP b (sqI (r + d.1 / 2) (c + d.2 / 2)) = 0
        · rw [if_pos h3] at hm
          exact ⟨d, hd, hb, h1, h2, hm⟩
        · rw [if_neg h3] at hm
          simp at hm
  · rw [if_neg hb] at hm
    simp at hm

theorem horseMoves_cases {b : Int → Nat} {turn : Nat} {co : Bool} {r c m : Int}
    (hm : m ∈ horseMoves b turn co r c) :
    ∃ d, d ∈ horseDirs ∧
      (0 ≤ r + d.1 ∧ r + d.1 ≤ 9 ∧ 0 ≤ c + d.2 ∧ c + d.2 ≤ 8) ∧
      readP b (sqI (r + (if d.1.natAbs = 2 then d.1 / 2 else 0))
        (c + (if d.2.natAbs = 2 then d.2 / 2 else 0))) = 0 ∧
      m ∈ addMove b turn (sqI r c) (sqI (r + d.1) (c + d.2)) co := by
  rw [horseMoves, List.mem_flatMap] at hm
  obtain ⟨d, hd, hm⟩ := hm
  simp only [] at hm
  by_cases hb : 0 ≤ r + d.1 ∧ r + d.1 ≤ 9 ∧ 0 ≤ c + d.2 ∧ c + d.2 ≤ 8
  · rw [if_pos hb] at hm
    by_cases hleg : readP b (sqI (r + (if d.1.natAbs = 2 then d.1 / 2 else 0))
        (c + (if d.2.natAbs = 2 then d.2 / 2 else 0))) = 0
    · rw [if_pos hleg] at hm
      exact ⟨d, hd, hb, hleg, hm⟩
    · rw [if_neg hleg] at hm
      simp at hm
  · rw [if_neg hb] at hm
    simp at hm

theorem horseMoves_mem {b : Int → Nat} {turn : Nat} {co : Bool} {r c : Int} (d : Int × Int)
    (hd : d ∈ horseDirs)
    (hbnd : 0 ≤ r + d.1 ∧ r + d.1 ≤ 9 ∧ 0 ≤ c + d.2 ∧ c + d.2 ≤ 8)
    (hleg : readP b (sqI (r + (if d.1.natAbs = 2 then d.1 / 2 else 0))
      (c + (if d.2.natAbs = 2 then d.2 / 2 else 0))) = 0)
    (hmem : mkMv (sqI r c) (sqI (r + d.1) (c + d.2)) ∈
      addMove b turn (sqI r c) (sqI (r + d.1) (c + d.2)) co) :
    mkMv (sqI r c) (sqI (r + d.1) (c + d.2)) ∈ horseMoves b turn co r c := by
  rw [horseMoves, List.mem_flatMap]
  refine ⟨d, hd, ?_⟩
  simp only []
  rw [if_pos hbnd, if_pos hleg]
  exact hmem

theorem pawnMoves_cases {b : Int → Nat} {turn : Nat} {co : Bool} {r c m : Int}
    (hm : m ∈ pawnMoves b turn co r c) :
    (0 ≤ r + (if turn = RED then (-1 : Int) else 1) ∧
      r + (if turn = RED then (-1 : Int) else 1) ≤ 9 ∧
      m ∈ addMove b turn (sqI r c) (sqI (r + (if turn = RED then (-1 : Int) else 1)) c) co) ∨
    ((if turn = RED then decide (r ≤ 4) else decide (5 ≤ r)) = true ∧ 0 < c ∧
      m ∈ addMove b turn (sqI r c) (sqI r (c - 1)) co) ∨
    ((if turn = RED then decide (r ≤ 4) else decide (5 ≤ r)) = true ∧ c < 8 ∧
      m ∈ addMove b turn (sqI r c) (sqI r (c + 1)) co) := by
  rw [pawnMoves] at hm
  rcases List.mem_append.mp hm with h1 | h2
  · by_cases hf : 0 ≤ r + (if turn = RED then (-1 : Int) else 1) ∧
        r + (if turn = RED then (-1 : Int) else 1) ≤ 9
    · rw [if_pos hf] at h1
      exact Or.inl ⟨hf.1, hf.2, h1⟩
    · rw [if_neg hf] at h1
      simp at h1
  · by_cases hcr : (if turn = RED then decide (r ≤ 4) else decide (5 ≤ r)) = true
    · rw [if_pos hcr] at h2
      rcases List.mem_append.mp h2 with h3 | h4
      · by_cases hc0 : 0 < c
        · rw [if_pos hc0] at h3
          exact Or.inr (Or.inl ⟨hcr, hc0, h3⟩)
        · rw [if_neg hc0] at h3
          simp at h3
      · by_cases hc8 : c < 8
        · rw [if_pos hc8] at h4
          exact Or.inr (Or.inr ⟨hcr, hc8, h4⟩)
        · rw [if_neg hc8] at h4
          simp at h4
    · rw [if_neg hcr] at h2
      simp at h2

theorem pawnMoves_mem_fwd {b : Int → Nat} {turn : Nat} {co : Bool} {r c : Int}
    (hf : 0 ≤ r + (if turn = RED then (-1 : Int) else 1) ∧
      r + (if turn = RED then (-1 : Int) else 1) ≤ 9)
    (hmem : mkMv (sqI r c) (sqI (r + (if turn = RED then (-1 : Int) else 1)) c) ∈
      addMove b turn (sqI r c) (sqI (r + (if turn = RED then (-1 : Int) else 1)) c) co) :
    mkMv (sqI r c) (sqI (r + (if turn = RED then (-1 : Int) else 1)) c) ∈
      pawnMoves b turn co r c := by
  rw [pawnMoves]
  apply List.mem_append_left
  rw [if_pos hf]
  exact hmem

theorem pawnMoves_mem_side {b : Int → Nat} {turn : Nat} {co : Bool} {r c : Int} (e : Int)
    (he : e = -1 ∨ e = 1)
    (hcr : (if turn = RED then decide (r ≤ 4) else decide (5 ≤ r)) = true)
    (hc : 0 ≤ c + e ∧ c + e ≤ 8)
    (hmem : mkMv (sqI r c) (sqI r (c + e)) ∈ addMove b turn (sqI r c) (sqI r (c + e)) co) :
    mkMv (sqI r c) (sqI r (c + e)) ∈ pawnMoves b turn co r c := by
  rw [pawnMoves]
  apply List.mem_append_right
  rw [if_pos hcr]
  rcases he with rfl | rfl
  · apply List.mem_append_left
    rw [if_pos (by omega : (0 : Int) < c)]
    rw [show c + -1 = c - 1 from by ring] at hmem ⊢
    exact hmem
  · apply List.mem_append_right
    rw [if_pos (by omega : c < 8)]
    exact hmem

end XQ


namespace XQ

theorem ite_both {c : Prop} [Decidable c] {x y : Bool} (hx : x = true) (hy : y = true) :
    (if c then x else y) = true := by
  split
  · exact hx
  · exact hy

theorem pawnHit_red_fwd (r kC : Int) : pawnHit RED r kC (r + -1) kC = true := by
  simp only [pawnHit]
  rw [show (r - (r + -1) : Int) = 1 from by ring, show (kC - kC : Int) = 0 from by ring]
  rw [if_pos (show ((1 : Int).natAbs + (0 : Int).natAbs = 1) by decide)]
  apply ite_both
  · decide
  · decide

theorem pawnHit_black_fwd (r kC : Int) : pawnHit BLACK r kC (r + 1) kC = true := by
  simp only [pawnHit]
  rw [show (r - (r + 1) : Int) = -1 from by ring, show (kC - kC : Int) = 0 from by ring]
  rw [if_pos (show (((-1) : Int).natAbs + (0 : Int).natAbs = 1) by decide)]
  apply ite_both
  · decide
  · decide

theorem pawnHit_red_side (r c e : Int) (he : e = -1 ∨ e = 1) (hcr : r ≤ 4) :
    pawnHit RED r c r (c + e) = true := by
  rcases he with rfl | rfl
  · simp only [pawnHit]
    rw [show (r - r : Int) = 0 from by ring, show (c - (c + -1) : Int) = 1 from by ring]
    rw [if_pos (show ((0 : Int).natAbs + (1 : Int).natAbs = 1) by decide)]
    rw [if_pos trivial, decide_eq_true hcr]
    rw [if_neg (show ¬((true : Bool) = false) by decide)]
    decide
  · simp only [pawnHit]
    rw [show (r - r : Int) = 0 from by ring, show (c - (c + 1) : Int) = -1 from by ring]
    rw [if_pos (show ((0 : Int).natAbs + ((-1) : Int).natAbs = 1) by decide)]
    rw [if_pos trivial, decide_eq_true hcr]
    rw [if_neg (show ¬((true : Bool) = false) by decide)]
    decide

theorem pawnHit_black_side (r c e : Int) (he : e = -1 ∨ e = 1) (hcr : 5 ≤ r) :
    pawnHit BLACK r c r (c + e) = true := by
  rcases he with rfl | rfl
  · simp only [pawnHit]
    rw [show (r - r : Int) = 0 from by ring, show (c - (c + -1) : Int) = 1 from by ring]
    rw [if_pos (show ((0 : Int).natAbs + (1 : Int).natAbs = 1) by decide)]
    rw [if_neg (show ¬(BLACK = RED) by decide), decide_eq_true hcr]
    rw [if_neg (show ¬((true : Bool) = false) by decide)]
    decide
  · simp only [pawnHit]
    rw [show (r - r : Int) = 0 from by ring, show (c - (c + 1) : Int) = -1 from by ring]
    rw [if_pos (show ((0 : Int).natAbs + ((-1) : Int).natAbs = 1) by decide)]
    rw [if_neg (show ¬(BLACK = RED) by decide), decide_eq_true hcr]
    rw [if_neg (show ¬((true : Bool) = false) by decide)]
    decide

theorem pawnHit_cases {en : Nat} {r c kR kC : Int} (h : pawnHit en r c kR kC = true) :
    (r - kR).natAbs + (c - kC).natAbs = 1 ∧
    ((r - kR = 0 ∧ (if en = RED then decide (r ≤ 4) else decide (5 ≤ r)) = true) ∨
     (en = RED ∧ r - kR = 1 ∧ c = kC) ∨
     (en = BLACK ∧ r - kR = -1 ∧ c = kC)) := by
  simp only [pawnHit] at h
  by_cases hadj : (r - kR).natAbs + (c - kC).natAbs = 1
  · rw [if_pos hadj] at h
    refine ⟨hadj, ?_⟩
    by_cases hcr : (if en = RED then decide (r ≤ 4) else decide (5 ≤ r)) = false
    · rw [if_pos hcr] at h
      by_cases h1 : en = RED ∧ r - kR = 1
      · exact Or.inr (Or.inl ⟨h1.1, h1.2, by omega⟩)
      · rw [if_neg h1] at h
        by_cases h2 : en = BLACK ∧ r - kR = -1
        · exact Or.inr (Or.inr ⟨h2.1, h2.2, by omega⟩)
        · rw [if_neg h2] at h
          exact absurd h (by simp)
    · rw [if_neg hcr] at h
      rw [Bool.not_eq_false] at hcr
      by_cases h1 : en = RED ∧ 0 ≤ r - kR
      · rcases (by omega : r - kR = 0 ∨ r - kR = 1) with h0 | hp
        · exact Or.inl ⟨h0, hcr⟩
        · exact Or.inr (Or.inl ⟨h1.1, hp, by omega⟩)
      · rw [if_neg h1] at h
        by_cases h2 : en = BLACK ∧ r - kR ≤ 0
        · rcases (by omega : r - kR = 0 ∨ r - kR = -1) with h0 | hp
          · exact Or.inl ⟨h0, hcr⟩
          · exact Or.inr (Or.inr ⟨h2.1, hp, by omega⟩)
        · rw [if_neg h2] at h
          exact absurd h (by simp)
  · rw [if_neg hadj] at h
    exact absurd h (by simp)

theorem neg_mem_orthDirs {d : Int × Int} (hd : d ∈ orthDirs) : (-d.1, -d.2) ∈ orthDirs := by
  simp only [orthDirs, List.mem_cons, List.not_mem_nil, or_false] at hd ⊢
  rcases hd with rfl | rfl | rfl | rfl
  · right; left; decide
  · left; decide
  · right; right; right; decide
  · right; right; left; decide

theorem neg_mem_horseDirs {d : Int × Int} (hd : d ∈ horseDirs) :
    (-d.1, -d.2) ∈ horseDirs := by
  simp only [horseDirs, List.mem_cons, List.not_mem_nil, or_false] at hd ⊢
  rcases hd with rfl | rfl | rfl | rfl | rfl | rfl | rfl | rfl
  · right; right; right; left; decide
  · right; right; left; decide
  · right; left; decide
  · left; decide
  · right; right; right; right; right; right; right; decide
  · right; right; right; right; right; right; left; decide
  · right; right; right; right; right; left; decide
  · right; right; right; right; left; decide

theorem fdiv_sqI (r c : Int) (h0 : 0 ≤ c) (h1 : c < 16) : Int.fdiv (sqI r c) 16 = r := by
  rw [sqI, Int.fdiv_eq_ediv _ (by norm_num)]
  omega

theorem emod_sqI (r c : Int) (h0 : 0 ≤ c) (h1 : c < 16) : Int.emod (sqI r c) 16 = c := by
  rw [sqI]
  show (r * 16 + c) % 16 = c
  omega

end XQ

namespace XQ

theorem horseLeg_row (x a : Int) :
    x + a + (if (-a).natAbs = 2 then -a / 2 else 0) =
    if (-a).natAbs = 2 then (x + a + x) / 2 else x + a := by
  by_cases h : (-a).natAbs = 2
  · rw [if_pos h, if_pos h]
    omega
  · rw [if_neg h, if_neg h]
    omega

theorem horseLeg_det (u a : Int) :
    (if (-(-a)).natAbs = 2 then (u + (u + a)) / 2 else u) =
    u + (if a.natAbs = 2 then a / 2 else 0) := by
  by_cases h : a.natAbs = 2
  · rw [if_pos (show ((-(-a)).natAbs = 2) from by omega), if_pos h]
    omega
  · rw [if_neg (show ¬((-(-a)).natAbs = 2) from by omega), if_neg h]
    omega

theorem check_attack_exists (s : Pos) (side : Nat) (kr kc : Int)
    (hside : side = RED ∨ side = BLACK)
    (hkp : (if side = RED then s.redKingPos else s.blackKingPos) = sqI kr kc)
    (hkc3 : 3 ≤ kc) (hkc5 : kc ≤ 5)
    (hkr09 : 0 ≤ kr ∧ kr ≤ 9)
    (hking : s.board (sqI kr kc) = side + 1)
    (hchk : isKingInCheck s side = true) :
    flyingFacing s side = true ∨
      ∃ m ∈ generateMoves false { s with turn := oppOf side }, mvTo m = sqI kr kc := by
  have hoo : oppOf (oppOf side) = side := oppOf_oppOf hside
  have hsq0 : (0 : Int) ≤ sqI kr kc := by rw [sqI]; omega
  have hsq256 : sqI kr kc < 256 := by rw [sqI]; omega
  have hkval : readP s.board (sqI kr kc) = side + 1 := by
    rw [readP_valid hsq0 hsq256]
    exact hking
  have hknz : readP s.board (sqI kr kc) ≠ 0 := by
    rw [hkval]
    rcases hside with rfl | rfl <;> decide
  have hk24 : readP s.board (sqI kr kc) &&& 24 = side := by
    rw [hkval]
    rcases hside with rfl | rfl <;> decide
  have hb_nz : s.board (sqI kr kc) ≠ 0 := by
    rw [hking]
    rcases hside with rfl | rfl <;> decide
  have hb_ne : s.board (sqI kr kc) &&& 24 ≠ oppOf side := by
    rw [hking]
    rcases hside with rfl | rfl <;> decide
  simp only [isKingInCheck] at hchk
  rw [hkp, fdiv_sqI kr kc (by omega) (by omega), emod_sqI kr kc (by omega) (by omega)] at hchk
  simp only [Bool.or_eq_true] at hchk
  rcases hchk with (hfly | hray) | hhorse
  · exact Or.inl hfly
  · -- sliding attack
    right
    rw [List.any_eq_true] at hray
    obtain ⟨d, hd, hray⟩ := hray
    obtain ⟨k, hk1, hk9, hke, hkb, hknz2, hhit⟩ :=
      rayGo_false_sound s.board (oppOf side) kr kc d.1 d.2 9 1 hray
    rcases hhit with ⟨hp24, hkind⟩ | ⟨k2, hk2a, hk2b, hke2, hkb2, hknz3, hp24c, hp6⟩
    · -- rook or pawn as first piece at distance k
      rcases hkind with hp5 | ⟨hp7, hph⟩
      · -- rook
        refine ⟨mkMv (sqI (kr + d.1 * k) (kc + d.2 * k)) (sqI kr kc), ?_, ?_⟩
        · apply generateMoves_mem_of (r := kr + d.1 * k) (c := kc + d.2 * k)
            (by omega) (by omega) (by omega) (by omega)
          show mkMv (sqI (kr + d.1 * k) (kc + d.2 * k)) (sqI kr kc) ∈
            pieceMovesAt s.board (oppOf side) (oppOf (oppOf side)) false
              (kr + d.1 * k) (kc + d.2 * k)
          rw [hoo, pieceMovesAt_eq_rook hp24 hp5]
          rw [List.mem_flatMap]
          refine ⟨(-d.1, -d.2), neg_mem_orthDirs hd, ?_⟩
          show mkMv (sqI (kr + d.1 * k) (kc + d.2 * k)) (sqI kr kc) ∈
            rookGo s.board side false (sqI (kr + d.1 * k) (kc + d.2 * k))
              (kr + d.1 * k) (kc + d.2 * k) (-d.1) (-d.2) 9 1
          have hmain := rookGo_of_capture s.board side false
            (sqI (kr + d.1 * k) (kc + d.2 * k)) (kr + d.1 * k) (kc + d.2 * k)
            (-d.1) (-d.2) 9 1 k hk1 (by push_cast; omega)
            (fun j hj1 hj2 => by
              have h' := hke (k - j) (by omega) (by omega)
              rw [show kr + d.1 * k + -d.1 * j = kr + d.1 * (k - j) from by ring,
                show kc + d.2 * k + -d.2 * j = kc + d.2 * (k - j) from by ring]
              exact h')
            (by
              rw [show kr + d.1 * k + -d.1 * k = kr from by ring,
                show kc + d.2 * k + -d.2 * k = kc from by ring]
              omega)
            (by
              rw [show kr + d.1 * k + -d.1 * k = kr from by ring,
                show kc + d.2 * k + -d.2 * k = kc from by ring]
              exact hknz)
            (by
              rw [show kr + d.1 * k + -d.1 * k = kr from by ring,
                show kc + d.2 * k + -d.2 * k = kc from by ring]
              exact hk24)
          rwa [show kr + d.1 * k + -d.1 * k = kr from by ring,
            show kc + d.2 * k + -d.2 * k = kc from by ring] at hmain
        · exact mvTo_mkMv_pos _ _ hsq0 hsq256
      · -- pawn at distance k
        obtain ⟨hadj, hdir⟩ := pawnHit_cases hph
        have had1 : kr + d.1 * k - kr = d.1 * k := by ring
        have had2 : kc + d.2 * k - kc = d.2 * k := by ring
        rw [had1, had2] at hadj
        rw [had1] at hdir
        rcases hdir with ⟨hz, hcr⟩ | ⟨hred, hone, hcc⟩ | ⟨hblk, hone, hcc⟩
        · -- sideways capture: pawn on the king's row
          have hcol : d.2 * k = 1 ∨ d.2 * k = -1 := by omega
          refine ⟨mkMv (sqI (kr + d.1 * k) (kc + d.2 * k))
            (sqI (kr + d.1 * k) (kc + d.2 * k + (kc - (kc + d.2 * k)))), ?_, ?_⟩
          · apply generateMoves_mem_of (r := kr + d.1 * k) (c := kc + d.2 * k)
              (by omega) (by omega) (by omega) (by omega)
            show _ ∈ pieceMovesAt s.board (oppOf side) (oppOf (oppOf side)) false
              (kr + d.1 * k) (kc + d.2 * k)
            rw [pieceMovesAt_eq_pawn (oppOf (oppOf side)) false hp24 hp7]
            have hrow : kr + d.1 * k = kr := by omega
            apply pawnMoves_mem_side (kc - (kc + d.2 * k)) (by omega) ?_ (by omega) ?_
            · exact hcr
            · apply mem_of_addMove_cap
              · rw [sqI]; omega
              · rw [sqI]; omega
              · rw [show kc + d.2 * k + (kc - (kc + d.2 * k)) = kc from by ring, hrow]
                exact hb_nz
              · rw [show kc + d.2 * k + (kc - (kc + d.2 * k)) = kc from by ring, hrow]
                exact hb_ne
          · rw [show kc + d.2 * k + (kc - (kc + d.2 * k)) = kc from by ring,
              show kr + d.1 * k = kr from by omega]
            exact mvTo_mkMv_pos _ _ hsq0 hsq256
        · -- red pawn forward capture: pawn one row below the king
          refine ⟨mkMv (sqI (kr + d.1 * k) (kc + d.2 * k))
            (sqI (kr + d.1 * k + (if oppOf side = RED then (-1 : Int) else 1))
              (kc + d.2 * k)), ?_, ?_⟩
          · apply generateMoves_mem_of (r := kr + d.1 * k) (c := kc + d.2 * k)
              (by omega) (by omega) (by omega) (by omega)
            show _ ∈ pieceMovesAt s.board (oppOf side) (oppOf (oppOf side)) false
              (kr + d.1 * k) (kc + d.2 * k)
            rw [pieceMovesAt_eq_pawn (oppOf (oppOf side)) false hp24 hp7]
            apply pawnMoves_mem_fwd
            · rw [if_pos hred]
              omega
            · apply mem_of_addMove_cap
              · rw [if_pos hred, sqI]; omega
              · rw [if_pos hred, sqI]; omega
              · rw [if_pos hred, show kr + d.1 * k + -1 = kr from by omega,
                  show kc + d.2 * k = kc from by omega]
                exact hb_nz
              · rw [if_pos hred, show kr + d.1 * k + -1 = kr from by omega,
                  show kc + d.2 * k = kc from by omega]
                exact hb_ne
          · rw [if_pos hred, show kr + d.1 * k + -1 = kr from by omega,
              show kc + d.2 * k = kc from by omega]
            exact mvTo_mkMv_pos _ _ hsq0 hsq256
        · -- black pawn forward capture: pawn one row above the king
          refine ⟨mkMv (sqI (kr + d.1 * k) (kc + d.2 * k))
            (sqI (kr + d.1 * k + (if oppOf side = RED then (-1 : Int) else 1))
              (kc + d.2 * k)), ?_, ?_⟩
          · apply generateMoves_mem_of (r := kr + d.1 * k) (c := kc + d.2 * k)
              (by omega) (by omega) (by omega) (by omega)
            show _ ∈ pieceMovesAt s.board (oppOf side) (oppOf (oppOf side)) false
              (kr + d.1 * k) (kc + d.2 * k)
            rw [pieceMovesAt_eq_pawn (oppOf (oppOf side)) false hp24 hp7]
            have hnotred : ¬(oppOf side = RED) := by
              rw [hblk]
              decide
            apply pawnMoves_mem_fwd
            · rw [if_neg hnotred]
              omega
            · apply mem_of_addMove_cap
              · rw [if_neg hnotred, sqI]; omega
              · rw [if_neg hnotred, sqI]; omega
              · rw [if_neg hnotred, show kr + d.1 * k + 1 = kr from by omega,
                  show kc + d.2 * k = kc from by omega]
                exact hb_nz
              · rw [if_neg hnotred, show kr + d.1 * k + 1 = kr from by omega,
                  show kc + d.2 * k = kc from by omega]
                exact hb_ne
          · have hnotred : ¬(oppOf side = RED) := by
              rw [hblk]
              decide
            rw [if_neg hnotred, show kr + d.1 * k + 1 = kr from by omega,
              show kc + d.2 * k = kc from by omega]
            exact mvTo_mkMv_pos _ _ hsq0 hsq256
    · -- cannon at distance k2 behind the screen at distance k
      refine ⟨mkMv (sqI (kr + d.1 * k2) (kc + d.2 * k2)) (sqI kr kc), ?_, ?_⟩
      · apply generateMoves_mem_of (r := kr + d.1 * k2) (c := kc + d.2 * k2)
          (by omega) (by omega) (by omega) (by omega)
        show mkMv (sqI (kr + d.1 * k2) (kc + d.2 * k2)) (sqI kr kc) ∈
          pieceMovesAt s.board (oppOf side) (oppOf (oppOf side)) false
            (kr + d.1 * k2) (kc + d.2 * k2)
        rw [hoo, pieceMovesAt_eq_cannon hp24c hp6]
        rw [List.mem_flatMap]
        refine ⟨(-d.1, -d.2), neg_mem_orthDirs hd, ?_⟩
        show mkMv (sqI (kr + d.1 * k2) (kc + d.2 * k2)) (sqI kr kc) ∈
          cannonGo s.board side false (sqI (kr + d.1 * k2) (kc + d.2 * k2))
            (kr + d.1 * k2) (kc + d.2 * k2) (-d.1) (-d.2) 9 1 false
        have hmain := cannonGo_false_of_capture s.board side false
          (sqI (kr + d.1 * k2) (kc + d.2 * k2)) (kr + d.1 * k2) (kc + d.2 * k2)
          (-d.1) (-d.2) 9 1 (k2 - k) k2 (by omega) (by omega) (by push_cast; omega)
          (fun j hj1 hj2 => by
            have h' := hke2 (k2 - j) (by omega) (by omega)
            rw [show kr + d.1 * k2 + -d.1 * j = kr + d.1 * (k2 - j) from by ring,
              show kc + d.2 * k2 + -d.2 * j = kc + d.2 * (k2 - j) from by ring]
            exact h')
          (by
            rw [show kr + d.1 * k2 + -d.1 * (k2 - k) = kr + d.1 * k from by ring,
              show kc + d.2 * k2 + -d.2 * (k2 - k) = kc + d.2 * k from by ring]
            exact hkb)
          (by
            rw [show kr + d.1 * k2 + -d.1 * (k2 - k) = kr + d.1 * k from by ring,
              show kc + d.2 * k2 + -d.2 * (k2 - k) = kc + d.2 * k from by ring]
            exact hknz2)
          (fun j hj1 hj2 => by
            have h' := hke (k2 - j) (by omega) (by omega)
            rw [show kr + d.1 * k2 + -d.1 * j = kr + d.1 * (k2 - j) from by ring,
              show kc + d.2 * k2 + -d.2 * j = kc + d.2 * (k2 - j) from by ring]
            exact h')
          (by
            rw [show kr + d.1 * k2 + -d.1 * k2 = kr from by ring,
              show kc + d.2 * k2 + -d.2 * k2 = kc from by ring]
            omega)
          (by
            rw [show kr + d.1 * k2 + -d.1 * k2 = kr from by ring,
              show kc + d.2 * k2 + -d.2 * k2 = kc from by ring]
            exact hknz)
          (by
            rw [show kr + d.1 * k2 + -d.1 * k2 = kr from by ring,
              show kc + d.2 * k2 + -d.2 * k2 = kc from by ring]
            exact hk24)
        rwa [show kr + d.1 * k2 + -d.1 * k2 = kr from by ring,
          show kc + d.2 * k2 + -d.2 * k2 = kc from by ring] at hmain
      · exact mvTo_mkMv_pos _ _ hsq0 hsq256
  · -- horse attack
    right
    rw [List.any_eq_true] at hhorse
    obtain ⟨d, hd, hhit⟩ := hhorse
    simp only [horseHit] at hhit
    by_cases hb : 0 ≤ kr + d.1 ∧ kr + d.1 ≤ 9 ∧ 0 ≤ kc + d.2 ∧ kc + d.2 ≤ 8
    · rw [if_pos hb] at hhit
      by_cases hcond : readP s.board (sqI (kr + d.1) (kc + d.2)) ≠ 0 ∧
          readP s.board (sqI (kr + d.1) (kc + d.2)) &&& 24 = oppOf side ∧
          readP s.board (sqI (kr + d.1) (kc + d.2)) &&& 7 = P_HORSE
      · rw [if_pos hcond] at hhit
        have hleg := of_decide_eq_true hhit
        rw [Int.fdiv_eq_ediv (kr + d.1 + kr) (by norm_num),
          Int.fdiv_eq_ediv (kc + d.2 + kc) (by norm_num)] at hleg
        refine ⟨mkMv (sqI (kr + d.1) (kc + d.2))
          (sqI (kr + d.1 + -d.1) (kc + d.2 + -d.2)), ?_, ?_⟩
        · apply generateMoves_mem_of (r := kr + d.1) (c := kc + d.2)
            (by omega) (by omega) (by omega) (by omega)
          show mkMv (sqI (kr + d.1) (kc + d.2)) (sqI (kr + d.1 + -d.1) (kc + d.2 + -d.2)) ∈
            pieceMovesAt s.board (oppOf side) (oppOf (oppOf side)) false
              (kr + d.1) (kc + d.2)
          rw [pieceMovesAt_eq_horse (oppOf (oppOf side)) false hcond.2.1 hcond.2.2]
          exact horseMoves_mem (-d.1, -d.2) (neg_mem_horseDirs hd)
            (show 0 ≤ kr + d.1 + -d.1 ∧ kr + d.1 + -d.1 ≤ 9 ∧ 0 ≤ kc + d.2 + -d.2 ∧
              kc + d.2 + -d.2 ≤ 8 by omega)
            (show readP s.board (sqI (kr + d.1 + (if (-d.1).natAbs = 2 then -d.1 / 2 else 0))
              (kc + d.2 + (if (-d.2).natAbs = 2 then -d.2 / 2 else 0))) = 0 by
              rw [horseLeg_row kr d.1, horseLeg_row kc d.2]
              exact hleg)
            (by
              show mkMv (sqI (kr + d.1) (kc + d.2))
                (sqI (kr + d.1 + -d.1) (kc + d.2 + -d.2)) ∈
                addMove s.board (oppOf side) (sqI (kr + d.1) (kc + d.2))
                  (sqI (kr + d.1 + -d.1) (kc + d.2 + -d.2)) false
              apply mem_of_addMove_cap
              · rw [show kr + d.1 + -d.1 = kr from by ring,
                  show kc + d.2 + -d.2 = kc from by ring]
                exact hsq0
              · rw [show kr + d.1 + -d.1 = kr from by ring,
                  show kc + d.2 + -d.2 = kc from by ring]
                exact hsq256
              · rw [show kr + d.1 + -d.1 = kr from by ring,
                  show kc + d.2 + -d.2 = kc from by ring]
                exact hb_nz
              · rw [show kr + d.1 + -d.1 = kr from by ring,
                  show kc + d.2 + -d.2 = kc from by ring]
                exact hb_ne)
        · rw [show kr + d.1 + -d.1 = kr from by ring,
            show kc + d.2 + -d.2 = kc from by ring]
          exact mvTo_mkMv_pos _ _ hsq0 hsq256
      · rw [if_neg hcond] at hhit
        exact absurd hhit (by simp)
    · rw [if_neg hb] at hhit
      exact absurd hhit (by simp)

theorem orthDirs_spec {d : Int × Int} (hd : d ∈ orthDirs) :
    (d.1 = 0 ∧ (d.2 = 1 ∨ d.2 = -1)) ∨ (d.2 = 0 ∧ (d.1 = 1 ∨ d.1 = -1)) := by
  simp only [orthDirs, List.mem_cons, List.not_mem_nil, or_false] at hd
  rcases hd with rfl | rfl | rfl | rfl <;> simp

theorem advDirs_spec {d : Int × Int} (hd : d ∈ advDirs) :
    (d.1 = 1 ∨ d.1 = -1) ∧ (d.2 = 1 ∨ d.2 = -1) := by
  simp only [advDirs, List.mem_cons, List.not_mem_nil, or_false] at hd
  rcases hd with rfl | rfl | rfl | rfl <;> simp

theorem horseDirs_bounds {d : Int × Int} (hd : d ∈ horseDirs) :
    -2 ≤ d.1 ∧ d.1 ≤ 2 ∧ -2 ≤ d.2 ∧ d.2 ≤ 2 := by
  simp only [horseDirs, List.mem_cons, List.not_mem_nil, or_false] at hd
  rcases hd with rfl | rfl | rfl | rfl | rfl | rfl | rfl | rfl <;> simp

theorem attack_implies_check (s : Pos) (side : Nat) (kr kc : Int)
    (hside : side = RED ∨ side = BLACK)
    (hkp : (if side = RED then s.redKingPos else s.blackKingPos) = sqI kr kc)
    (hkc3 : 3 ≤ kc) (hkc5 : kc ≤ 5)
    (hkrR : side = RED → 7 ≤ kr ∧ kr ≤ 9)
    (hkrB : side = BLACK → 0 ≤ kr ∧ kr ≤ 2)
    (hking : s.board (sqI kr kc) = side + 1)
    (m : Int) (hm : m ∈ generateMoves false { s with turn := oppOf side })
    (hto : mvTo m = sqI kr kc) :
    isKingInCheck s side = true := by
  have hkr09 : 0 ≤ kr ∧ kr ≤ 9 := by
    rcases hside with h | h
    · have := hkrR h
      omega
    · have := hkrB h
      omega
  have hoo : oppOf (oppOf side) = side := oppOf_oppOf hside
  have hen0 : oppOf side ≠ 0 := by rcases hside with rfl | rfl <;> decide
  have hsq0 : (0 : Int) ≤ sqI kr kc := by rw [sqI]; omega
  have hsq256 : sqI kr kc < 256 := by rw [sqI]; omega
  have hkval : readP s.board (sqI kr kc) = side + 1 := by
    rw [readP_valid hsq0 hsq256]
    exact hking
  simp only [isKingInCheck]
  rw [hkp, fdiv_sqI kr kc (by omega) (by omega), emod_sqI kr kc (by omega) (by omega)]
  simp only [Bool.or_eq_true]
  obtain ⟨r, c, hr0, hr9, hc0, hc8, hmp⟩ := generateMoves_cases hm
  have hmp' : m ∈ pieceMovesAt s.board (oppOf side) (oppOf (oppOf side)) false r c := hmp
  rw [hoo] at hmp'
  obtain ⟨ht24, hbr⟩ := pieceMovesAt_cases hmp'
  have hpnz : readP s.board (sqI r c) ≠ 0 := and24_ne_zero ht24 hen0
  rcases hbr with ⟨hp1, hbk⟩ | ⟨hp2, hba⟩ | ⟨hp3, hbe⟩ | ⟨hp4, hbh⟩ | ⟨hp5, hbrk⟩ |
    ⟨hp6, hbc⟩ | ⟨hp7, hbp⟩
  · -- king: cannot reach the opposing palace
    exfalso
    obtain ⟨d, hd, ⟨hc3a, hc5a, hpal⟩, hadd⟩ := kingMoves_cases hbk
    obtain ⟨hmeq, -⟩ := addMove_cases hadd
    subst hmeq
    have hdbb : -1 ≤ d.1 ∧ d.1 ≤ 1 ∧ -1 ≤ d.2 ∧ d.2 ≤ 1 := by
      rcases orthDirs_spec hd with ⟨ha, hb⟩ | ⟨ha, hb⟩ <;> rcases hb with hb | hb <;> omega
    by_cases hts : 0 ≤ sqI (r + d.1) (c + d.2)
    · rw [mvTo_mkMv_pos _ _ hts (by rw [sqI]; omega)] at hto
      obtain ⟨hre, hce⟩ := sqI_inj (by omega) (by omega) (by omega) (by omega) hto
      rcases hside with rfl | rfl
      · rw [oppOf_red] at hpal
        rcases hpal with ⟨hh, -⟩ | ⟨-, hh2⟩
        · exact absurd hh (by decide)
        · have := hkrR rfl
          omega
      · rw [oppOf_black] at hpal
        rcases hpal with ⟨-, hh2⟩ | ⟨hh, -⟩
        · have := hkrB rfl
          omega
        · exact absurd hh (by decide)
    · push_neg at hts
      rw [mvTo_mkMv_neg _ _ (by rw [sqI] at hts ⊢; omega) hts] at hto
      rw [sqI] at hto hts
      rw [sqI] at hto
      omega
  · -- advisor: cannot reach the opposing palace
    exfalso
    obtain ⟨d, hd, ⟨hc3a, hc5a, hpal⟩, hadd⟩ := advisorMoves_cases hba
    obtain ⟨hmeq, -⟩ := addMove_cases hadd
    subst hmeq
    have hdbb : -1 ≤ d.1 ∧ d.1 ≤ 1 ∧ -1 ≤ d.2 ∧ d.2 ≤ 1 := by
      rcases advDirs_spec hd with ⟨ha, hb⟩ <;> rcases ha with ha | ha <;>
        rcases hb with hb | hb <;> omega
    by_cases hts : 0 ≤ sqI (r + d.1) (c + d.2)
    · rw [mvTo_mkMv_pos _ _ hts (by rw [sqI]; omega)] at hto
      obtain ⟨hre, hce⟩ := sqI_inj (by omega) (by omega) (by omega) (by omega) hto
      rcases hside with rfl | rfl
      · rw [oppOf_red] at hpal
        rcases hpal with ⟨hh, -⟩ | ⟨-, hh2⟩
        · exact absurd hh (by decide)
        · have := hkrR rfl
          omega
      · rw [oppOf_black] at hpal
        rcases hpal with ⟨-, hh2⟩ | ⟨hh, -⟩
        · have := hkrB rfl
          omega
        · exact absurd hh (by decide)
    · push_neg at hts
      rw [mvTo_mkMv_neg _ _ (by rw [sqI] at hts ⊢; omega) hts] at hto
      rw [sqI] at hto hts
      rw [sqI] at hto
      omega
  · -- elephant: cannot cross the river into the opposing palace
    exfalso
    obtain ⟨d, hd, hbnd, hno1, hno2, hadd⟩ := elephantMoves_cases hbe
    obtain ⟨hmeq, -⟩ := addMove_cases hadd
    subst hmeq
    rw [mvTo_mkMv_pos _ _ (by rw [sqI]; omega) (by rw [sqI]; omega)] at hto
    obtain ⟨hre, hce⟩ := sqI_inj (by omega) (by omega) (by omega) (by omega) hto
    rcases hside with rfl | rfl
    · rw [oppOf_red] at hno2
      exact hno2 ⟨rfl, by have := hkrR rfl; omega⟩
    · rw [oppOf_black] at hno1
      exact hno1 ⟨rfl, by have := hkrB rfl; omega⟩
  · -- horse
    obtain ⟨d, hd, hbnd, hleg, hadd⟩ := horseMoves_cases hbh
    obtain ⟨hmeq, -⟩ := addMove_cases hadd
    subst hmeq
    rw [mvTo_mkMv_pos _ _ (by rw [sqI]; omega) (by rw [sqI]; omega)] at hto
    obtain ⟨hre, hce⟩ := sqI_inj (by omega) (by omega) (by omega) (by omega) hto
    right
    rw [List.any_eq_true]
    refine ⟨(-d.1, -d.2), neg_mem_horseDirs hd, ?_⟩
    show horseHit s.board (oppOf side) kr kc (-d.1) (-d.2) = true
    simp only [horseHit]
    rw [show kr + -d.1 = r from by omega, show kc + -d.2 = c from by omega]
    rw [if_pos (show 0 ≤ r ∧ r ≤ 9 ∧ 0 ≤ c ∧ c ≤ 8 from by omega)]
    rw [if_pos (show readP s.board (sqI r c) ≠ 0 ∧
      readP s.board (sqI r c) &&& 24 = oppOf side ∧
      readP s.board (sqI r c) &&& 7 = P_HORSE from ⟨hpnz, ht24, hp4⟩)]
    apply decide_eq_true
    rw [Int.fdiv_eq_ediv (r + kr) (by norm_num), Int.fdiv_eq_ediv (c + kc) (by norm_num)]
    rw [show r + kr = r + (r + d.1) from by omega, show c + kc = c + (c + d.2) from by omega]
    rw [horseLeg_det r d.1, horseLeg_det c d.2]
    exact hleg
  · -- rook
    rw [List.mem_flatMap] at hbrk
    obtain ⟨d, hd, hmr⟩ := hbrk
    have hmr' : m ∈ rookGo s.board side false (sqI r c) r c d.1 d.2 9 1 := hmr
    obtain ⟨k, hk1, hk9, hke, hkb, hkm, hkcap⟩ :=
      rookGo_mem_cases s.board side false (sqI r c) r c d.1 d.2 9 1 m hmr'
    subst hkm
    rw [mvTo_mkMv_pos _ _ (by rw [sqI]; omega) (by rw [sqI]; omega)] at hto
    obtain ⟨hre, hce⟩ := sqI_inj (by omega) (by omega) (by omega) (by omega) hto
    left
    right
    rw [List.any_eq_true]
    refine ⟨(-d.1, -d.2), neg_mem_orthDirs hd, ?_⟩
    show rayGo s.board (oppOf side) kr kc (-d.1) (-d.2) 9 1 false = true
    refine rayGo_first_hit s.board (oppOf side) kr kc (-d.1) (-d.2) 9 1 k hk1
      (by push_cast at hk9 ⊢; omega) (fun j hj1 hj2 => ?_) ?_ ?_ ?_ ?_
    · have h' := hke (k - j) (by omega) (by omega)
      rw [show kr + -d.1 * j = r + d.1 * (k - j) from by rw [← hre]; ring,
        show kc + -d.2 * j = c + d.2 * (k - j) from by rw [← hce]; ring]
      exact h'
    · rw [show kr + -d.1 * k = r from by rw [← hre]; ring,
        show kc + -d.2 * k = c from by rw [← hce]; ring]
      omega
    · rw [show kr + -d.1 * k = r from by rw [← hre]; ring,
        show kc + -d.2 * k = c from by rw [← hce]; ring]
      exact hpnz
    · rw [show kr + -d.1 * k = r from by rw [← hre]; ring,
        show kc + -d.2 * k = c from by rw [← hce]; ring]
      exact ht24
    · rw [show kr + -d.1 * k = r from by rw [← hre]; ring,
        show kc + -d.2 * k = c from by rw [← hce]; ring]
      exact Or.inl hp5
  · -- cannon
    rw [List.mem_flatMap] at hbc
    obtain ⟨d, hd, hmc⟩ := hbc
    have hmc' : m ∈ cannonGo s.board side false (sqI r c) r c d.1 d.2 9 1 false := hmc
    rcases cannonGo_false_cases s.board side false (sqI r c) r c d.1 d.2 9 1 m hmc' with
      ⟨k, hk1, hk9, hkb, hkm, hkz, -⟩ |
      ⟨ds, k, hds1, hdsk, hk9, hemp1, hdb, hdnz, hemp2, hkb, hkm, hknz2, -⟩
    · exfalso
      subst hkm
      rw [mvTo_mkMv_pos _ _ (by rw [sqI]; omega) (by rw [sqI]; omega)] at hto
      rw [hto, hkval] at hkz
      omega
    · subst hkm
      rw [mvTo_mkMv_pos _ _ (by rw [sqI]; omega) (by rw [sqI]; omega)] at hto
      obtain ⟨hre, hce⟩ := sqI_inj (by omega) (by omega) (by omega) (by omega) hto
      left
      right
      rw [List.any_eq_true]
      refine ⟨(-d.1, -d.2), neg_mem_orthDirs hd, ?_⟩
      show rayGo s.board (oppOf side) kr kc (-d.1) (-d.2) 9 1 false = true
      refine rayGo_screen_hit s.board (oppOf side) kr kc (-d.1) (-d.2) 9 1 (k - ds) k
        (by omega) (by omega) (by push_cast at hk9 ⊢; omega)
        (fun j hj1 hj2 => ?_) ?_ ?_ (fun j hj1 hj2 => ?_) ?_ ?_ ?_ ?_
      · have h' := hemp2 (k - j) (by omega) (by omega)
        rw [show kr + -d.1 * j = r + d.1 * (k - j) from by rw [← hre]; ring,
          show kc + -d.2 * j = c + d.2 * (k - j) from by rw [← hce]; ring]
        exact h'
      · rw [show kr + -d.1 * (k - ds) = r + d.1 * ds from by rw [← hre]; ring,
          show kc + -d.2 * (k - ds) = c + d.2 * ds from by rw [← hce]; ring]
        exact hdb
      · rw [show kr + -d.1 * (k - ds) = r + d.1 * ds from by rw [← hre]; ring,
          show kc + -d.2 * (k - ds) = c + d.2 * ds from by rw [← hce]; ring]
        exact hdnz
      · have h' := hemp1 (k - j) (by omega) (by omega)
        rw [show kr + -d.1 * j = r + d.1 * (k - j) from by rw [← hre]; ring,
          show kc + -d.2 * j = c + d.2 * (k - j) from by rw [← hce]; ring]
        exact h'
      · rw [show kr + -d.1 * k = r from by rw [← hre]; ring,
          show kc + -d.2 * k = c from by rw [← hce]; ring]
        omega
      · rw [show kr + -d.1 * k = r from by rw [← hre]; ring,
          show kc + -d.2 * k = c from by rw [← hce]; ring]
        exact hpnz
      · rw [show kr + -d.1 * k = r from by rw [← hre]; ring,
          show kc + -d.2 * k = c from by rw [← hce]; ring]
        exact ht24
      · rw [show kr + -d.1 * k = r from by rw [← hre]; ring,
          show kc + -d.2 * k = c from by rw [← hce]; ring]
        exact hp6
  · -- pawn
    rcases pawnMoves_cases hbp with ⟨hf0, hf9, hadd⟩ | ⟨hcr, hcpos, hadd⟩ | ⟨hcr, hc8a, hadd⟩
    · -- forward capture
      obtain ⟨hmeq, -⟩ := addMove_cases hadd
      subst hmeq
      left
      right
      rcases hside with rfl | rfl
      · -- side RED, enemy BLACK: forward is +1
        rw [oppOf_red] at hto hf0 hf9 ⊢
        rw [if_neg (show ¬(BLACK = RED) by decide)] at hto hf0 hf9
        rw [mvTo_mkMv_pos _ _ (by rw [sqI]; omega) (by rw [sqI]; omega)] at hto
        obtain ⟨hre, hce⟩ := sqI_inj (by omega) (by omega) (by omega) (by omega) hto
        rw [List.any_eq_true]
        refine ⟨(-1, 0), by decide, ?_⟩
        show rayGo s.board BLACK kr kc (-1) 0 9 1 false = true
        refine rayGo_first_hit s.board BLACK kr kc (-1) 0 9 1 1 (le_refl _)
          (by norm_num) (fun j hj1 hj2 => absurd hj1 (by omega)) ?_ ?_ ?_ ?_
        · rw [show kr + -1 * 1 = r from by omega, show kc + 0 * 1 = c from by omega]
          omega
        · rw [show kr + -1 * 1 = r from by omega, show kc + 0 * 1 = c from by omega]
          exact hpnz
        · rw [show kr + -1 * 1 = r from by omega, show kc + 0 * 1 = c from by omega]
          rw [oppOf_red] at ht24
          exact ht24
        · rw [show kr + -1 * 1 = r from by omega, show kc + 0 * 1 = c from by omega]
          refine Or.inr ⟨hp7, ?_⟩
          rw [show kr = r + 1 from by omega, show kc = c from by omega]
          exact pawnHit_black_fwd r c
      · -- side BLACK, enemy RED: forward is -1
        rw [oppOf_black] at hto hf0 hf9 ⊢
        rw [if_pos rfl] at hto hf0 hf9
        rw [mvTo_mkMv_pos _ _ (by rw [sqI]; omega) (by rw [sqI]; omega)] at hto
        obtain ⟨hre, hce⟩ := sqI_inj (by omega) (by omega) (by omega) (by omega) hto
        rw [List.any_eq_true]
        refine ⟨(1, 0), by decide, ?_⟩
        show rayGo s.board RED kr kc 1 0 9 1 false = true
        refine rayGo_first_hit s.board RED kr kc 1 0 9 1 1 (le_refl _)
          (by norm_num) (fun j hj1 hj2 => absurd hj1 (by omega)) ?_ ?_ ?_ ?_
        · rw [show kr + 1 * 1 = r from by omega, show kc + 0 * 1 = c from by omega]
          omega
        · rw [show kr + 1 * 1 = r from by omega, show kc + 0 * 1 = c from by omega]
          exact hpnz
        · rw [show kr + 1 * 1 = r from by omega, show kc + 0 * 1 = c from by omega]
          rw [oppOf_black] at ht24
          exact ht24
        · rw [show kr + 1 * 1 = r from by omega, show kc + 0 * 1 = c from by omega]
          refine Or.inr ⟨hp7, ?_⟩
          rw [show kr = r + -1 from by omega, show kc = c from by omega]
          exact pawnHit_red_fwd r c
    · -- sideways capture to the left (c - 1)
      obtain ⟨hmeq, -⟩ := addMove_cases hadd
      subst hmeq
      left
      right
      rw [mvTo_mkMv_pos _ _ (by rw [sqI]; omega) (by rw [sqI]; omega)] at hto
      obtain ⟨hre, hce⟩ := sqI_inj (by omega) (by omega) (by omega) (by omega) hto
      rw [List.any_eq_true]
      refine ⟨(0, 1), by decide, ?_⟩
      show rayGo s.board (oppOf side) kr kc 0 1 9 1 false = true
      refine rayGo_first_hit s.board (oppOf side) kr kc 0 1 9 1 1 (le_refl _)
        (by norm_num) (fun j hj1 hj2 => absurd hj1 (by omega)) ?_ ?_ ?_ ?_
      · rw [show kr + 0 * 1 = r from by omega, show kc + 1 * 1 = c from by omega]
        omega
      · rw [show kr + 0 * 1 = r from by omega, show kc + 1 * 1 = c from by omega]
        exact hpnz
      · rw [show kr + 0 * 1 = r from by omega, show kc + 1 * 1 = c from by omega]
        exact ht24
      · rw [show kr + 0 * 1 = r from by omega, show kc + 1 * 1 = c from by omega]
        refine Or.inr ⟨hp7, ?_⟩
        rw [show kr = r from by omega, show kc = c + -1 from by omega]
        rcases hside with rfl | rfl
        · rw [oppOf_red] at hcr ⊢
          rw [if_neg (show ¬(BLACK = RED) by decide)] at hcr
          exact pawnHit_black_side r c (-1) (Or.inl rfl) (of_decide_eq_true hcr)
        · rw [oppOf_black] at hcr ⊢
          rw [if_pos rfl] at hcr
          exact pawnHit_red_side r c (-1) (Or.inl rfl) (of_decide_eq_true hcr)
    · -- sideways capture to the right (c + 1)
      obtain ⟨hmeq, -⟩ := addMove_cases hadd
      subst hmeq
      left
      right
      rw [mvTo_mkMv_pos _ _ (by rw [sqI]; omega) (by rw [sqI]; omega)] at hto
      obtain ⟨hre, hce⟩ := sqI_inj (by omega) (by omega) (by omega) (by omega) hto
      rw [List.any_eq_true]
      refine ⟨(0, -1), by decide, ?_⟩
      show rayGo s.board (oppOf side) kr kc 0 (-1) 9 1 false = true
      refine rayGo_first_hit s.board (oppOf side) kr kc 0 (-1) 9 1 1 (le_refl _)
        (by norm_num) (fun j hj1 hj2 => absurd hj1 (by omega)) ?_ ?_ ?_ ?_
      · rw [show kr + 0 * 1 = r from by omega, show kc + -1 * 1 = c from by omega]
        omega
      · rw [show kr + 0 * 1 = r from by omega, show kc + -1 * 1 = c from by omega]
        exact hpnz
      · rw [show kr + 0 * 1 = r from by omega, show kc + -1 * 1 = c from by omega]
        exact ht24
      · rw [show kr + 0 * 1 = r from by omega, show kc + -1 * 1 = c from by omega]
        refine Or.inr ⟨hp7, ?_⟩
        rw [show kr = r from by omega, show kc = c + 1 from by omega]
        rcases hside with rfl | rfl
        · rw [oppOf_red] at hcr ⊢
          rw [if_neg (show ¬(BLACK = RED) by decide)] at hcr
          exact pawnHit_black_side r c 1 (Or.inr rfl) (of_decide_eq_true hcr)
        · rw [oppOf_black] at hcr ⊢
          rw [if_pos rfl] at hcr
          exact pawnHit_red_side r c 1 (Or.inr rfl) (of_decide_eq_true hcr)

/-- C2 (amended): for any position in which `side`'s king stands on its
tracked square `sqI kr kc` inside its own palace (columns 3-5, rows 7-9
for Red and 0-2 for Black), `isKingInCheck(side)` returns `true` exactly
when the flying-general test fires (the two kings face each other on an
open file -- a rule with no generated-move counterpart) or some
pseudo-legal move of the opposing side, as enumerated by `generateMoves`
with the opposing side to move, lands on the king's square. -/
theorem C2_check_iff (s : Pos) (side : Nat) (kr kc : Int)
    (hside : side = RED ∨ side = BLACK)
    (hkp : (if side = RED then s.redKingPos else s.blackKingPos) = sqI kr kc)
    (hkc3 : 3 ≤ kc) (hkc5 : kc ≤ 5)
    (hkrR : side = RED → 7 ≤ kr ∧ kr ≤ 9)
    (hkrB : side = BLACK → 0 ≤ kr ∧ kr ≤ 2)
    (hking : s.board (sqI kr kc) = side + 1) :
    isKingInCheck s side = true ↔
      (flyingFacing s side = true ∨
       ∃ m ∈ generateMoves false { s with turn := oppOf side }, mvTo m = sqI kr kc) := by
  constructor
  · intro h
    refine check_attack_exists s side kr kc hside hkp hkc3 hkc5 ?_ hking h
    rcases hside with h' | h'
    · have := hkrR h'
      omega
    · have := hkrB h'
      omega
  · rintro (hfly | ⟨m, hm, hto⟩)
    · simp only [isKingInCheck]
      rw [hfly]
      rfl
    · exact attack_implies_check s side kr kc hside hkp hkc3 hkc5 hkrR hkrB hking m hm hto

theorem C2_check_iff_witness :
    isKingInCheck stalePos BLACK = true ↔
      (flyingFacing stalePos BLACK = true ∨
       ∃ m ∈ generateMoves false { stalePos with turn := oppOf BLACK },
         mvTo m = sqI 2 4) :=
  C2_check_iff stalePos BLACK 2 4 (Or.inr rfl) (by decide) (by decide) (by decide)
    (fun h => absurd h (by decide)) (fun _ => by decide) (by decide)

end XQ

